import Mathlib

/-!
Statement normalisation of the grounder (`libgringo/src/input/statement.cc`).

A shallow embedding of `Gringo::Input::Statement` and of the helpers of
`statement.cc`: unpooling, printing of weak constraints and the
assignment resolver `_rewriteAssignments` with its split policy.

Classes that `statement.cc` only uses through their virtual interface
(`HeadAggr`, `BodyAggr`, `Term`, `SafetyChecker`) are represented by what
these interfaces return; the places where this is done are marked.
-/

namespace Gringo

/-! ## Locations and statement kinds -/

/-- Source range of a syntactic object (`Location`). -/
structure Location where
  beginFilename : String
  beginLine : Nat
  beginColumn : Nat
  endFilename : String
  endLine : Nat
  endColumn : Nat
deriving DecidableEq, Repr

namespace Input

/-- The enumeration `Statement::Type`. -/
inductive StatementType where
  | RULE
  | EXTERNAL
  | WEAKCONSTRAINT
deriving DecidableEq, Repr

/-- The class `Statement`: a head, a body, a kind and a location. The head
class `H` and the body element class `B` are parameters, they are only used
through their virtual methods. -/
structure Statement (H B : Type) where
  head : H
  body : List B
  type : StatementType
  loc : Location
deriving DecidableEq, Repr

/-- Virtual methods `unpool` and `hasPool` of `HeadAggr` and `BodyAggr`.
`unpoolHead h b` is the list of elements that `h->unpool(x, b)` appends to
`x`, likewise for body elements. -/
structure PoolOps (H B : Type) where
  unpoolHead : H → Bool → List H
  unpoolBody : B → Bool → List B
  hasPoolHead : H → Bool → Bool
  hasPoolBody : B → Bool → Bool

/-! ## Statement::unpool and Statement::hasPool -/

/-- The local vector `body` of `Statement::unpool`: every body element
appends its alternatives to one and the same vector. -/
def Statement.unpoolBody {H B : Type} (ops : PoolOps H B) (s : Statement H B)
    (beforeRewrite : Bool) : List B :=
  s.body.foldl (fun body y => body ++ ops.unpoolBody y beforeRewrite) []

/-- The method `Statement::unpool`: one statement per element of the
unpooled head, each with a clone of the unpooled body. -/
def Statement.unpool {H B : Type} (ops : PoolOps H B) (s : Statement H B)
    (beforeRewrite : Bool) : List (Statement H B) :=
  let body := s.unpoolBody ops beforeRewrite
  let head := ops.unpoolHead s.head beforeRewrite
  head.foldl (fun x y => x ++ [{ head := y, body := body, type := s.type, loc := s.loc }]) []

/-- The loop of `Statement::hasPool` over the body, with its early return. -/
def hasPoolBodyLoop {B : Type} (hasPool : B → Bool → Bool) (beforeRewrite : Bool) :
    List B → Bool
  | [] => false
  | x :: rest => if hasPool x beforeRewrite then true else hasPoolBodyLoop hasPool beforeRewrite rest

/-- The method `Statement::hasPool`. -/
def Statement.hasPool {H B : Type} (ops : PoolOps H B) (s : Statement H B)
    (beforeRewrite : Bool) : Bool :=
  if hasPoolBodyLoop ops.hasPoolBody beforeRewrite s.body then true
  else ops.hasPoolHead s.head beforeRewrite

/-! ## A concrete term language with pools -/

/-- Polarity of a literal (`NAF`). -/
inductive NAF where
  | POS
  | NOT
  | NOTNOT
deriving DecidableEq, Repr

/-- The class `Value` of ground terms, with the kinds that the scripting
interfaces distinguish (`Value::NUM`, `ID`, `STRING`, `FUNC`, `INF`, `SUP`,
`SPECIAL`). -/
inductive Value where
  | NUM (num : Int)
  | ID (name : String)
  | STRING (string : String)
  | FUNC (name : String) (args : List Value)
  | INF
  | SUP
  | SPECIAL
deriving Repr

/-- Modelled from the spec: the term classes are declared outside
`statement.cc`; the data model lists constants, variables with a level, pools
of alternatives and function terms, which is what is kept here (locations of
terms are left out). -/
inductive Term where
  | ValTerm (value : Value)
  | VarTerm (name : String) (level : Nat)
  | PoolTerm (args : List Term)
  | FunctionTerm (name : String) (args : List Term)
deriving Repr

mutual
/-- Modelled from the spec: `Term::hasPool`, whether a pool occurs in the term. -/
def Term.hasPool : Term → Bool
  | .ValTerm _ => false
  | .VarTerm _ _ => false
  | .PoolTerm _ => true
  | .FunctionTerm _ args => Term.hasPoolList args
/-- Whether a pool occurs in one of the terms. -/
def Term.hasPoolList : List Term → Bool
  | [] => false
  | t :: ts => t.hasPool || Term.hasPoolList ts
end

mutual
/-- Modelled from the spec: `Term::unpool`, one term per combination of the
pools of the term, pools taken left to right and alternatives in declaration
order. -/
def Term.unpool : Term → List Term
  | .ValTerm n => [.ValTerm n]
  | .VarTerm x l => [.VarTerm x l]
  | .PoolTerm alts => Term.unpoolAlts alts
  | .FunctionTerm f args => (Term.unpoolArgs args).map (Term.FunctionTerm f)
/-- The alternatives of a pool, each unpooled, in declaration order. -/
def Term.unpoolAlts : List Term → List Term
  | [] => []
  | t :: ts => t.unpool ++ Term.unpoolAlts ts
/-- The cross product of the unpooled arguments, leftmost argument slowest. -/
def Term.unpoolArgs : List Term → List (List Term)
  | [] => [[]]
  | t :: ts => t.unpool.flatMap (fun a => (Term.unpoolArgs ts).map (fun as => a :: as))
end

/-- Comparison relations of relation literals. -/
inductive Relation where
  | GT
  | LT
  | LEQ
  | GEQ
  | NEQ
  | EQ
  | ASSIGN
deriving DecidableEq, Repr

/-- Modelled from the spec: the literal classes are declared outside
`statement.cc`; kept are predicate literals (polarity and atom) and
comparison literals (relation, left and right term). -/
inductive Literal where
  | PredicateLiteral (naf : NAF) (repr : Term)
  | RelationLiteral (rel : Relation) (left : Term) (right : Term)
deriving Repr

/-- Modelled from the spec: a pooled literal stands for one literal per
combination of the alternatives of its terms. -/
def Literal.unpool (l : Literal) (_beforeRewrite : Bool) : List Literal :=
  match l with
  | .PredicateLiteral naf repr => repr.unpool.map (Literal.PredicateLiteral naf)
  | .RelationLiteral rel left right =>
    left.unpool.flatMap (fun a => right.unpool.map (fun c => Literal.RelationLiteral rel a c))

/-- Modelled from the spec: a literal has a pool when one of its terms has. -/
def Literal.hasPool (l : Literal) (_beforeRewrite : Bool) : Bool :=
  match l with
  | .PredicateLiteral _ repr => repr.hasPool
  | .RelationLiteral _ left right => left.hasPool || right.hasPool

/-- The virtual methods `unpool` and `hasPool` of simple head literals and of
simple body literals, both identified with the literal they wrap. -/
def litOps : PoolOps Literal Literal where
  unpoolHead := Literal.unpool
  unpoolBody := Literal.unpool
  hasPoolHead := Literal.hasPool
  hasPoolBody := Literal.hasPool

/-- An arbitrary location used in examples. -/
def exLoc : Location := ⟨"<stdin>", 1, 1, "<stdin>", 1, 12⟩

/-- The atom `p(1;2)`. -/
def atom_p12 : Literal := .PredicateLiteral .POS (.FunctionTerm "p" [.PoolTerm [.ValTerm (.NUM 1), .ValTerm (.NUM 2)]])
/-- The atom `p(1)`. -/
def atom_p1 : Literal := .PredicateLiteral .POS (.FunctionTerm "p" [.ValTerm (.NUM 1)])
/-- The atom `p(2)`. -/
def atom_p2 : Literal := .PredicateLiteral .POS (.FunctionTerm "p" [.ValTerm (.NUM 2)])
/-- The atom `q`. -/
def atom_q : Literal := .PredicateLiteral .POS (.FunctionTerm "q" [])
/-- The atom `q(1;2)`. -/
def atom_q12 : Literal := .PredicateLiteral .POS (.FunctionTerm "q" [.PoolTerm [.ValTerm (.NUM 1), .ValTerm (.NUM 2)]])
/-- The atom `q(1)`. -/
def atom_q1 : Literal := .PredicateLiteral .POS (.FunctionTerm "q" [.ValTerm (.NUM 1)])
/-- The atom `q(2)`. -/
def atom_q2 : Literal := .PredicateLiteral .POS (.FunctionTerm "q" [.ValTerm (.NUM 2)])
/-- The atom `p`. -/
def atom_p : Literal := .PredicateLiteral .POS (.FunctionTerm "p" [])

mutual
/-- The sizes of the pools met in a term, left to right; a pool counts with
the number of terms it stands for. -/
def Term.poolSizes : Term → List Nat
  | .ValTerm _ => []
  | .VarTerm _ _ => []
  | .PoolTerm alts => [(Term.unpoolAlts alts).length]
  | .FunctionTerm _ args => Term.poolSizesList args
/-- The sizes of the pools met in a list of terms. -/
def Term.poolSizesList : List Term → List Nat
  | [] => []
  | t :: ts => t.poolSizes ++ Term.poolSizesList ts
end

/-- The sizes of the pools met in a literal, left to right. -/
def Literal.poolSizes : Literal → List Nat
  | .PredicateLiteral _ repr => repr.poolSizes
  | .RelationLiteral _ left right => left.poolSizes ++ right.poolSizes

/-- The sizes `n1..nk` of the pools of a statement, head first, then the body
elements in order. -/
def Statement.poolSizes (s : Statement Literal Literal) : List Nat :=
  s.head.poolSizes ++ s.body.flatMap (fun y => y.poolSizes)

/-- The rule `p :- q(1;2).` -/
def stm_p_q12 : Statement Literal Literal := ⟨atom_p, [atom_q12], .RULE, exLoc⟩
/-- The rule `p(1;2) :- q.` -/
def stm_p12_q : Statement Literal Literal := ⟨atom_p12, [atom_q], .RULE, exLoc⟩
/-- The rule `p :- q.` -/
def stm_p_q : Statement Literal Literal := ⟨atom_p, [atom_q], .RULE, exLoc⟩

/-! ## Printing of statements -/

/-- The enumeration `Term::Invertibility`. -/
inductive Invertibility where
  | CONSTANT
  | INVERTIBLE
  | NOT_INVERTIBLE
deriving DecidableEq, Repr

/-- Modelled from the spec: the head classes are declared outside
`statement.cc`; kept are simple head literals and disjunctions. -/
inductive HeadAggr where
  | SimpleHeadLiteral (lit : Literal)
  | Disjunction (elems : List Literal)
deriving Repr

/-- The methods of terms and values that `statement.cc` calls and that are
defined elsewhere: `Term::getInvertibility`, `Term::eval` and the stream
output of a term, of a value and of a head. -/
structure TermOps where
  getInvertibility : Term → Invertibility
  eval : Term → Value
  printTerm : Term → String
  printValue : Value → String
  printHead : HeadAggr → String

/-- Modelled from the spec: `print_comma(out, vec, sep, f)` writes the elements
of `vec` with `f`, separated by `sep`. -/
def print_comma {α : Type} (out : String) (vec : List α) (sep : String)
    (f : String → α → String) : String :=
  match vec with
  | [] => out
  | x :: rest => rest.foldl (fun out y => f (out ++ sep) y) (f out x)

/-- The helper `wc_term_from_head`: the atom of the predicate literal wrapped
by a simple head literal; `none` where the casts of the source are invalid. -/
def wc_term_from_head : HeadAggr → Option Term
  | .SimpleHeadLiteral (.PredicateLiteral _ repr) => some repr
  | _ => none

/-- The accessor `Value::args`, defined on function values only. -/
def Value.args : Value → Option (List Value)
  | .FUNC _ args => some args
  | _ => none

/-- The method `Statement::print`, appending to the stream content `out`.
The result is `none` where the source reads a vector element or casts a term
that does not exist. -/
def Statement.print {B : Type} (ops : TermOps) (printBody : B → String)
    (s : Statement HeadAggr B) (out : String) : Option String :=
  if s.type ≠ StatementType.WEAKCONSTRAINT then
    let out := if s.type = StatementType.EXTERNAL then out ++ "#external " else out
    let out := out ++ ops.printHead s.head
    let out :=
      if !s.body.isEmpty then
        let out := out ++ (if s.type = StatementType.EXTERNAL then ":" else ":-")
        print_comma out s.body ";" (fun out x => out ++ printBody x)
      else out
    some (out ++ ".")
  else
    let out := out ++ ":~"
    let out := print_comma out s.body ";" (fun out x => out ++ printBody x)
    let out := out ++ ".["
    match wc_term_from_head s.head with
    | none => none
    | some term =>
      if ops.getInvertibility term = Invertibility.CONSTANT then
        match (ops.eval term).args with
        | some (front :: second :: rest) =>
          let out := out ++ ops.printValue front ++ "@" ++ ops.printValue second
          let out := rest.foldl (fun out it => out ++ "," ++ ops.printValue it) out
          some (out ++ "]")
        | _ => none
      else
        match term with
        | .FunctionTerm _ (front :: second :: rest) =>
          let out := out ++ ops.printTerm front ++ "@" ++ ops.printTerm second
          let out := rest.foldl (fun out it => out ++ "," ++ ops.printTerm it) out
          some (out ++ "]")
        | _ => none

/-- The strings `b1..bm` separated by `sep`. -/
def separatedBy (sep : String) : List String → String
  | [] => ""
  | [x] => x
  | x :: y :: rest => x ++ sep ++ separatedBy sep (y :: rest)

/-- The strings `sep t1 .. sep tn`, every string preceded by `sep`. -/
def precededBy (sep : String) : List String → String
  | [] => ""
  | x :: rest => sep ++ x ++ precededBy sep rest

/-- Modelled from the spec: stream output of the values used in the examples;
numbers in decimal, identifiers and strings by their text, function values as
`name(args)`. -/
def exPrintValue : Value → String
  | .NUM n => toString n
  | .ID name => name
  | .STRING s => "\"" ++ s ++ "\""
  | .FUNC name _ => name ++ "(..)"
  | .INF => "#inf"
  | .SUP => "#sup"
  | .SPECIAL => "#special"

/-- Modelled from the spec: stream output of the terms used in the examples. -/
def exPrintTerm : Term → String
  | .ValTerm v => exPrintValue v
  | .VarTerm name _ => name
  | .PoolTerm _ => "(..;..)"
  | .FunctionTerm name [] => name
  | .FunctionTerm name _ => name ++ "(..)"

/-- Modelled from the spec: the term methods used in the examples; value
terms are constant and evaluate to their value. -/
def exTermOps : TermOps where
  getInvertibility := fun t =>
    match t with
    | .ValTerm _ => Invertibility.CONSTANT
    | _ => Invertibility.INVERTIBLE
  eval := fun t =>
    match t with
    | .ValTerm v => v
    | _ => Value.SPECIAL
  printTerm := exPrintTerm
  printValue := exPrintValue
  printHead := fun h =>
    match h with
    | .SimpleHeadLiteral (.PredicateLiteral _ repr) => exPrintTerm repr
    | _ => "(..)"

/-- Stream output of the literals used in the examples. -/
def exPrintBody : Literal → String
  | .PredicateLiteral _ repr => exPrintTerm repr
  | .RelationLiteral _ left right => exPrintTerm left ++ "=" ++ exPrintTerm right

/-- The atom `a`. -/
def atom_a : Literal := .PredicateLiteral .POS (.FunctionTerm "a" [])

/-- The weak constraint `:~ a. [1@2]` as built by the parser: the head packs
weight and priority into the function term `#wc(1,2)`. -/
def stm_wc_a : Statement HeadAggr Literal :=
  ⟨.SimpleHeadLiteral (.PredicateLiteral .POS
      (.FunctionTerm "#wc" [.ValTerm (.NUM 1), .ValTerm (.NUM 2)])),
   [atom_a], .WEAKCONSTRAINT, exLoc⟩

/-- The weak constraint `:~ a. [1@2]` after simplification: the packed head
term is the constant `#wc(1,2)`. -/
def stm_wc_a_const : Statement HeadAggr Literal :=
  ⟨.SimpleHeadLiteral (.PredicateLiteral .POS
      (.ValTerm (.FUNC "#wc" [.NUM 1, .NUM 2]))),
   [atom_a], .WEAKCONSTRAINT, exLoc⟩

/-! ## The assignment resolver: data -/

/-- A variable occurrence (`VarTerm`): its name and its level. -/
structure VarTerm where
  name : String
  level : Nat
deriving DecidableEq, Repr

/-- The vector type `VarTermBoundVec`: variable occurrences, each with the
flag telling whether the occurrence binds the variable. -/
abbrev VarTermBoundVec := List (VarTerm × Bool)

/-- Modelled from the spec: the body element class `BodyAggr` is declared
outside `statement.cc`, which uses it through `collect`, `isAssignment` and
`removeAssignment` only. An element is given by its printed form, by the
occurrences that `collect` reports (provided occurrences flagged `true`,
consumed ones `false`) and by whether it is an assignment. -/
structure BodyAggr where
  repr : String
  vars : VarTermBoundVec
  assignment : Bool
deriving DecidableEq, Repr

/-- The method `BodyAggr::isAssignment`. -/
def BodyAggr.isAssignment (y : BodyAggr) : Bool := y.assignment

/-- The method `BodyAggr::removeAssignment`: the element stops being an
assignment and becomes a plain check. -/
def BodyAggr.removeAssignment (y : BodyAggr) : BodyAggr := { y with assignment := false }

/-- The method `BodyAggr::collect`, appending the occurrences to `vars`. -/
def BodyAggr.collect (y : BodyAggr) (vars : VarTermBoundVec) : VarTermBoundVec :=
  vars ++ y.vars

/-- The literal `PredicateLiteral(loc, NAF::POS, FunctionTerm(loc, name, args))`
that heads a split. -/
def splitLiteral (name : String) (args : List VarTerm) : Literal :=
  .PredicateLiteral .POS (.FunctionTerm name (args.map (fun v => Term.VarTerm v.name v.level)))

/-- Modelled from the spec: the body element `SimpleBodyLiteral(split)` over a
split literal; a positive predicate literal provides the variables of its
arguments and is not an assignment. -/
def splitBodyLiteral (name : String) (args : List VarTerm) : BodyAggr where
  repr := name ++ "(" ++ separatedBy "," (args.map (fun v => v.name)) ++ ")"
  vars := args.map (fun v => (v, true))
  assignment := false

/-- The vector type `Statement::SplitVec`: pairs of a split literal and the
body captured for it. -/
abbrev SplitVec := List (Literal × List BodyAggr)

/-- Modelled from the spec: the dependency graph `SafetyChecker<VarTerm*,
UBodyAggr>` is declared outside `statement.cc`. Literal nodes are addressed
by their position in insertion order, variable nodes by their name (the
`VarMap` of the resolver keeps one node per name). A literal node has its
element, the variables it provides and the number of its unresolved
dependencies; a variable node has its bound flag and the literals that
require it. -/
structure SafetyChecker where
  entNodes : List BodyAggr
  entProvides : Nat → List String
  entDepends : Nat → Nat
  varNodes : List VarTerm
  varProvides : String → List Nat
  varBound : String → Bool

/-- The empty graph. -/
def SafetyChecker.empty : SafetyChecker where
  entNodes := []
  entProvides := fun _ => []
  entDepends := fun _ => 0
  varNodes := []
  varProvides := fun _ => []
  varBound := fun _ => false

/-- Modelled from the spec: the method `insertEnt`, a new literal node; the
result is the graph and the address of the node. -/
def SafetyChecker.insertEnt (dep : SafetyChecker) (y : BodyAggr) : SafetyChecker × Nat :=
  ({ dep with entNodes := dep.entNodes ++ [y] }, dep.entNodes.length)

/-- Modelled from the spec: the method `insertVar`, a new, unbound variable
node. -/
def SafetyChecker.insertVar (dep : SafetyChecker) (v : VarTerm) : SafetyChecker :=
  { dep with varNodes := dep.varNodes ++ [v] }

/-- Modelled from the spec: the method `insertEdge(EntNode&, VarNode&)`,
literal `x` provides variable `y`. -/
def SafetyChecker.insertEdgeEntVar (dep : SafetyChecker) (x : Nat) (y : String) :
    SafetyChecker :=
  { dep with entProvides := Function.update dep.entProvides x (dep.entProvides x ++ [y]) }

/-- Modelled from the spec: the method `insertEdge(VarNode&, EntNode&)`,
literal `y` requires variable
`x`, one more unresolved dependency of `y`. -/
def SafetyChecker.insertEdgeVarEnt (dep : SafetyChecker) (x : String) (y : Nat) :
    SafetyChecker :=
  { dep with
    varProvides := Function.update dep.varProvides x (dep.varProvides x ++ [y])
    entDepends := Function.update dep.entDepends y (dep.entDepends y + 1) }

/-- Modelled from the spec: the method `init`, which seeds `open` with the
literal nodes without unresolved dependency, in original body order (the
specification has the open set filled in original body order). -/
def SafetyChecker.init (dep : SafetyChecker) (open_ : List Nat) : List Nat :=
  open_ ++ (List.range dep.entNodes.length).filter (fun x => dep.entDepends x = 0)

/-- Body of the loop over the occurrences of a body element (lines 201-208):
a level-0 occurrence finds or creates the node of its variable and adds the
edge for the occurrence. -/
def insertOcc (ent : Nat) (dep : SafetyChecker) (occ : VarTerm × Bool) : SafetyChecker :=
  if occ.1.level = 0 then
    let dep := if dep.varNodes.any (fun v => v.name = occ.1.name) then dep
      else dep.insertVar occ.1
    if occ.2 then dep.insertEdgeEntVar ent occ.1.name
    else dep.insertEdgeVarEnt occ.1.name ent
  else dep

/-- Body of the loop over the body (lines 197-209). -/
def insertBodyElem (dep : SafetyChecker) (y : BodyAggr) : SafetyChecker :=
  let r := dep.insertEnt y
  (y.collect []).foldl (insertOcc r.2) r.1

/-- The graph built from a body (lines 195-209). -/
def buildGraph (body : List BodyAggr) : SafetyChecker :=
  body.foldl insertBodyElem SafetyChecker.empty

/-- The local state of the resolver: the graph `dep`, the vectors `open` and
`bound`, and the output `sorted`. -/
structure ResolveState where
  dep : SafetyChecker
  open_ : List Nat
  bound : List String
  sorted : List BodyAggr

/-- The element `x->data` of a literal node. -/
def ResolveState.data (st : ResolveState) (x : Nat) : BodyAggr :=
  st.dep.entNodes.getD x ⟨"", [], false⟩

/-- Modelled from the spec: one dependency of literal `z` is resolved; a
literal newly made ready enters `open`. -/
def ResolveState.release (st : ResolveState) (z : Nat) : ResolveState :=
  let dep := { st.dep with
    entDepends := Function.update st.dep.entDepends z (st.dep.entDepends z - 1) }
  if st.dep.entDepends z = 1 then { st with dep := dep, open_ := st.open_ ++ [z] }
  else { st with dep := dep }

/-- Modelled from the spec: variable `y`, provided by the propagated literal,
is marked bound (and recorded in `bound`) unless it is bound already, and the
literals requiring it are released. -/
def ResolveState.bindVar (st : ResolveState) (y : String) : ResolveState :=
  if st.dep.varBound y then st
  else
    let dep := { st.dep with varBound := Function.update st.dep.varBound y true }
    (st.dep.varProvides y).foldl ResolveState.release
      { st with dep := dep, bound := st.bound ++ [y] }

/-- Modelled from the spec: the method `propagate(x, open, &bound)`, marking
the variables that literal `x` provides bound. -/
def ResolveState.propagate (st : ResolveState) (x : Nat) : ResolveState :=
  (st.dep.entProvides x).foldl ResolveState.bindVar st

/-- The statement `sorted.emplace_back(..)`. -/
def ResolveState.emit (st : ResolveState) (y : BodyAggr) : ResolveState :=
  { st with sorted := st.sorted ++ [y] }

/-- Lines 228-234: whether all variables provided by `x` are bound. -/
def ResolveState.allBound (st : ResolveState) (x : Nat) : Bool :=
  (st.dep.entProvides x).all (fun y => st.dep.varBound y)

/-! ## The assignment resolver: loops -/

/-- The inner loop `for (; it != open.end(); ++it)` (lines 218-224); `none`
when the fuel is used up. The result is the state, the iterator and `assign`. -/
def forOpen : Nat → ResolveState → Nat → List Nat → Option (ResolveState × Nat × List Nat)
  | 0, _, _, _ => none
  | fuel + 1, st, it, assign =>
    match st.open_[it]? with
    | none => some (st, it, assign)
    | some x =>
      if !(st.data x).isAssignment then
        forOpen fuel ((st.propagate x).emit (st.data x)) (it + 1) assign
      else forOpen fuel st (it + 1) (assign ++ [x])

/-- Body of the loop `for (auto &x : assign)` (lines 227-241) on the state and
`nextAssign`. -/
def assignStep (acc : ResolveState × List Nat) (x : Nat) : ResolveState × List Nat :=
  if !acc.1.allBound x then (acc.1, acc.2 ++ [x])
  else ((acc.1.propagate x).emit (acc.1.data x).removeAssignment, acc.2)

/-- The loop `while (!assign.empty())` (lines 226-248); `none` when the fuel is
used up. After `assign = std::move(nextAssign)` the vector `nextAssign` is
empty. -/
def whileAssign : Nat → ResolveState → List Nat → List Nat → Option ResolveState
  | 0, _, _, _ => none
  | fuel + 1, st, assign, nextAssign =>
    if assign.isEmpty then some st
    else
      let r := assign.foldl assignStep (st, nextAssign)
      match r.2.getLast? with
      | some x => whileAssign fuel ((r.1.propagate x).emit (r.1.data x)) r.2.dropLast []
      | none => whileAssign fuel r.1 r.2 []

/-- The outer loop `for (auto it = open.begin(); it != open.end(); )` (lines
216-249); `big` is the fuel handed to the inner loops. -/
def forOuter : Nat → Nat → ResolveState → Nat → Option ResolveState
  | 0, _, _, _ => none
  | fuel + 1, big, st, it =>
    match st.open_[it]? with
    | none => some st
    | some _ =>
      match forOpen big st it [] with
      | none => none
      | some r =>
        match whileAssign big r.1 r.2.2 [] with
        | none => none
        | some st2 => forOuter fuel big st2 r.2.1

/-- Lines 190-193: the number of assignments of the body. -/
def numAssign (body : List BodyAggr) : Nat :=
  body.foldl (fun n y => if y.isAssignment then n + 1 else n) 0

/-- Fuel that suffices for the loops of the resolver on `body`. -/
def resolveFuel (body : List BodyAggr) : Nat :=
  body.length + (body.map (fun y => y.vars.length)).sum + 1

/-- The state of the resolver when the loops start (lines 195-215). -/
def resolveInit (body : List BodyAggr) : ResolveState where
  dep := buildGraph body
  open_ := (buildGraph body).init []
  bound := []
  sorted := []

/-- Lines 195-249: the resolved order `sorted` of a body. -/
def resolve (body : List BodyAggr) : Option (List BodyAggr) :=
  match forOuter (resolveFuel body) (resolveFuel body) (resolveInit body) 0 with
  | none => none
  | some st => some st.sorted

/-! ## The assignment resolver: splits -/

/-- The order of variable names, `*a.first->name < *b.first->name` negated
and swapped: `a` is not after `b`. -/
def nameLe (a b : VarTerm × Bool) : Prop := a.1.name.data ≤ b.1.name.data

instance : DecidableRel nameLe :=
  fun a b => inferInstanceAs (Decidable (a.1.name.data ≤ b.1.name.data))

instance : IsTotal (VarTerm × Bool) nameLe :=
  ⟨fun a b => le_total a.1.name.data b.1.name.data⟩

instance : IsTrans (VarTerm × Bool) nameLe :=
  ⟨fun a b c h1 h2 => @le_trans (List Char) _ a.1.name.data b.1.name.data c.1.name.data h1 h2⟩

/-- The loop of `std::unique`: an occurrence with the name of the last kept
occurrence is dropped, any other one is kept. -/
def uniqueAfter (last : VarTerm × Bool) : VarTermBoundVec → VarTermBoundVec
  | [] => []
  | b :: rest =>
    if last.1.name = b.1.name then uniqueAfter last rest else b :: uniqueAfter b rest

/-- The algorithm `std::unique` with the predicate `eq` of line 260: of every
run of occurrences with the same name the first one is kept. -/
def uniqueByName : VarTermBoundVec → VarTermBoundVec
  | [] => []
  | a :: rest => a :: uniqueAfter a rest

/-- Lines 254-263: the arguments of a split, from the output `done`
accumulated so far: the occurrences of `done`, those of a level other than 0
removed, sorted by name and made unique by name. Occurrences of the same
name at level 0 are the same variable, so the order that `std::sort` gives
them does not show in the result. -/
def splitArgs (done : List BodyAggr) : List VarTerm :=
  let boundVec := done.foldl (fun vec x => x.collect vec) []
  let boundVec := boundVec.filter (fun a => !(a.1.level != 0))
  let boundVec := boundVec.insertionSort nameLe
  let boundVec := uniqueByName boundVec
  boundVec.map (fun x => x.1)

/-- The function `std::to_string` on unsigned numbers: decimal digits. -/
def to_string (n : Nat) : String := Nat.repr n

/-- The loop over `sorted` (lines 251-269): `done`, `splits` and the rest of
`sorted` still to be visited. -/
def splitLoop : List BodyAggr → List BodyAggr → SplitVec → List BodyAggr × SplitVec
  | [], done, splits => (done, splits)
  | x :: rest, done, splits =>
    let done := done ++ [x]
    if x.isAssignment && !rest.isEmpty then
      let args := splitArgs done
      let name := "#split" ++ to_string splits.length
      splitLoop rest [splitBodyLiteral name args] (splits ++ [(splitLiteral name args, done)])
    else splitLoop rest done splits

/-- The function `_rewriteAssignments`: the new body and the new `SplitVec`;
`none` when a loop runs out of fuel. -/
def _rewriteAssignments (body : List BodyAggr) (_loc : Location) (splits : SplitVec) :
    Option (List BodyAggr × SplitVec) :=
  if numAssign body ≠ 0 then
    match resolve body with
    | none => none
    | some sorted => some (splitLoop sorted [] splits)
  else some (body, splits)

/-! ## Example bodies -/

/-- A level-0 occurrence of variable `x` that binds it. -/
def provides (x : String) : VarTerm × Bool := (⟨x, 0⟩, true)
/-- A level-0 occurrence of variable `x` that requires it. -/
def consumes (x : String) : VarTerm × Bool := (⟨x, 0⟩, false)

/-- The literal `q(X)`. -/
def lit_qX : BodyAggr := ⟨"q(X)", [provides "X"], false⟩
/-- The literal `r(Y)`. -/
def lit_rY : BodyAggr := ⟨"r(Y)", [provides "Y"], false⟩
/-- The literal `not q(X)`. -/
def lit_not_qX : BodyAggr := ⟨"not q(X)", [consumes "X"], false⟩
/-- The literal `not r(Y)`. -/
def lit_not_rY : BodyAggr := ⟨"not r(Y)", [consumes "Y"], false⟩
/-- The assignment `X = 1+2`. -/
def lit_X_eq_3 : BodyAggr := ⟨"X=1+2", [provides "X"], true⟩
/-- The assignment `X = Y+1`. -/
def lit_X_eq_Y1 : BodyAggr := ⟨"X=Y+1", [provides "X", consumes "Y"], true⟩
/-- The assignment `Y = X+1`. -/
def lit_Y_eq_X1 : BodyAggr := ⟨"Y=X+1", [provides "Y", consumes "X"], true⟩
/-- The assignment `Z = X+1`. -/
def lit_Z_eq_X1 : BodyAggr := ⟨"Z=X+1", [provides "Z", consumes "X"], true⟩
/-- The assignment `Y = 2`. -/
def lit_Y_eq_2 : BodyAggr := ⟨"Y=2", [provides "Y"], true⟩
/-- The literal `s(X,Y)`. -/
def lit_sXY : BodyAggr := ⟨"s(X,Y)", [provides "X", provides "Y"], false⟩

/-! ## Notions used to state the properties of the resolver -/

/-- The names of the level-0 variables that the occurrences `vars` provide,
in order of occurrence. -/
def providedNames (vars : VarTermBoundVec) : List String :=
  (vars.filter (fun occ => occ.1.level = 0 && occ.2)).map (fun occ => occ.1.name)

/-- The names of the level-0 variables that the occurrences `vars` consume,
in order of occurrence. -/
def consumedNames (vars : VarTermBoundVec) : List String :=
  (vars.filter (fun occ => occ.1.level = 0 && !occ.2)).map (fun occ => occ.1.name)

/-- The names of all level-0 variables occurring in the elements `done`. -/
def levelZeroNames (done : List BodyAggr) : List String :=
  done.flatMap (fun y => (y.vars.filter (fun occ => occ.1.level = 0)).map (fun occ => occ.1.name))

/-- Every level-0 variable that an element of the order consumes is provided
by an element placed earlier in the order. -/
def ProvidedBefore (order : List BodyAggr) : Prop :=
  ∀ (pre : List BodyAggr) (y : BodyAggr) (post : List BodyAggr),
    order = pre ++ y :: post →
    ∀ v ∈ consumedNames y.vars, ∃ p ∈ pre, v ∈ providedNames p.vars

/-- The element at address `x` of a body (an element without variables
outside the body). -/
def bodyAt (body : List BodyAggr) (x : Nat) : BodyAggr := body.getD x ⟨"", [], false⟩

/-- The graph `dep` is the graph of `body`: nodes, edges in both directions
and the counts of dependencies are those of the occurrences of the body. -/
structure GraphOf (body : List BodyAggr) (dep : SafetyChecker) : Prop where
  ents : dep.entNodes = body
  entProvides : ∀ x, dep.entProvides x = providedNames (bodyAt body x).vars
  varCount : ∀ x y, (dep.varProvides y).count x = (consumedNames (bodyAt body x).vars).count y
  varLt : ∀ y, ∀ z ∈ dep.varProvides y, z < body.length

/-- What the build loop has established after the elements `pre`. -/
structure BuildInv (pre : List BodyAggr) (dep : SafetyChecker) : Prop where
  graph : GraphOf pre dep
  depends : ∀ x, dep.entDepends x = (consumedNames (bodyAt pre x).vars).length
  unbound : dep.varBound = fun _ => false

/-- The invariant of the loops of the resolver on `body`; `pend` are the
variables bound by a literal that is being propagated and not yet output. -/
structure ResolveInv (body : List BodyAggr) (pend : List String) (st : ResolveState) :
    Prop where
  graph : GraphOf body st.dep
  depends : ∀ x, st.dep.entDepends x
    = ((consumedNames (bodyAt body x).vars).filter (fun y => !st.dep.varBound y)).length
  openLt : ∀ x ∈ st.open_, x < body.length
  openNodup : st.open_.Nodup
  openReady : ∀ x ∈ st.open_, ∀ y ∈ consumedNames (bodyAt body x).vars, st.dep.varBound y = true
  boundProv : ∀ y, st.dep.varBound y = true →
    y ∈ pend ∨ ∃ p ∈ st.sorted, y ∈ providedNames p.vars
  safe : ProvidedBefore st.sorted

/-- The name of the `n`-th split predicate. -/
def splitName (n : Nat) : String := "#split" ++ to_string n

/-- A segment of the resolved order that triggers a split: literals that are
not assignments, followed by one assignment. -/
def IsSegment (seg : List BodyAggr) : Prop :=
  ∃ (front : List BodyAggr) (a : BodyAggr),
    seg = front ++ [a] ∧ a.isAssignment = true ∧ ∀ y ∈ front, y.isAssignment = false

/-- The entries recorded for the segments `segs` when the output accumulated
before them is `done` and `n` entries exist already: every segment is
captured together with the output accumulated before it, and the output
restarts with the body literal of the new split. -/
def splitEntries (n : Nat) (done : List BodyAggr) : List (List BodyAggr) → SplitVec
  | [] => []
  | seg :: segs =>
    (splitLiteral (splitName n) (splitArgs (done ++ seg)), done ++ seg)
      :: splitEntries (n + 1) [splitBodyLiteral (splitName n) (splitArgs (done ++ seg))] segs

/-- The output accumulated after the segments `segs`. -/
def splitDone (n : Nat) (done : List BodyAggr) : List (List BodyAggr) → List BodyAggr
  | [] => done
  | seg :: segs =>
    splitDone (n + 1) [splitBodyLiteral (splitName n) (splitArgs (done ++ seg))] segs

/-- The name of the predicate of a predicate literal over a function term. -/
def Literal.predName : Literal → Option String
  | .PredicateLiteral _ (.FunctionTerm name _) => some name
  | _ => none

/-- The naming invariant of a `SplitVec`: the entry at index `i` is headed by
the predicate `#split<i>`. -/
def NamedSplits (splits : SplitVec) : Prop :=
  ∀ (i : Nat) (e : Literal × List BodyAggr), splits[i]? = some e →
    e.1.predName = some ("#split" ++ to_string i)

/-- A sequence of bodies resolved one after the other with one `SplitVec`
(the locations play no role). -/
def rewriteAll : List (List BodyAggr) → SplitVec → Option (List (List BodyAggr) × SplitVec)
  | [], splits => some ([], splits)
  | body :: bodies, splits =>
    match _rewriteAssignments body exLoc splits with
    | none => none
    | some r =>
      match rewriteAll bodies r.2 with
      | none => none
      | some rs => some (r.1 :: rs.1, rs.2)

/-- The number written by a list of decimal digits. -/
def decodeDigits (l : List Char) : Nat :=
  l.foldl (fun acc c => 10 * acc + (c.toNat - 48)) 0

/-! ## Packing of weak constraints -/

/-- The helper `wc_to_args`: weight, priority and the terms of the tuple. -/
def wc_to_args (weight prioriy : Term) (tuple : List Term) : List Term :=
  ([] ++ [weight] ++ [prioriy]) ++ tuple

/-- The helper `wc_to_head`: a simple head literal over the positive predicate
literal `#wc(args)`; `none` where the assertion `args.size() > 1` fails. -/
def wc_to_head (args : List Term) : Option HeadAggr :=
  if args.length > 1 then
    some (.SimpleHeadLiteral (.PredicateLiteral .POS (.FunctionTerm "#wc" args)))
  else none

/-- The constructor `Statement(UHeadAggr&&, UBodyAggrVec&&, Type)`; the location
is the one given to `make_locatable`. -/
def Statement.ofHead {H B : Type} (loc : Location) (head : H) (body : List B)
    (type : StatementType) : Statement H B :=
  { head := head, body := body, type := type, loc := loc }

/-- The constructor `Statement(UTermVec &&tuple, UBodyAggrVec &&body)`. -/
def Statement.ofTuple {B : Type} (loc : Location) (tuple : List Term) (body : List B) :
    Option (Statement HeadAggr B) :=
  match wc_to_head tuple with
  | none => none
  | some head => some (Statement.ofHead loc head body StatementType.WEAKCONSTRAINT)

/-- The constructor `Statement(UTerm &&weight, UTerm &&priority, UTermVec &&tuple,
UBodyAggrVec &&body)` of weak constraints. -/
def Statement.ofWeak {B : Type} (loc : Location) (weight priority : Term)
    (tuple : List Term) (body : List B) : Option (Statement HeadAggr B) :=
  Statement.ofTuple loc (wc_to_args weight priority tuple) body

/-- The helper `wc_args_from_term`: the arguments of the packed term, as value
terms when the term is constant; `none` where the assertion on the value or
the cast to a function term fails. -/
def wc_args_from_term (ops : TermOps) (term : Term) : Option (List Term) :=
  if ops.getInvertibility term = Invertibility.CONSTANT then
    match ops.eval term with
    | .FUNC _ args => some (args.foldl (fun ret y => ret ++ [Term.ValTerm y]) [])
    | _ => none
  else
    match term with
    | .FunctionTerm _ args => some args
    | _ => none

/-! ## Emission of ground statements -/

/-- The type `CreateBody`: the function adding the literals of an entry to a
literal vector (the flag tells whether the vector is the one of the statement
itself) and the functions creating the auxiliary statements of the entry. -/
structure CreateBody (L G : Type) where
  first : List L → Bool → List L
  second : List (List L → G)

/-- The type `CreateHead`: the function creating the statement of the head from
the literal vector, and the entry of the head. -/
structure CreateHead (L G : Type) where
  first : List L → G
  second : CreateBody L G

/-- Lines 335-338: the vector `splitLits` for the entry at position `current`,
filled by all entries of `createVec` at another position. -/
def splitLitsAt {L G : Type} (createVec : List (CreateBody L G)) (current : Nat) : List L :=
  (List.range createVec.length).foldl
    (fun splitLits it =>
      if it ≠ current then
        match createVec[it]? with
        | some entry => entry.first splitLits false
        | none => splitLits
      else splitLits)
    []

/-- Body of the loop over `createVec` (lines 333-340) for the entry at
position `current`, on the pair of `lits` and `stms`. -/
def emitEntry {L G : Type} (createVec : List (CreateBody L G))
    (acc : List L × List G) (current : Nat) : List L × List G :=
  match createVec[current]? with
  | none => acc
  | some entry =>
    let lits := entry.first acc.1 true
    let stms := entry.second.foldl
      (fun stms z => stms ++ [z (splitLitsAt createVec current)]) acc.2
    (lits, stms)

/-- Lines 328-330: the vector `createVec`, the entry of the head followed by
the entries of the body elements; creating the entry of a body element may
add statements to `stms`. -/
def buildCreateVec {B L G : Type} (bodyToGround : B → List G → CreateBody L G × List G)
    (head : CreateHead L G) (body : List B) (stms : List G) :
    List (CreateBody L G) × List G :=
  body.foldl
    (fun acc y =>
      let r := bodyToGround y acc.2
      (acc.1 ++ [r.1], r.2))
    ([head.second], stms)

/-- The function `toGround(CreateHead&&, UBodyAggrVec const&, ToGroundArg&,
Ground::UStmVec&)` (lines 326-343): the statements in `stms` afterwards. -/
def toGround {B L G : Type} (bodyToGround : B → List G → CreateBody L G × List G)
    (head : CreateHead L G) (body : List B) (stms : List G) : List G :=
  let r := buildCreateVec bodyToGround head body stms
  let acc := (List.range r.1.length).foldl (emitEntry r.1) ([], r.2)
  acc.2 ++ [head.first acc.1]

/-- The literal vector that `toGround` hands to the statement of the head. -/
def toGroundLits {B L G : Type} (bodyToGround : B → List G → CreateBody L G × List G)
    (head : CreateHead L G) (body : List B) (stms : List G) : List L :=
  let r := buildCreateVec bodyToGround head body stms
  ((List.range r.1.length).foldl (emitEntry r.1) ([], r.2)).1

/-- The method `Statement::toGround` (lines 347-357). `weakConstraint` builds
a `Ground::WeakConstraint`, `headToGround` is the method `toGround` of heads;
`none` where `wc_args_from_term` fails. -/
def Statement.toGround {B L G : Type} (ops : TermOps)
    (weakConstraint : List Term → List L → G)
    (headToGround : HeadAggr → Bool → CreateHead L G)
    (bodyToGround : B → List G → CreateBody L G × List G)
    (s : Statement HeadAggr B) (stms : List G) : Option (List G) :=
  if s.type = StatementType.WEAKCONSTRAINT then
    match wc_term_from_head s.head with
    | none => none
    | some term =>
      match wc_args_from_term ops term with
      | none => none
      | some args =>
        let hd : CreateHead L G :=
          { first := fun lits => weakConstraint args lits
            second := { first := fun lits _ => lits, second := [] } }
        some (Gringo.Input.toGround bodyToGround hd s.body stms)
  else
    some (Gringo.Input.toGround bodyToGround
      (headToGround s.head (decide (s.type = StatementType.EXTERNAL))) s.body stms)

/-! ## Statement::check -/

/-- The checks that `Statement::check` calls, defined elsewhere: the creation
of the first level, the checks of heads and body elements and the check of a
level. Each check works on the levels (which stand for everything the checks
change, the reported messages included) and tells whether it succeeded. -/
structure CheckOps (H B Lv : Type) where
  init : Location → Statement H B → Lv
  checkHead : H → Lv → Bool × Lv
  checkBody : B → Lv → Bool × Lv
  checkLevel : Lv → Bool × Lv

/-- The method `Statement::check`: the result and the levels afterwards. In
`check(..) && ret` the check is evaluated first, whatever `ret` is. -/
def Statement.check {H B Lv : Type} (ops : CheckOps H B Lv) (s : Statement H B) : Bool × Lv :=
  let levels := ops.init s.loc s
  let r := ops.checkHead s.head levels
  let acc : Bool × Lv := (r.1 && true, r.2)
  let acc := s.body.foldl
    (fun acc y =>
      let r := ops.checkBody y acc.2
      (r.1 && acc.1, r.2))
    acc
  let r := ops.checkLevel acc.2
  (r.1 && acc.1, r.2)

/-- All checks of a statement run one after the other, none left out: the
results of the head check and of the checks of the body elements, in order,
and the levels afterwards. -/
def runChecks {H B Lv : Type} (ops : CheckOps H B Lv) (s : Statement H B) : List Bool × Lv :=
  let r := ops.checkHead s.head (ops.init s.loc s)
  s.body.foldl
    (fun acc y =>
      let r := ops.checkBody y acc.2
      (acc.1 ++ [r.1], r.2))
    ([r.1], r.2)

/-! ## Warning options -/

/-- The enumeration `Gringo::Output::LparseDebug`. -/
inductive LparseDebug where
  | NONE
  | PLAIN
  | LPARSE
  | ALL
deriving DecidableEq, Repr

/-- The structure `ClingoOptions`. -/
structure ClingoOptions where
  defines : List String
  lparseDebug : LparseDebug
  verbose : Bool
  text : Bool
  lpRewrite : Bool
  wNoRedef : Bool
  wNoCycle : Bool
  wNoTermUndef : Bool
  wNoAtomUndef : Bool
  wNoNonMonotone : Bool
  wNoFileIncluded : Bool
  foobar : List (String × Nat)
deriving DecidableEq, Repr

/-- The function `parseWarning`: the result and the options afterwards. -/
def parseWarning (str : String) (out : ClingoOptions) : Bool × ClingoOptions :=
  if str = "no-atom-undefined" then (true, { out with wNoAtomUndef := true })
  else if str = "atom-undefined" then (true, { out with wNoAtomUndef := false })
  else if str = "no-define-cyclic" then (true, { out with wNoCycle := true })
  else if str = "define-cyclic" then (true, { out with wNoCycle := false })
  else if str = "no-define-redefinition" then (true, { out with wNoRedef := true })
  else if str = "define-redefinition" then (true, { out with wNoRedef := false })
  else if str = "no-file-included" then (true, { out with wNoFileIncluded := true })
  else if str = "file-included" then (true, { out with wNoFileIncluded := false })
  else if str = "no-nonmonotone-aggregate" then (true, { out with wNoNonMonotone := true })
  else if str = "nonmonotone-aggregate" then (true, { out with wNoNonMonotone := false })
  else if str = "no-term-undefined" then (true, { out with wNoTermUndef := true })
  else if str = "term-undefined" then (true, { out with wNoTermUndef := false })
  else (false, out)

/-- The names of the warnings in the help text of `--warn`. -/
def warningNames : List String :=
  ["atom-undefined", "define-cyclic", "define-redefinition", "file-included",
   "nonmonotone-aggregate", "term-undefined"]

/-- Example options, all warnings enabled. -/
def exOptions : ClingoOptions :=
  { defines := [], lparseDebug := .NONE, verbose := false, text := false, lpRewrite := false,
    wNoRedef := false, wNoCycle := false, wNoTermUndef := false, wNoAtomUndef := false,
    wNoNonMonotone := false, wNoFileIncluded := false, foobar := [] }

/-! ## Notions used to state the properties of the emitter -/

/-- The entries that the body elements contribute to `createVec`, in body
order; `stms` is the statement vector when the first entry is created. -/
def bodyEntries {B L G : Type} (bodyToGround : B → List G → CreateBody L G × List G) :
    List B → List G → List (CreateBody L G)
  | [], _ => []
  | y :: ys, stms => (bodyToGround y stms).1 :: bodyEntries bodyToGround ys (bodyToGround y stms).2

/-- The statement vector after the entries of the body elements have been
created. -/
def bodyStms {B L G : Type} (bodyToGround : B → List G → CreateBody L G × List G) :
    List B → List G → List G
  | [], stms => stms
  | y :: ys, stms => bodyStms bodyToGround ys (bodyToGround y stms).2

/-- The auxiliary statements of the entries `entries`, which stand at the
positions `start`, `start + 1`, .. of `createVec`: every creator of an entry is
applied to the vector `splitLits` of the position of the entry. -/
def auxStatements {L G : Type} (createVec : List (CreateBody L G)) :
    Nat → List (CreateBody L G) → List G
  | _, [] => []
  | start, e :: es =>
    e.second.map (fun z => z (splitLitsAt createVec start))
      ++ auxStatements createVec (start + 1) es

/-- An entry that appends the literals `lits primary` to the literal vector
and has the statement creators `second`. -/
def appendEntry {L G : Type} (e : (Bool → List L) × List (List L → G)) : CreateBody L G where
  first := fun lits primary => lits ++ e.1 primary
  second := e.2

/-- Example of a body element for the emitter: the name of its literal and
whether it comes with an auxiliary statement. Ground literals are names and
ground statements are pairs of a name and a literal vector. -/
def exBodyToGround (y : String × Bool) (stms : List (String × List String)) :
    CreateBody String (String × List String) × List (String × List String) :=
  (appendEntry (fun _ => [y.1], if y.2 then [fun lits => ("aux_" ++ y.1, lits)] else []), stms)

/-- Example of a head for the emitter: no literals of its own, no auxiliary
statement. -/
def exCreateHead : CreateHead String (String × List String) where
  first := fun lits => ("head", lits)
  second := appendEntry (fun _ => [], [])

/-- Example of checks: heads and body elements are a name with a flag telling
whether the element is safe, the levels are the list of reports; an unsafe
element fails and is reported, the level check succeeds and is reported as
well. -/
def exCheckOps : CheckOps (String × Bool) (String × Bool) (List String) where
  init := fun _ _ => []
  checkHead := fun h lv => if h.2 then (true, lv) else (false, lv ++ [h.1])
  checkBody := fun y lv => if y.2 then (true, lv) else (false, lv ++ [y.1])
  checkLevel := fun lv => (true, lv ++ ["level"])

/-- The literals that the entries `entries`, standing at the positions
`start`, `start + 1`, .., add to a vector that is not the one of the statement
itself, the entry at position `current` left out. -/
def otherLits {L G : Type} (current : Nat) :
    Nat → List ((Bool → List L) × List (List L → G)) → List L
  | _, [] => []
  | start, e :: es =>
    (if start ≠ current then e.1 false else []) ++ otherLits current (start + 1) es

/-! ## ClingoControl::ground -/

/-- The members of `ClingoControl` that `ground` and `update` use: the clasp
facade, the program, the output, the state of the message printer and the
flags. -/
structure ClingoControl (C P O M : Type) where
  clasp : C
  prg : P
  out : O
  messages : M
  clingoMode_ : Bool
  configUpdate_ : Bool
  parsed : Bool
  grounded : Bool
  incremental : Bool

/-- A part to ground: a program name with its parameters. -/
abbrev GroundVec := List (String × List Value)

/-- The operations that `ClingoControl::ground` calls and that are defined
elsewhere. Rewriting and checking the program may report errors to the
message printer; the instantiation of the parts (`prg.toGround` and
`gPrg.ground`) works on the whole control object, the scripts it runs have
access to it. -/
structure ControlOps (C P O M : Type) where
  frozen : C → Bool
  updateClasp : C → Bool → C
  programOk : C → Bool
  rewrite : P → M → P × M
  check : P → M → M
  hasError : M → Bool
  outIncremental : O → O
  instantiate : ClingoControl C P O M → GroundVec → ClingoControl C P O M

/-- The method `ClingoControl::ok`. -/
def ClingoControl.ok {C P O M : Type} (ops : ControlOps C P O M)
    (ctl : ClingoControl C P O M) : Bool :=
  !ctl.clingoMode_ || ops.programOk ctl.clasp

/-- The method `ClingoControl::update`: the result and the object afterwards. -/
def ClingoControl.update {C P O M : Type} (ops : ControlOps C P O M)
    (ctl : ClingoControl C P O M) : Bool × ClingoControl C P O M :=
  let ctl :=
    if ctl.clingoMode_ && (ops.frozen ctl.clasp || ctl.configUpdate_) then
      { ctl with clasp := ops.updateClasp ctl.clasp ctl.configUpdate_, configUpdate_ := false }
    else ctl
  (ctl.ok ops, ctl)

/-- Lines 179-192 of `ClingoControl::ground`: the first grounding switches the
output to incremental mode if asked for, then the parts are instantiated. -/
def ClingoControl.groundParts {C P O M : Type} (ops : ControlOps C P O M)
    (ctl : ClingoControl C P O M) (parts : GroundVec) : ClingoControl C P O M :=
  let ctl :=
    if !ctl.grounded then
      let ctl := if ctl.incremental then { ctl with out := ops.outIncremental ctl.out } else ctl
      { ctl with grounded := true }
    else ctl
  if !parts.isEmpty then ops.instantiate ctl parts else ctl

/-- The method `ClingoControl::ground`: the object afterwards and the message
of the exception thrown, if one is thrown. -/
def ClingoControl.ground {C P O M : Type} (ops : ControlOps C P O M)
    (ctl : ClingoControl C P O M) (parts : GroundVec) :
    ClingoControl C P O M × Option String :=
  let u := ctl.update ops
  if !u.1 then (u.2, none)
  else
    let ctl := u.2
    if ctl.parsed then
      let r := ops.rewrite ctl.prg ctl.messages
      let ctl := { ctl with prg := r.1, messages := r.2 }
      let ctl := { ctl with messages := ops.check ctl.prg ctl.messages }
      if ops.hasError ctl.messages then (ctl, some "grounding stopped because of errors")
      else ((ClingoControl.groundParts ops { ctl with parsed := false } parts), none)
    else (ClingoControl.groundParts ops ctl parts, none)

/-- Example of the operations of a control object: clasp is its `ok` flag,
the program is the list of its statements with a flag telling whether the
statement is safe, the output is the list of instantiated part names and the
message printer is its error flag; checking reports an error when a statement
is unsafe, and instantiation records whether the program was still marked
as parsed. -/
def exControlOps : ControlOps Bool (List (String × Bool)) (List String) Bool where
  frozen := fun _ => false
  updateClasp := fun c _ => c
  programOk := fun c => c
  rewrite := fun p m => (p, m)
  check := fun p m => m || p.any (fun s => !s.2)
  hasError := fun m => m
  outIncremental := fun o => o ++ ["incremental"]
  instantiate := fun ctl parts =>
    { ctl with out := ctl.out ++ parts.map (fun x => x.1)
                 ++ [if ctl.parsed then "parsed" else "rewritten"] }

/-- Example of a control object in clingo mode whose clasp program is not ok,
with a freshly parsed program and an error reported while parsing. -/
def exControlStopped : ClingoControl Bool (List (String × Bool)) (List String) Bool :=
  { clasp := false, prg := [("p(X).", false)], out := [], messages := true,
    clingoMode_ := true, configUpdate_ := false, parsed := true, grounded := false,
    incremental := false }

/-- Example of a control object with a freshly parsed program `prg`. -/
def exControl (prg : List (String × Bool)) :
    ClingoControl Bool (List (String × Bool)) (List String) Bool :=
  { clasp := true, prg := prg, out := [], messages := false,
    clingoMode_ := true, configUpdate_ := false, parsed := true, grounded := false,
    incremental := false }

/-! ## Comparison of values in the scripting interfaces -/

/-- The operators `<` and `==` of `Value`, defined elsewhere. -/
structure ValueOrder where
  lt : Value → Value → Bool
  eq : Value → Value → Bool

/-- The function `cmpVal` of `python.cc` on the values obtained from its two
arguments. -/
def Python.cmpVal (ord : ValueOrder) (va vb : Value) : Int :=
  if ord.eq va vb then 0
  else if ord.lt va vb then -1
  else 1

/-- The function `cmpVal` of `lua.cc` on the values obtained from its two
arguments. -/
def Lua.cmpVal (ord : ValueOrder) (a b : Value) : Int :=
  if ord.lt a b then -1
  else if ord.lt b a then 1
  else 0

/-- Example of an order of values: numbers by size, any two other values
unordered. -/
def exValueOrder : ValueOrder where
  lt := fun a b =>
    match a, b with
    | .NUM x, .NUM y => decide (x < y)
    | _, _ => false
  eq := fun a b =>
    match a, b with
    | .NUM x, .NUM y => decide (x = y)
    | _, _ => false

/-! ## Conversion between values and Python objects -/

/-- The Python objects that the conversions tell apart: ints, strings, tuples,
the objects of the classes `Fun`, `Sup` and `Inf` of the module, and objects
of any other type, given by the name of their type. -/
inductive PyObject where
  | PyInt (ival : Int)
  | PyString (s : String)
  | PyTuple (items : List PyObject)
  | Fun (val : Value)
  | Sup
  | Inf
  | Other (tp_name : String)
deriving Repr

/-- The constructor `Value(bool inf)`: `#inf` for true and `#sup` for false, as
`Inf` and `Sup` of both scripting interfaces use it. -/
def Value.ofBool (inf : Bool) : Value := if inf then Value.INF else Value.SUP

/-- The text that a C string pointing to the characters of `s` stands for:
the characters before the first NUL. -/
def c_str (s : String) : String := String.mk (s.data.takeWhile (fun c => c ≠ Char.ofNat 0))

/-- The conversion of a C `long` to `int`. -/
def toCInt (n : Int) : Int := (n + 2147483648) % 4294967296 - 2147483648

mutual
/-- The function `valToPy`; `none` stands for `nullptr`. A function value with
a name falls through to the case of identifiers. -/
def valToPy : Value → Option PyObject
  | .FUNC name args =>
    if name = "" then
      match valToPyItems args with
      | none => none
      | some items => some (PyObject.PyTuple items)
    else some (PyObject.Fun (.FUNC name args))
  | .ID name => some (PyObject.Fun (.ID name))
  | .SUP => some PyObject.Sup
  | .INF => some PyObject.Inf
  | .NUM num => some (PyObject.PyInt num)
  | .STRING s => some (PyObject.PyString (c_str s))
  | .SPECIAL => none
/-- The loop of `valToPy` over the arguments of a tuple. -/
def valToPyItems : List Value → Option (List PyObject)
  | [] => some []
  | val :: rest =>
    match valToPy val with
    | none => none
    | some pyVal =>
      match valToPyItems rest with
      | none => none
      | some items => some (pyVal :: items)
end

mutual
/-- The function `pyToVal`: the result, the value in `val` afterwards and the
error indicator of Python afterwards; `err` is the error indicator before. -/
def pyToVal : PyObject → Value → Option String → Bool × Value × Option String
  | .Sup, _, err => (true, Value.ofBool false, err)
  | .Inf, _, err => (true, Value.ofBool true, err)
  | .Fun v, _, err => (true, v, err)
  | .PyTuple items, val, err =>
    let r := pyToValsItems items [] err
    if !r.1 then (false, val, r.2.2)
    else
      let err :=
        if r.2.1.length < 2 then
          some "cannot convert to value: tuples need at least two arguments"
        else r.2.2
      (true, Value.FUNC "" r.2.1, err)
  | .PyInt ival, _, err => (true, Value.NUM (toCInt ival), err)
  | .PyString s, _, err => (true, Value.STRING (c_str s), err)
  | .Other tp_name, val, _ =>
    (false, val, some ("cannot convert to value: unexpected " ++ tp_name ++ "() object"))
/-- The function `pyToVals` on the items of the iterated object: the result,
`vals` afterwards and the error indicator afterwards. -/
def pyToValsItems : List PyObject → List Value → Option String →
    Bool × List Value × Option String
  | [], vals, err => (if err.isSome then false else true, vals, err)
  | pyVal :: rest, vals, err =>
    let r := pyToVal pyVal Value.SPECIAL err
    if !r.1 then (false, vals, r.2.2)
    else pyToValsItems rest (vals ++ [r.2.1]) r.2.2
end

mutual
/-- The values that the scripting interfaces build and hand over: a number is
a C `int`, a string has no NUL character, a tuple (a function value with the
empty name) has at least two arguments, which are such values themselves;
the special value is no such value. -/
def Value.valid : Value → Bool
  | .NUM num => decide (-2147483648 ≤ num) && decide (num < 2147483648)
  | .ID _ => true
  | .STRING s => s.data.all (fun c => c ≠ Char.ofNat 0)
  | .FUNC name args => if name = "" then decide (2 ≤ args.length) && Value.validList args else true
  | .INF => true
  | .SUP => true
  | .SPECIAL => false
/-- All values of the list are valid. -/
def Value.validList : List Value → Bool
  | [] => true
  | v :: vs => v.valid && Value.validList vs
end

/-! ## Notions used to state the order of the outputs of the resolver -/

/-- Every literal of the body without unresolved dependency is in the open
list. -/
def ReadyInOpen (body : List BodyAggr) (st : ResolveState) : Prop :=
  ∀ x, x < body.length → st.dep.entDepends x = 0 → x ∈ st.open_

/-- The states in which the outer loop of the resolver (line 216) tests its
condition during the run on `body`, with the position `it` in the open list:
the state when the loops start, and the state after each further pass
through the scan of the open list and the loop over the pending assignments. -/
inductive OuterLoopHead (body : List BodyAggr) : ResolveState → Nat → Prop where
  | start : OuterLoopHead body (resolveInit body) 0
  | pass (st : ResolveState) (it : Nat) (r : ResolveState × Nat × List Nat)
      (st2 : ResolveState) :
      OuterLoopHead body st it → st.open_[it]? ≠ none →
      forOpen (resolveFuel body) st it [] = some r →
      whileAssign (resolveFuel body) r.1 r.2.2 [] = some st2 →
      OuterLoopHead body st2 r.2.1

/-- The literals of the body that are ready from the start: those that
consume no level-0 variable, in body order. -/
def readyAtStart (body : List BodyAggr) : List Nat :=
  (List.range body.length).filter (fun x => consumedNames (bodyAt body x).vars = [])

/-- The body `X=1+2, Y=2, not q(X), not r(Y)`. -/
def body_X_Y_notqX_notrY : List BodyAggr := [lit_X_eq_3, lit_Y_eq_2, lit_not_qX, lit_not_rY]

/-- The body `X=1+2, Y=2, not q(X)`. -/
def body_X_Y_notqX : List BodyAggr := [lit_X_eq_3, lit_Y_eq_2, lit_not_qX]

/-- The body `q(X), Y=X+1, Z=X+1`. -/
def body_qX_Y_Z : List BodyAggr := [lit_qX, lit_Y_eq_X1, lit_Z_eq_X1]

/-! ## Further example bodies -/

/-- The body `q(X), X=Y+1, r(Y)` of the rule `p(X) :- q(X), X = Y+1, r(Y).` -/
def body_qX_XY_rY : List BodyAggr := [lit_qX, lit_X_eq_Y1, lit_rY]

/-- The state of the resolver on `q(X), X=Y+1, r(Y)` after the scan of the
open list has output `q(X)` and `r(Y)`. -/
def state_qX_rY : ResolveState :=
  ((((resolveInit body_qX_XY_rY).propagate 0).emit lit_qX).propagate 2).emit lit_rY

/-! ## Extraction of aggregates from a body -/

/-- The virtual method `BodyAggr::rewriteAggregates(aggr)`, declared outside
`statement.cc` and taken as a parameter: the call on an element with the
vector `aggr` gives the result of the call, the element after the call and
the vector `aggr` after the call. -/
structure AggrOps (B : Type) where
  rewriteAggregates : B → List B → Bool × B × List B

/-- Body of the loop of `_rewriteAggregates` (lines 177-182) at position `it`:
the state is the vector `body` (an entry is `none` once it has been moved
from), the position `jt` and the vector `aggr`; the result is `none` when the
entry at `it` is no element. -/
def aggrStep {B : Type} (ops : AggrOps B) (st : Option (List (Option B) × Nat × List B))
    (it : Nat) : Option (List (Option B) × Nat × List B) :=
  match st with
  | none => none
  | some (body, jt, aggr) =>
    match body[it]? with
    | some (some y) =>
      let r := ops.rewriteAggregates y aggr
      let body := body.set it (some r.2.1)
      if r.1 then
        some (if it ≠ jt then (body.set jt (some r.2.1)).set it none else body, jt + 1, r.2.2)
      else some (body, jt, r.2.2)
    | _ => none

/-- The function `_rewriteAggregates` (lines 174-185): the loop over the
positions of the original body, `body.erase(jt, body.end())`, and the move
of `aggr` to the end of the body. -/
def _rewriteAggregates {B : Type} (ops : AggrOps B) (body : List B) :
    Option (List (Option B)) :=
  match (List.range body.length).foldl (aggrStep ops) (some (body.map some, 0, [])) with
  | none => none
  | some (b, jt, aggr) => some (b.take jt ++ aggr.map some)

/-- One call of `rewriteAggregates` on each element of a body, in order: the
results of the calls with the elements after their call, and the vector
`aggr` after the last call. -/
def aggregateCalls {B : Type} (ops : AggrOps B) (body : List B) : List (Bool × B) × List B :=
  body.foldl
    (fun acc y => (acc.1 ++ [((ops.rewriteAggregates y acc.2).1,
        (ops.rewriteAggregates y acc.2).2.1)], (ops.rewriteAggregates y acc.2).2.2))
    ([], [])

/-- The single stable pass as the specification words it: the elements for
which the call returned true, in their original relative order, followed by
the replacement elements that the calls generated, in generation order. -/
def rewriteAggregatesPass {B : Type} (ops : AggrOps B) (body : List B) : List B :=
  (((aggregateCalls ops body).1.filter (fun c => c.1)).map (fun c => c.2))
    ++ (aggregateCalls ops body).2

/-- Example of `rewriteAggregates` on elements given by a name and a kind:
kind 0 is a literal that stays, kind 1 an aggregate that is replaced by a
generated element, kind 2 an element that stays and generates an element. -/
def exAggrOps : AggrOps (String × Nat) where
  rewriteAggregates := fun y aggr =>
    if y.2 = 0 then (true, y, aggr)
    else if y.2 = 1 then (false, y, aggr ++ [("aux_" ++ y.1, 0)])
    else (true, (y.1, 0), aggr ++ [("aux_" ++ y.1, 0)])

/-! ## Rich comparison of values in the scripting interfaces -/

/-- The comparison operators of a type `T`, defined elsewhere. -/
structure CmpOps (T : Type) where
  lt : T → T → Bool
  le : T → T → Bool
  eq : T → T → Bool
  ne : T → T → Bool
  gt : T → T → Bool
  ge : T → T → Bool

/-- The comparison codes of Python. -/
inductive PyCmpOp where
  | Py_LT | Py_LE | Py_EQ | Py_NE | Py_GT | Py_GE
deriving DecidableEq, Repr

/-- The function `doCmp` of `python.cc` (lines 92-103). -/
def Python.doCmp {T : Type} (ops : CmpOps T) (a b : T) (op : PyCmpOp) : Bool :=
  match op with
  | .Py_LT => if ops.lt a b then true else false
  | .Py_LE => if ops.le a b then true else false
  | .Py_EQ => if ops.eq a b then true else false
  | .Py_NE => if ops.ne a b then true else false
  | .Py_GT => if ops.gt a b then true else false
  | .Py_GE => if ops.ge a b then true else false

/-- The comparison operators of `int`. -/
def intCmpOps : CmpOps Int where
  lt := fun a b => decide (a < b)
  le := fun a b => decide (a ≤ b)
  eq := fun a b => decide (a = b)
  ne := fun a b => decide (a ≠ b)
  gt := fun a b => decide (a > b)
  ge := fun a b => decide (a ≥ b)

/-- The method `Fun::cmp` of `python.cc` (lines 201-205) on two `Fun` objects. -/
def Python.Fun.cmp (ops : CmpOps Value) (self b : Value) (op : PyCmpOp) : Bool :=
  Python.doCmp ops self b op

/-- The methods `Sup::cmp` and `Inf::cmp` of `python.cc` on two objects of the
same type: `doCmp(0, 0, op)`. -/
def Python.Sup.cmp (op : PyCmpOp) : Bool := Python.doCmp intCmpOps 0 0 op

/-- The function `eq##TYPE` generated by `VALUE_CMP` (lines 38-43). -/
def Lua.eqValue (ops : CmpOps Value) (a b : Value) : Bool := ops.eq a b

/-- The function `lt##TYPE` generated by `VALUE_CMP` (lines 44-49), which
pushes `*a <= *b`. -/
def Lua.ltValue (ops : CmpOps Value) (a b : Value) : Bool := ops.le a b

/-- The function `le##TYPE` generated by `VALUE_CMP` (lines 50-55), which
pushes `*a < *b`. -/
def Lua.leValue (ops : CmpOps Value) (a b : Value) : Bool := ops.lt a b

/-- The table `meta` of `Fun`, `Inf` and `Sup` (lines 390-398): the function
registered under the name of a metamethod. -/
def Lua.meta (ops : CmpOps Value) (name : String) : Option (Value → Value → Bool) :=
  if name = "__eq" then some (Lua.eqValue ops)
  else if name = "__lt" then some (Lua.ltValue ops)
  else if name = "__le" then some (Lua.leValue ops)
  else none

/-- Example of the comparison operators of values: numbers by size, `#inf`
below and `#sup` above every other value, any two other values ordered by
their kind only. -/
def Value.rank : Value → Int
  | .INF => 0
  | .NUM _ => 1
  | .ID _ => 2
  | .STRING _ => 3
  | .FUNC _ _ => 4
  | .SUP => 5
  | .SPECIAL => 6

/-- Example of the comparison operators of values, see `Value.rank`. -/
def exCmpOps : CmpOps Value where
  lt := fun a b =>
    match a, b with
    | .NUM x, .NUM y => decide (x < y)
    | _, _ => decide (a.rank < b.rank)
  le := fun a b =>
    match a, b with
    | .NUM x, .NUM y => decide (x ≤ y)
    | _, _ => decide (a.rank ≤ b.rank)
  eq := fun a b =>
    match a, b with
    | .NUM x, .NUM y => decide (x = y)
    | _, _ => decide (a.rank = b.rank)
  ne := fun a b =>
    match a, b with
    | .NUM x, .NUM y => decide (x ≠ y)
    | _, _ => decide (a.rank ≠ b.rank)
  gt := fun a b =>
    match a, b with
    | .NUM x, .NUM y => decide (x > y)
    | _, _ => decide (a.rank > b.rank)
  ge := fun a b =>
    match a, b with
    | .NUM x, .NUM y => decide (x ≥ y)
    | _, _ => decide (a.rank ≥ b.rank)

/-! ## Splitting of option strings -/

/-- Search of the first character of `l` that is one of `delimiter`, `i` being
the position of the head of `l`. -/
def firstOf (delimiter : List Char) : List Char → Nat → Option Nat
  | [], _ => none
  | c :: cs, i => if c ∈ delimiter then some i else firstOf delimiter cs (i + 1)

/-- The method `std::string::find_first_of(delimiter, pos)`: the position of
the first character at or after `pos` that is one of `delimiter`, `none` for
`npos`. -/
def find_first_of (source delimiter : List Char) (pos : Nat) : Option Nat :=
  firstOf delimiter (source.drop pos) pos

/-- The method `std::string::substr(pos, n)`. -/
def substr (source : List Char) (pos n : Nat) : List Char := (source.drop pos).take n

/-- The loop of `split` (lines 110-113): `prev` and `results` when the loop
is left, `none` when the fuel is used up. -/
def splitWhile (source delimiter : List Char) (keepEmpty : Bool) :
    Nat → Nat → List (List Char) → Option (Nat × List (List Char))
  | 0, _, _ => none
  | fuel + 1, prev, results =>
    match find_first_of source delimiter prev with
    | some next =>
      splitWhile source delimiter keepEmpty fuel (next + 1)
        (if keepEmpty || (next - prev != 0) then results ++ [substr source prev (next - prev)]
         else results)
    | none => some (prev, results)

/-- The function `split` of `clingocontrol.hh` (lines 106-116) on strings as
lists of characters. -/
def split (source delimiter : List Char) (keepEmpty : Bool) : Option (List (List Char)) :=
  match splitWhile source delimiter keepEmpty (source.length + 1) 0 [] with
  | none => none
  | some (prev, results) =>
    some (if prev < source.length then results ++ [source.drop prev] else results)

/-- The maximal non-empty runs of characters that are no delimiter, in order
of occurrence: `Runs delimiter source tokens` holds when `source` is cut
into delimiter characters and the runs `tokens`, each run being non-empty,
free of delimiter characters and followed by a delimiter character or the
end of `source` (a run starts at the start of `source` or after a delimiter
character). -/
inductive Runs (delimiter : List Char) : List Char → List (List Char) → Prop where
  | done : Runs delimiter [] []
  | skip (c : Char) (cs : List Char) (tokens : List (List Char)) :
      c ∈ delimiter → Runs delimiter cs tokens → Runs delimiter (c :: cs) tokens
  | run (t rest : List Char) (tokens : List (List Char)) :
      t ≠ [] → (∀ c ∈ t, c ∉ delimiter) →
      (rest = [] ∨ ∃ c cs, rest = c :: cs ∧ c ∈ delimiter) →
      Runs delimiter rest tokens → Runs delimiter (t ++ rest) (t :: tokens)

/-! ## The order of the outputs of the resolver -/

/-- The literal output for an entry of a trace of the resolver: the literal
with address `e.1`, as a check when the flag `e.2` is set (the assignment
status removed) and as it is otherwise. -/
def emitted (data : Nat → BodyAggr) (e : Nat × Bool) : BodyAggr :=
  if e.2 then (data e.1).removeAssignment else data e.1

/-- The body `q(X), Y=2, r(Z), not q(X)`. -/
def body_qX_Y_rZ_notqX : List BodyAggr :=
  [lit_qX, lit_Y_eq_2, ⟨"r(Z)", [provides "Z"], false⟩, lit_not_qX]

/-! ## Assignments that become ready during a scan -/

/-- The literal `q(Z)`. -/
def lit_qZ : BodyAggr := ⟨"q(Z)", [provides "Z"], false⟩
/-- The assignment `Y = Z+1`. -/
def lit_Y_eq_Z1 : BodyAggr := ⟨"Y=Z+1", [provides "Y", consumes "Z"], true⟩

/-- The body `X=1+2, q(Z), Y=Z+1`. -/
def body_X_qZ_Y : List BodyAggr := [lit_X_eq_3, lit_qZ, lit_Y_eq_Z1]

/-- The state of the resolver when the loops start, had `init` filled the
open list with `seeds`. -/
def resolveInitSeeded (body : List BodyAggr) (seeds : List Nat) : ResolveState :=
  { resolveInit body with open_ := seeds }

/-- The state of the resolver on `X=1+2, q(Z), Y=Z+1` after the scan of the
open list has output `q(Z)`. -/
def state_X_qZ_Y : ResolveState := ((resolveInit body_X_qZ_Y).propagate 1).emit lit_qZ


/-! ## Unpooling: lemmas -/

theorem Statement.unpoolBody_eq_flatMap {H B : Type} (ops : PoolOps H B) (s : Statement H B)
    (b : Bool) : s.unpoolBody ops b = s.body.flatMap (fun y => ops.unpoolBody y b) := by
  unfold Statement.unpoolBody
  have key : ∀ (l : List B) (acc : List B),
      l.foldl (fun body y => body ++ ops.unpoolBody y b) acc
        = acc ++ l.flatMap (fun y => ops.unpoolBody y b) := by
    intro l
    induction l with
    | nil => intro acc; simp
    | cons y ys ih => intro acc; simp [List.foldl_cons, ih, List.flatMap_cons, List.append_assoc]
  simpa using key s.body []

theorem Statement.unpool_eq_map {H B : Type} (ops : PoolOps H B) (s : Statement H B)
    (b : Bool) :
    s.unpool ops b = (ops.unpoolHead s.head b).map
      (fun h => { head := h, body := s.unpoolBody ops b, type := s.type, loc := s.loc }) := by
  unfold Statement.unpool
  have key : ∀ (l : List H) (acc : List (Statement H B)) (f : H → Statement H B),
      l.foldl (fun x y => x ++ [f y]) acc = acc ++ l.map f := by
    intro l
    induction l with
    | nil => intro acc f; simp
    | cons y ys ih => intro acc f; simp [List.foldl_cons, ih, List.append_assoc]
  simpa using key (ops.unpoolHead s.head b) []
    (fun h => { head := h, body := s.unpoolBody ops b, type := s.type, loc := s.loc })

theorem hasPoolBodyLoop_eq_false {B : Type} (hasPool : B → Bool → Bool) (b : Bool)
    (l : List B) (h : hasPoolBodyLoop hasPool b l = false) : ∀ y ∈ l, hasPool y b = false := by
  induction l with
  | nil => intro y hy; simp at hy
  | cons x xs ih =>
    intro y hy
    unfold hasPoolBodyLoop at h
    by_cases hx : hasPool x b = true
    · simp [hx] at h
    · simp [hx] at h
      rcases List.mem_cons.mp hy with rfl | hy
      · simpa using hx
      · exact ih h y hy

theorem flatMap_singleton_of_forall {B : Type} (f : B → List B) (l : List B)
    (h : ∀ y ∈ l, f y = [y]) : l.flatMap f = l := by
  induction l with
  | nil => rfl
  | cons x xs ih =>
    rw [List.flatMap_cons, h x (List.mem_cons_self x xs),
      ih (fun y hy => h y (List.mem_cons_of_mem x hy))]
    rfl

mutual
theorem Term.unpool_of_hasPool_false : ∀ t : Term, t.hasPool = false → t.unpool = [t]
  | .ValTerm _, _ => by simp [Term.unpool]
  | .VarTerm _ _, _ => by simp [Term.unpool]
  | .PoolTerm _, h => by simp [Term.hasPool] at h
  | .FunctionTerm f args, h => by
    have h1 : Term.hasPoolList args = false := by simpa [Term.hasPool] using h
    simp [Term.unpool, Term.unpoolArgs_of_hasPool_false args h1]
theorem Term.unpoolArgs_of_hasPool_false :
    ∀ ts : List Term, Term.hasPoolList ts = false → Term.unpoolArgs ts = [ts]
  | [], _ => by simp [Term.unpoolArgs]
  | t :: ts, h => by
    have h1 : t.hasPool = false ∧ Term.hasPoolList ts = false := by
      simpa [Term.hasPoolList] using h
    simp [Term.unpoolArgs, Term.unpool_of_hasPool_false t h1.1,
      Term.unpoolArgs_of_hasPool_false ts h1.2]
end

theorem Literal.unpool_self_of_no_pool (l : Literal) (b : Bool) (h : l.hasPool b = false) :
    l.unpool b = [l] := by
  cases l with
  | PredicateLiteral naf repr =>
    have h1 : repr.hasPool = false := h
    simp [Literal.unpool, Term.unpool_of_hasPool_false repr h1]
  | RelationLiteral rel left right =>
    have h1 : left.hasPool = false ∧ right.hasPool = false := by
      simpa [Literal.hasPool] using h
    simp [Literal.unpool, Term.unpool_of_hasPool_false left h1.1,
      Term.unpool_of_hasPool_false right h1.2]

/-! ## Unpooling: the claims -/

/-- C1: a statement without pools (`hasPool` is false, and heads and body
elements without a pool unpool to themselves) is unpooled to the singleton
sequence holding the statement itself: same head, body, kind and location. -/
theorem unpool_no_pool_singleton {H B : Type} (ops : PoolOps H B) (s : Statement H B)
    (b : Bool)
    (hHead : ∀ h, ops.hasPoolHead h b = false → ops.unpoolHead h b = [h])
    (hBody : ∀ y, ops.hasPoolBody y b = false → ops.unpoolBody y b = [y])
    (hNoPool : s.hasPool ops b = false) :
    s.unpool ops b = [s] := by
  unfold Statement.hasPool at hNoPool
  by_cases hl : hasPoolBodyLoop ops.hasPoolBody b s.body = true
  · simp [hl] at hNoPool
  · simp [hl] at hNoPool
    have hl' : hasPoolBodyLoop ops.hasPoolBody b s.body = false := by simpa using hl
    have hb : s.unpoolBody ops b = s.body := by
      rw [Statement.unpoolBody_eq_flatMap]
      exact flatMap_singleton_of_forall _ _
        (fun y hy => hBody y (hasPoolBodyLoop_eq_false _ _ _ hl' y hy))
    rw [Statement.unpool_eq_map, hHead s.head hNoPool, hb]
    rfl

/-- Witness of C1: the rule `p :- q.` has no pool and is unpooled to itself. -/
theorem unpool_no_pool_singleton_witness :
    Statement.unpool litOps ⟨atom_p, [atom_q], .RULE, exLoc⟩ false
      = [⟨atom_p, [atom_q], .RULE, exLoc⟩] :=
  unpool_no_pool_singleton litOps ⟨atom_p, [atom_q], .RULE, exLoc⟩ false
    (fun h hh => Literal.unpool_self_of_no_pool h false hh)
    (fun y hy => Literal.unpool_self_of_no_pool y false hy)
    (by rfl)

mutual
theorem Term.length_unpool : ∀ t : Term, t.unpool.length = t.poolSizes.prod
  | .ValTerm _ => by simp [Term.unpool, Term.poolSizes]
  | .VarTerm _ _ => by simp [Term.unpool, Term.poolSizes]
  | .PoolTerm _ => by simp [Term.unpool, Term.poolSizes]
  | .FunctionTerm _ args => by
    simp [Term.unpool, Term.poolSizes, Term.length_unpoolArgs args]
theorem Term.length_unpoolArgs :
    ∀ ts : List Term, (Term.unpoolArgs ts).length = (Term.poolSizesList ts).prod
  | [] => by simp [Term.unpoolArgs, Term.poolSizesList]
  | t :: ts => by
    have h1 := Term.length_unpool t
    have h2 := Term.length_unpoolArgs ts
    have key : ∀ (l : List Term) (m : List (List Term)),
        (l.flatMap (fun a => m.map (fun as => a :: as))).length = l.length * m.length := by
      intro l m
      induction l with
      | nil => simp
      | cons a l ih => simp [List.flatMap_cons, ih, Nat.succ_mul, Nat.add_comm]
    simp [Term.unpoolArgs, Term.poolSizesList, key, h1, h2]
end

mutual
theorem Term.hasPool_of_mem_unpool :
    ∀ (t : Term) (u : Term), u ∈ t.unpool → u.hasPool = false
  | .ValTerm _, u, h => by
    simp [Term.unpool] at h; subst h; rfl
  | .VarTerm _ _, u, h => by
    simp [Term.unpool] at h; subst h; rfl
  | .PoolTerm alts, u, h => by
    simp only [Term.unpool] at h
    exact Term.hasPool_of_mem_unpoolAlts alts u h
  | .FunctionTerm f args, u, h => by
    simp only [Term.unpool, List.mem_map] at h
    obtain ⟨as, has, rfl⟩ := h
    simpa [Term.hasPool] using Term.hasPoolList_of_mem_unpoolArgs args as has
theorem Term.hasPool_of_mem_unpoolAlts :
    ∀ (ts : List Term) (u : Term), u ∈ Term.unpoolAlts ts → u.hasPool = false
  | [], u, h => by simp [Term.unpoolAlts] at h
  | t :: ts, u, h => by
    simp only [Term.unpoolAlts, List.mem_append] at h
    rcases h with h | h
    · exact Term.hasPool_of_mem_unpool t u h
    · exact Term.hasPool_of_mem_unpoolAlts ts u h
theorem Term.hasPoolList_of_mem_unpoolArgs :
    ∀ (ts : List Term) (us : List Term), us ∈ Term.unpoolArgs ts →
      Term.hasPoolList us = false
  | [], us, h => by
    simp [Term.unpoolArgs] at h; subst h; rfl
  | t :: ts, us, h => by
    simp only [Term.unpoolArgs, List.mem_flatMap, List.mem_map] at h
    obtain ⟨a, ha, as, has, rfl⟩ := h
    simp [Term.hasPoolList, Term.hasPool_of_mem_unpool t a ha,
      Term.hasPoolList_of_mem_unpoolArgs ts as has]
end

theorem Literal.length_unpool_eq (l : Literal) (b : Bool) :
    (l.unpool b).length = l.poolSizes.prod := by
  cases l with
  | PredicateLiteral naf repr =>
    simp [Literal.unpool, Literal.poolSizes, Term.length_unpool]
  | RelationLiteral rel left right =>
    have key : ∀ (l : List Term) (m : List Term),
        (l.flatMap (fun a => m.map (fun c => Literal.RelationLiteral rel a c))).length
          = l.length * m.length := by
      intro l m
      induction l with
      | nil => simp
      | cons a l ih => simp [List.flatMap_cons, ih, Nat.succ_mul, Nat.add_comm]
    simp [Literal.unpool, Literal.poolSizes, key, Term.length_unpool]

theorem Literal.no_pool_of_mem_unpool (l u : Literal) (b : Bool) (h : u ∈ l.unpool b) :
    u.hasPool b = false := by
  cases l with
  | PredicateLiteral naf repr =>
    simp only [Literal.unpool, List.mem_map] at h
    obtain ⟨t, ht, rfl⟩ := h
    exact Term.hasPool_of_mem_unpool _ t ht
  | RelationLiteral rel left right =>
    simp only [Literal.unpool, List.mem_flatMap, List.mem_map] at h
    obtain ⟨a, ha, c, hc, rfl⟩ := h
    simp [Literal.hasPool, Term.hasPool_of_mem_unpool _ a ha, Term.hasPool_of_mem_unpool _ c hc]

/-- C2 (counterexample): the rule `p :- q(1;2).` has one pool, of size 2,
but it is unpooled to a single statement, whose body holds both alternatives
`q(1)` and `q(2)`; the claim announces 2 statements. -/
theorem unpool_body_pool_not_cross_product :
    Statement.poolSizes stm_p_q12 = [2]
    ∧ Statement.unpool litOps stm_p_q12 false
        = [⟨atom_p, [atom_q1, atom_q2], .RULE, exLoc⟩]
    ∧ (Statement.unpool litOps stm_p_q12 false).length
        ≠ (Statement.poolSizes stm_p_q12).prod := by
  refine ⟨by rfl, by rfl, ?_⟩
  have h1 : (Statement.unpool litOps stm_p_q12 false).length = 1 := by rfl
  have h2 : (Statement.poolSizes stm_p_q12).prod = 2 := by rfl
  rw [h1, h2]
  decide

/-- C2 (amended): unpooling yields exactly one statement per alternative of the
unpooled head, in the order of these alternatives (for head pools of sizes
`n1..nk`: `n1*...*nk` statements, none of whose heads has a pool left); pools
of the body do not multiply the statements: every statement carries the same
body, the alternatives of all body elements concatenated in body order, none
of them with a pool left. -/
theorem unpool_card_head_pools {H B : Type} (ops : PoolOps H B) (s : Statement H B)
    (sp : Statement Literal Literal) (b : Bool) :
    (s.unpool ops b).length = (ops.unpoolHead s.head b).length
    ∧ (s.unpool ops b).map (fun x => x.head) = ops.unpoolHead s.head b
    ∧ (∀ x ∈ s.unpool ops b, x.body = s.body.flatMap (fun y => ops.unpoolBody y b))
    ∧ (Statement.unpool litOps sp b).length = sp.head.poolSizes.prod
    ∧ (∀ x ∈ Statement.unpool litOps sp b,
        x.head.hasPool b = false ∧ ∀ y ∈ x.body, y.hasPool b = false) := by
  refine ⟨?_, ?_, ?_, ?_, ?_⟩
  · rw [Statement.unpool_eq_map, List.length_map]
  · rw [Statement.unpool_eq_map, List.map_map]
    simp [Function.comp_def]
  · intro x hx
    rw [Statement.unpool_eq_map, List.mem_map] at hx
    obtain ⟨h, _, rfl⟩ := hx
    exact Statement.unpoolBody_eq_flatMap ops s b
  · rw [Statement.unpool_eq_map, List.length_map]
    exact Literal.length_unpool_eq sp.head b
  · intro x hx
    rw [Statement.unpool_eq_map, List.mem_map] at hx
    obtain ⟨h, hh, rfl⟩ := hx
    constructor
    · exact Literal.no_pool_of_mem_unpool sp.head h b hh
    · intro y hy
      have hy' : y ∈ sp.body.flatMap (fun z => Literal.unpool z b) := by
        have := Statement.unpoolBody_eq_flatMap litOps sp b
        simp only at hy
        rw [this] at hy
        exact hy
      rw [List.mem_flatMap] at hy'
      obtain ⟨z, _, hz⟩ := hy'
      exact Literal.no_pool_of_mem_unpool z y b hz

/-- C3: when the head unpools to `h1..hn`, unpooling returns exactly `n`
statements, the `i`-th with head `hi`, all with the kind and the location of
the statement and with the same body (the unpooled body, which is the body
of the statement itself when no body element has alternatives);
`p(1;2) :- q.` yields `p(1) :- q.` followed by `p(2) :- q.`. -/
theorem unpool_head_alternatives {H B : Type} (ops : PoolOps H B) (s : Statement H B)
    (b : Bool) :
    (s.unpool ops b).length = (ops.unpoolHead s.head b).length
    ∧ (∀ i : Nat, (s.unpool ops b)[i]? = ((ops.unpoolHead s.head b)[i]?).map
        (fun h => { head := h, body := s.unpoolBody ops b, type := s.type, loc := s.loc }))
    ∧ ((∀ y ∈ s.body, ops.unpoolBody y b = [y]) → s.unpoolBody ops b = s.body)
    ∧ Statement.unpool litOps stm_p12_q false
        = [⟨atom_p1, [atom_q], .RULE, exLoc⟩, ⟨atom_p2, [atom_q], .RULE, exLoc⟩] := by
  refine ⟨?_, ?_, ?_, by rfl⟩
  · rw [Statement.unpool_eq_map, List.length_map]
  · intro i
    rw [Statement.unpool_eq_map, List.getElem?_map]
  · intro h
    rw [Statement.unpoolBody_eq_flatMap]
    exact flatMap_singleton_of_forall _ _ h

/-- Witness of C3 at the rule `p(1;2) :- q.`, whose body element `q` unpools
to itself. -/
theorem unpool_head_alternatives_witness :
    (∀ y ∈ stm_p12_q.body, litOps.unpoolBody y false = [y])
    ∧ stm_p12_q.unpoolBody litOps false = stm_p12_q.body :=
  ⟨by intro y hy; simp [stm_p12_q] at hy; subst hy; rfl,
   (unpool_head_alternatives litOps stm_p12_q false).2.2.1
     (by intro y hy; simp [stm_p12_q] at hy; subst hy; rfl)⟩

/-! ## Printing of weak constraints -/

theorem foldl_append_sep {α : Type} (sep : String) (f : α → String) (l : List α)
    (out : String) :
    l.foldl (fun out y => out ++ sep ++ f y) out = out ++ precededBy sep (l.map f) := by
  induction l generalizing out with
  | nil => simp [precededBy]
  | cons x xs ih =>
    rw [List.foldl_cons, ih]
    simp [precededBy, String.append_assoc]

theorem separatedBy_cons (sep : String) (x : String) (l : List String) :
    separatedBy sep (x :: l) = x ++ precededBy sep l := by
  induction l generalizing x with
  | nil => simp [separatedBy, precededBy]
  | cons y ys ih => simp [separatedBy, precededBy, ih, String.append_assoc]

theorem print_comma_eq {α : Type} (sep : String) (f : α → String) (l : List α)
    (out : String) :
    print_comma out l sep (fun out x => out ++ f x) = out ++ separatedBy sep (l.map f) := by
  cases l with
  | nil => simp [print_comma, separatedBy]
  | cons x xs =>
    simp only [print_comma, List.map_cons]
    rw [separatedBy_cons, foldl_append_sep sep f xs (out ++ f x), String.append_assoc]

/-- C10: a weak constraint with weight `w`, priority `p`, tuple `t1..tn` and
body `b1..bm` is printed as `:~`, the body elements separated by `;`, `.[`,
`w`, `@`, `p`, then `,ti` for every tuple term in order, then `]`, both when
the packed head term is a function term that is not constant (the terms are
printed) and when it is constant (the values it evaluates to are printed);
`:~ a. [1@2]` is printed as `:~a.[1@2]`. -/
theorem print_weak_constraint {B : Type} (ops : TermOps) (printBody : B → String)
    (naf : NAF) (name : String) (w p : Term) (t : List Term)
    (vw vp : Value) (vt : List Value) (body : List B) (loc : Location) (out : String) :
    (ops.getInvertibility (.FunctionTerm name (w :: p :: t)) ≠ Invertibility.CONSTANT →
      Statement.print ops printBody
          ⟨.SimpleHeadLiteral (.PredicateLiteral naf (.FunctionTerm name (w :: p :: t))),
            body, .WEAKCONSTRAINT, loc⟩ out
        = some (out ++ ":~" ++ separatedBy ";" (body.map printBody) ++ ".[" ++ ops.printTerm w
            ++ "@" ++ ops.printTerm p ++ precededBy "," (t.map ops.printTerm) ++ "]"))
    ∧ (∀ term : Term, ops.getInvertibility term = Invertibility.CONSTANT →
        ops.eval term = Value.FUNC name (vw :: vp :: vt) →
        Statement.print ops printBody
          ⟨.SimpleHeadLiteral (.PredicateLiteral naf term), body, .WEAKCONSTRAINT, loc⟩ out
        = some (out ++ ":~" ++ separatedBy ";" (body.map printBody) ++ ".["
            ++ ops.printValue vw ++ "@" ++ ops.printValue vp
            ++ precededBy "," (vt.map ops.printValue) ++ "]"))
    ∧ Statement.print exTermOps exPrintBody stm_wc_a "" = some ":~a.[1@2]"
    ∧ Statement.print exTermOps exPrintBody stm_wc_a_const "" = some ":~a.[1@2]" := by
  refine ⟨?_, ?_, by rfl, by rfl⟩
  · intro h
    simp only [Statement.print, wc_term_from_head, ne_eq, not_true_eq_false, if_false, h]
    rw [print_comma_eq, foldl_append_sep]
  · intro term h1 h2
    simp only [Statement.print, wc_term_from_head, ne_eq, not_true_eq_false, if_false, h1,
      if_true, h2, Value.args]
    rw [print_comma_eq, foldl_append_sep]

/-- Witness of C10: both forms of `:~ a. [1@2]`, the head term a function term
and the head term a constant. -/
theorem print_weak_constraint_witness :
    (exTermOps.getInvertibility (.FunctionTerm "#wc" [.ValTerm (.NUM 1), .ValTerm (.NUM 2)])
        ≠ Invertibility.CONSTANT)
    ∧ Statement.print exTermOps exPrintBody stm_wc_a ""
        = some ("" ++ ":~" ++ separatedBy ";" ([atom_a].map exPrintBody) ++ ".["
            ++ exTermOps.printTerm (.ValTerm (.NUM 1)) ++ "@"
            ++ exTermOps.printTerm (.ValTerm (.NUM 2))
            ++ precededBy "," (([] : List Term).map exTermOps.printTerm) ++ "]")
    ∧ Statement.print exTermOps exPrintBody stm_wc_a_const ""
        = some ("" ++ ":~" ++ separatedBy ";" ([atom_a].map exPrintBody) ++ ".["
            ++ exTermOps.printValue (.NUM 1) ++ "@" ++ exTermOps.printValue (.NUM 2)
            ++ precededBy "," (([] : List Value).map exTermOps.printValue) ++ "]") :=
  ⟨by decide,
   (print_weak_constraint exTermOps exPrintBody .POS "#wc" (.ValTerm (.NUM 1))
      (.ValTerm (.NUM 2)) [] (.NUM 1) (.NUM 2) [] [atom_a] exLoc "").1 (by decide),
   (print_weak_constraint exTermOps exPrintBody .POS "#wc" (.ValTerm (.NUM 1))
      (.ValTerm (.NUM 2)) [] (.NUM 1) (.NUM 2) [] [atom_a] exLoc "").2.1
      (.ValTerm (.FUNC "#wc" [.NUM 1, .NUM 2])) (by rfl) (by rfl)⟩

/-! ## The dependency graph of a body -/

theorem bodyAt_append_left (pre : List BodyAggr) (y : BodyAggr) (x : Nat)
    (h : x < pre.length) : bodyAt (pre ++ [y]) x = bodyAt pre x := by
  unfold bodyAt
  simp [List.getD_eq_getElem?_getD, List.getElem?_append_left h]

theorem bodyAt_append_length (pre : List BodyAggr) (y : BodyAggr) :
    bodyAt (pre ++ [y]) pre.length = y := by
  unfold bodyAt
  simp [List.getD_eq_getElem?_getD]

theorem bodyAt_of_le (body : List BodyAggr) (x : Nat) (h : body.length ≤ x) :
    bodyAt body x = ⟨"", [], false⟩ := by
  unfold bodyAt
  simp [List.getD_eq_getElem?_getD, List.getElem?_eq_none h]

theorem bodyAt_mem (body : List BodyAggr) (x : Nat) (h : x < body.length) :
    bodyAt body x ∈ body := by
  unfold bodyAt
  simp [List.getD_eq_getElem?_getD, List.getElem?_eq_getElem h]

theorem providedNames_append (a b : VarTermBoundVec) :
    providedNames (a ++ b) = providedNames a ++ providedNames b := by
  simp [providedNames]

theorem consumedNames_append (a b : VarTermBoundVec) :
    consumedNames (a ++ b) = consumedNames a ++ consumedNames b := by
  simp [consumedNames]

/-- Closed form of the loop over the occurrences of one body element. -/
theorem foldl_insertOcc (ent : Nat) (os : VarTermBoundVec) (dep : SafetyChecker) :
    (os.foldl (insertOcc ent) dep).entNodes = dep.entNodes
    ∧ (∀ x, (os.foldl (insertOcc ent) dep).entProvides x
        = if x = ent then dep.entProvides x ++ providedNames os else dep.entProvides x)
    ∧ (∀ x, (os.foldl (insertOcc ent) dep).entDepends x
        = if x = ent then dep.entDepends x + (consumedNames os).length else dep.entDepends x)
    ∧ (∀ y, (os.foldl (insertOcc ent) dep).varProvides y
        = dep.varProvides y ++ List.replicate ((consumedNames os).count y) ent)
    ∧ (os.foldl (insertOcc ent) dep).varBound = dep.varBound := by
  induction os generalizing dep with
  | nil => simp [providedNames, consumedNames]
  | cons o os ih =>
    rw [List.foldl_cons]
    obtain ⟨h1, h2, h3, h4, h5⟩ := ih (insertOcc ent dep o)
    obtain ⟨⟨name, level⟩, b⟩ := o
    have hp : providedNames ((⟨name, level⟩, b) :: os)
        = (if level = 0 ∧ b = true then [name] else []) ++ providedNames os := by
      unfold providedNames
      by_cases hl : level = 0 <;> cases b <;> simp [List.filter_cons, hl]
    have hc : consumedNames ((⟨name, level⟩, b) :: os)
        = (if level = 0 ∧ b = false then [name] else []) ++ consumedNames os := by
      unfold consumedNames
      by_cases hl : level = 0 <;> cases b <;> simp [List.filter_cons, hl]
    by_cases hl : level = 0
    · cases b
      · -- a consumed occurrence
        have e1 : (insertOcc ent dep (⟨name, level⟩, false)).entNodes = dep.entNodes := by
          by_cases hv : (dep.varNodes.any (fun v => decide (v.name = name))) = true <;>
            simp [insertOcc, hl, hv, SafetyChecker.insertVar, SafetyChecker.insertEdgeVarEnt]
        have e2 : (insertOcc ent dep (⟨name, level⟩, false)).entProvides = dep.entProvides := by
          by_cases hv : (dep.varNodes.any (fun v => decide (v.name = name))) = true <;>
            simp [insertOcc, hl, hv, SafetyChecker.insertVar, SafetyChecker.insertEdgeVarEnt]
        have e3 : (insertOcc ent dep (⟨name, level⟩, false)).entDepends
            = Function.update dep.entDepends ent (dep.entDepends ent + 1) := by
          by_cases hv : (dep.varNodes.any (fun v => decide (v.name = name))) = true <;>
            simp [insertOcc, hl, hv, SafetyChecker.insertVar, SafetyChecker.insertEdgeVarEnt]
        have e4 : (insertOcc ent dep (⟨name, level⟩, false)).varProvides
            = Function.update dep.varProvides name (dep.varProvides name ++ [ent]) := by
          by_cases hv : (dep.varNodes.any (fun v => decide (v.name = name))) = true <;>
            simp [insertOcc, hl, hv, SafetyChecker.insertVar, SafetyChecker.insertEdgeVarEnt]
        have e5 : (insertOcc ent dep (⟨name, level⟩, false)).varBound = dep.varBound := by
          by_cases hv : (dep.varNodes.any (fun v => decide (v.name = name))) = true <;>
            simp [insertOcc, hl, hv, SafetyChecker.insertVar, SafetyChecker.insertEdgeVarEnt]
        refine ⟨by rw [h1, e1], ?_, ?_, ?_, by rw [h5, e5]⟩
        · intro x; rw [h2, e2, hp]; simp [hl]
        · intro x; rw [h3, e3, hc]
          by_cases hx : x = ent
          · subst hx; simp [hl]; omega
          · simp [hx, Function.update_noteq hx]
        · intro y; rw [h4, e4, hc]
          by_cases hy : y = name
          · subst hy
            simp [hl, List.count_cons_self, List.replicate_succ]
          · have hy' : ¬ name = y := fun h => hy h.symm
            simp [hl, Function.update_noteq hy, List.count_cons, hy']
      · -- a provided occurrence
        have e1 : (insertOcc ent dep (⟨name, level⟩, true)).entNodes = dep.entNodes := by
          by_cases hv : (dep.varNodes.any (fun v => decide (v.name = name))) = true <;>
            simp [insertOcc, hl, hv, SafetyChecker.insertVar, SafetyChecker.insertEdgeEntVar]
        have e2 : (insertOcc ent dep (⟨name, level⟩, true)).entProvides
            = Function.update dep.entProvides ent (dep.entProvides ent ++ [name]) := by
          by_cases hv : (dep.varNodes.any (fun v => decide (v.name = name))) = true <;>
            simp [insertOcc, hl, hv, SafetyChecker.insertVar, SafetyChecker.insertEdgeEntVar]
        have e3 : (insertOcc ent dep (⟨name, level⟩, true)).entDepends = dep.entDepends := by
          by_cases hv : (dep.varNodes.any (fun v => decide (v.name = name))) = true <;>
            simp [insertOcc, hl, hv, SafetyChecker.insertVar, SafetyChecker.insertEdgeEntVar]
        have e4 : (insertOcc ent dep (⟨name, level⟩, true)).varProvides = dep.varProvides := by
          by_cases hv : (dep.varNodes.any (fun v => decide (v.name = name))) = true <;>
            simp [insertOcc, hl, hv, SafetyChecker.insertVar, SafetyChecker.insertEdgeEntVar]
        have e5 : (insertOcc ent dep (⟨name, level⟩, true)).varBound = dep.varBound := by
          by_cases hv : (dep.varNodes.any (fun v => decide (v.name = name))) = true <;>
            simp [insertOcc, hl, hv, SafetyChecker.insertVar, SafetyChecker.insertEdgeEntVar]
        refine ⟨by rw [h1, e1], ?_, ?_, ?_, by rw [h5, e5]⟩
        · intro x; rw [h2, e2, hp]
          by_cases hx : x = ent
          · subst hx; simp [hl]
          · simp [hx, Function.update_noteq hx]
        · intro x; rw [h3, e3, hc]; simp [hl]
        · intro y; rw [h4, e4, hc]; simp [hl]
    · have e : insertOcc ent dep (⟨name, level⟩, b) = dep := by
        simp [insertOcc, hl]
      rw [e] at h1 h2 h3 h4 h5
      rw [e]
      refine ⟨h1, ?_, ?_, ?_, h5⟩
      · intro x; rw [h2, hp]; simp [hl]
      · intro x; rw [h3, hc]; simp [hl]
      · intro y; rw [h4, hc]; simp [hl]

theorem bodyAt_append (pre : List BodyAggr) (y : BodyAggr) (x : Nat) :
    bodyAt (pre ++ [y]) x = if x = pre.length then y else bodyAt pre x := by
  by_cases h : x = pre.length
  · subst h; simp [bodyAt_append_length]
  · simp only [h, if_false]
    rcases Nat.lt_or_gt_of_ne h with hlt | hgt
    · exact bodyAt_append_left pre y x hlt
    · rw [bodyAt_of_le _ _ (by simp; omega), bodyAt_of_le _ _ (by omega)]

theorem BuildInv.empty : BuildInv [] SafetyChecker.empty := by
  refine ⟨⟨rfl, ?_, ?_, ?_⟩, ?_, rfl⟩
  · intro x; simp [SafetyChecker.empty, bodyAt, providedNames]
  · intro x y; simp [SafetyChecker.empty, bodyAt, consumedNames]
  · intro y z hz; simp [SafetyChecker.empty] at hz
  · intro x; simp [SafetyChecker.empty, bodyAt, consumedNames]

theorem BuildInv.step (pre : List BodyAggr) (dep : SafetyChecker) (y : BodyAggr)
    (h : BuildInv pre dep) : BuildInv (pre ++ [y]) (insertBodyElem dep y) := by
  obtain ⟨⟨g1, g2, g3, g4⟩, hd, hu⟩ := h
  have hent : (dep.insertEnt y).2 = pre.length := by simp [SafetyChecker.insertEnt, g1]
  have hcol : y.collect [] = y.vars := by simp [BodyAggr.collect]
  obtain ⟨f1, f2, f3, f4, f5⟩ := foldl_insertOcc (dep.insertEnt y).2 y.vars (dep.insertEnt y).1
  have hdef : bodyAt pre pre.length = ⟨"", [], false⟩ := bodyAt_of_le pre _ (Nat.le_refl _)
  unfold insertBodyElem
  simp only [hcol]
  refine ⟨⟨?_, ?_, ?_, ?_⟩, ?_, ?_⟩
  · rw [f1]; simp [SafetyChecker.insertEnt, g1]
  · intro x
    rw [f2, hent, bodyAt_append]
    by_cases hx : x = pre.length
    · subst hx
      simp [SafetyChecker.insertEnt, g2, hdef, providedNames]
    · simp [hx, SafetyChecker.insertEnt, g2]
  · intro x v
    rw [f4, hent, bodyAt_append, List.count_append, List.count_replicate]
    by_cases hx : x = pre.length
    · subst hx
      have := g3 pre.length v
      rw [hdef] at this
      simp [SafetyChecker.insertEnt, this, consumedNames]
    · have hx' : ¬ pre.length = x := fun h => hx h.symm
      simp [hx, hx', SafetyChecker.insertEnt, g3]
  · intro v z hz
    rw [f4, hent] at hz
    rcases List.mem_append.mp hz with hz | hz
    · have := g4 v z (by simpa [SafetyChecker.insertEnt] using hz)
      simp; omega
    · have := (List.mem_replicate.mp hz).2
      simp; omega
  · intro x
    rw [f3, hent, bodyAt_append]
    by_cases hx : x = pre.length
    · subst hx
      have := hd pre.length
      rw [hdef] at this
      simp [SafetyChecker.insertEnt, this, consumedNames]
    · simp [hx, SafetyChecker.insertEnt, hd]
  · rw [f5]; simpa [SafetyChecker.insertEnt] using hu

theorem BuildInv.foldl (rest pre : List BodyAggr) (dep : SafetyChecker)
    (h : BuildInv pre dep) : BuildInv (pre ++ rest) (rest.foldl insertBodyElem dep) := by
  induction rest generalizing pre dep with
  | nil => simpa using h
  | cons y ys ih =>
    have := ih (pre ++ [y]) (insertBodyElem dep y) (BuildInv.step pre dep y h)
    simpa [List.append_assoc] using this

theorem buildGraph_inv (body : List BodyAggr) : BuildInv body (buildGraph body) := by
  have := BuildInv.foldl body [] SafetyChecker.empty BuildInv.empty
  simpa [buildGraph] using this

/-! ## Propagation keeps the invariant of the resolver -/

theorem release_entDepends (st : ResolveState) (z x : Nat) :
    (st.release z).dep.entDepends x
      = if x = z then st.dep.entDepends z - 1 else st.dep.entDepends x := by
  unfold ResolveState.release
  by_cases hx : x = z
  · subst hx; split <;> simp
  · split <;> simp [Function.update_noteq hx, hx]

theorem release_open (st : ResolveState) (z : Nat) :
    (st.release z).open_ = st.open_ ++ (if st.dep.entDepends z = 1 then [z] else []) := by
  unfold ResolveState.release
  split <;> simp

theorem release_static (st : ResolveState) (z : Nat) :
    (st.release z).dep.entNodes = st.dep.entNodes
    ∧ (st.release z).dep.entProvides = st.dep.entProvides
    ∧ (st.release z).dep.varProvides = st.dep.varProvides
    ∧ (st.release z).dep.varBound = st.dep.varBound
    ∧ (st.release z).bound = st.bound
    ∧ (st.release z).sorted = st.sorted := by
  unfold ResolveState.release
  split <;> simp

/-- Closed form of the loop that releases the literals requiring a variable. -/
theorem foldl_release (l : List Nat) (st : ResolveState) :
    (l.foldl ResolveState.release st).dep.entNodes = st.dep.entNodes
    ∧ (l.foldl ResolveState.release st).dep.entProvides = st.dep.entProvides
    ∧ (l.foldl ResolveState.release st).dep.varProvides = st.dep.varProvides
    ∧ (l.foldl ResolveState.release st).dep.varBound = st.dep.varBound
    ∧ (l.foldl ResolveState.release st).bound = st.bound
    ∧ (l.foldl ResolveState.release st).sorted = st.sorted
    ∧ (∀ x, (l.foldl ResolveState.release st).dep.entDepends x
        = st.dep.entDepends x - l.count x)
    ∧ ∃ pushed : List Nat,
        (l.foldl ResolveState.release st).open_ = st.open_ ++ pushed
        ∧ pushed.Nodup
        ∧ ∀ z ∈ pushed, z ∈ l ∧ 1 ≤ st.dep.entDepends z ∧ st.dep.entDepends z ≤ l.count z := by
  induction l generalizing st with
  | nil => exact ⟨rfl, rfl, rfl, rfl, rfl, rfl, by simp, [], by simp, by simp, by simp⟩
  | cons z l ih =>
    rw [List.foldl_cons]
    obtain ⟨h1, h2, h3, h4, h5, h6, h7, pushed, hp1, hp2, hp3⟩ := ih (st.release z)
    obtain ⟨s1, s2, s3, s4, s5, s6⟩ := release_static st z
    refine ⟨h1.trans s1, h2.trans s2, h3.trans s3, h4.trans s4, h5.trans s5, h6.trans s6,
      ?_, ?_⟩
    · intro x
      rw [h7, release_entDepends]
      by_cases hx : x = z
      · subst hx; simp [List.count_cons_self]; omega
      · have hx' : ¬ z = x := fun h => hx h.symm
        simp [hx, List.count_cons, hx']
    · refine ⟨(if st.dep.entDepends z = 1 then [z] else []) ++ pushed, ?_, ?_, ?_⟩
      · rw [hp1, release_open, List.append_assoc]
      · by_cases hz : st.dep.entDepends z = 1
        · simp only [hz, if_true, List.singleton_append, List.nodup_cons]
          refine ⟨?_, hp2⟩
          intro hmem
          have := (hp3 z hmem).2.1
          rw [release_entDepends] at this
          simp [hz] at this
        · simpa [hz] using hp2
      · intro w hw
        rcases List.mem_append.mp hw with hw | hw
        · by_cases hz : st.dep.entDepends z = 1
          · simp [hz] at hw
            subst hw
            simp [hz, List.count_cons_self]
          · simp [hz] at hw
        · obtain ⟨a1, a2, a3⟩ := hp3 w hw
          rw [release_entDepends] at a2 a3
          by_cases hwz : w = z
          · subst hwz
            simp at a2 a3
            refine ⟨List.mem_cons_self _ _, by omega, ?_⟩
            simp [List.count_cons_self]; omega
          · have hwz' : ¬ z = w := fun h => hwz h.symm
            simp [hwz] at a2 a3
            refine ⟨List.mem_cons_of_mem _ a1, a2, ?_⟩
            simp [List.count_cons, hwz']; omega

theorem filter_unbound_update (l : List String) (B : String → Bool) (y : String)
    (hy : B y = false) :
    (l.filter (fun v => !B v)).length
      = (l.filter (fun v => !(Function.update B y true) v)).length + l.count y := by
  induction l with
  | nil => simp
  | cons a l ih =>
    by_cases ha : a = y
    · subst ha
      simp [List.filter_cons, hy, List.count_cons_self, ih]
      omega
    · have ha' : ¬ (a == y) = true := by simpa using ha
      simp only [List.filter_cons, Function.update_noteq ha, List.count_cons, ha', if_false]
      cases hB : B a <;> simp [ih]
      omega

theorem filter_unbound_nil_iff (l : List String) (B : String → Bool) :
    (l.filter (fun v => !B v)).length = 0 ↔ ∀ v ∈ l, B v = true := by
  simp [List.filter_eq_nil_iff]

theorem ResolveInv.bindVar {body : List BodyAggr} {pend : List String} {st : ResolveState}
    (h : ResolveInv body pend st) (y : String) (hy : y ∈ pend) :
    ResolveInv body pend (st.bindVar y)
    ∧ (st.bindVar y).sorted = st.sorted
    ∧ st.open_ <+: (st.bindVar y).open_ := by
  unfold ResolveState.bindVar
  by_cases hb : st.dep.varBound y = true
  · rw [if_pos hb]
    exact ⟨h, rfl, List.prefix_refl _⟩
  · rw [if_neg hb]
    have hb' : st.dep.varBound y = false := by simpa using hb
    obtain ⟨f1, f2, f3, f4, f5, f6, f7, pushed, hp1, hp2, hp3⟩ :=
      foldl_release (st.dep.varProvides y)
        { st with
          dep := { st.dep with varBound := Function.update st.dep.varBound y true }
          bound := st.bound ++ [y] }
    simp only at f1 f2 f3 f4 f5 f6 f7 hp1 hp3
    obtain ⟨⟨g1, g2, g3, g4⟩, hdep, hlt, hnd, hrd, hbp, hsafe⟩ := h
    have hcount : ∀ x, st.dep.entDepends x
        = ((consumedNames (bodyAt body x).vars).filter
            (fun v => !(Function.update st.dep.varBound y true) v)).length
          + (st.dep.varProvides y).count x := by
      intro x
      rw [hdep x, g3 x y]
      exact filter_unbound_update _ _ y hb'
    have hmono : ∀ v, st.dep.varBound v = true →
        (Function.update st.dep.varBound y true) v = true := by
      intro v hv
      by_cases hvy : v = y
      · subst hvy; simp
      · simpa [Function.update_noteq hvy] using hv
    refine ⟨⟨⟨f1.trans g1, ?_, ?_, ?_⟩, ?_, ?_, ?_, ?_, ?_, ?_⟩, f6, ?_⟩
    · intro x; rw [f2]; exact g2 x
    · intro x v; rw [f3]; exact g3 x v
    · intro v z hz; rw [f3] at hz; exact g4 v z hz
    · intro x
      rw [f7, f4, hcount x]
      omega
    · intro x hx
      rw [hp1] at hx
      rcases List.mem_append.mp hx with hx | hx
      · exact hlt x hx
      · exact g4 y x (hp3 x hx).1
    · rw [hp1]
      refine List.Nodup.append hnd hp2 ?_
      intro z hz1 hz2
      have h1 := (hp3 z hz2).2.1
      have h0 : st.dep.entDepends z = 0 := by
        rw [hdep z]
        exact (filter_unbound_nil_iff _ _).mpr (hrd z hz1)
      omega
    · intro x hx v hv
      rw [f4]
      rw [hp1] at hx
      rcases List.mem_append.mp hx with hx | hx
      · exact hmono v (hrd x hx v hv)
      · have h2 := (hp3 x hx).2.2
        have h3 := hcount x
        have h4 : ((consumedNames (bodyAt body x).vars).filter
            (fun v => !(Function.update st.dep.varBound y true) v)).length = 0 := by omega
        exact (filter_unbound_nil_iff _ _).mp h4 v hv
    · intro v hv
      rw [f4] at hv
      rw [f6]
      by_cases hvy : v = y
      · subst hvy; exact Or.inl hy
      · rw [Function.update_noteq hvy] at hv
        exact hbp v hv
    · rw [f6]; exact hsafe
    · rw [hp1]; exact List.prefix_append _ _

theorem ResolveInv.foldl_bindVar {body : List BodyAggr} {pend : List String}
    (l : List String) (hl : ∀ y ∈ l, y ∈ pend) (st : ResolveState)
    (h : ResolveInv body pend st) :
    ResolveInv body pend (l.foldl ResolveState.bindVar st)
    ∧ (l.foldl ResolveState.bindVar st).sorted = st.sorted
    ∧ st.open_ <+: (l.foldl ResolveState.bindVar st).open_ := by
  induction l generalizing st with
  | nil => exact ⟨h, rfl, List.prefix_refl _⟩
  | cons y l ih =>
    rw [List.foldl_cons]
    obtain ⟨b1, b2, b3⟩ := h.bindVar y (hl y (List.mem_cons_self _ _))
    obtain ⟨c1, c2, c3⟩ := ih (fun v hv => hl v (List.mem_cons_of_mem _ hv)) (st.bindVar y) b1
    exact ⟨c1, c2.trans b2, b3.trans c3⟩

theorem ResolveInv.propagate {body : List BodyAggr} {st : ResolveState}
    (h : ResolveInv body [] st) (x : Nat) :
    ResolveInv body (providedNames (bodyAt body x).vars) (st.propagate x)
    ∧ (st.propagate x).sorted = st.sorted
    ∧ st.open_ <+: (st.propagate x).open_ := by
  unfold ResolveState.propagate
  have hw : ResolveInv body (providedNames (bodyAt body x).vars) st := by
    refine ⟨h.graph, h.depends, h.openLt, h.openNodup, h.openReady, ?_, h.safe⟩
    intro v hv
    rcases h.boundProv v hv with h1 | h1
    · simp at h1
    · exact Or.inr h1
  exact ResolveInv.foldl_bindVar (st.dep.entProvides x)
    (by intro y hy; rw [h.graph.entProvides x] at hy; exact hy) st hw

/-! ## The loops of the resolver keep the invariant and end -/

theorem ProvidedBefore.of_nil : ProvidedBefore [] := by
  intro pre y post h
  simp at h

theorem ProvidedBefore.snoc {order : List BodyAggr} (h : ProvidedBefore order) (d : BodyAggr)
    (hd : ∀ v ∈ consumedNames d.vars, ∃ p ∈ order, v ∈ providedNames p.vars) :
    ProvidedBefore (order ++ [d]) := by
  intro pre y post heq v hv
  rcases List.eq_nil_or_concat post with hpost | ⟨post2, d2, hpost⟩
  · subst hpost
    obtain ⟨h1, h2⟩ := List.append_inj' heq rfl
    have h3 : d = y := by simpa using h2
    subst h1
    subst h3
    exact hd v hv
  · subst hpost
    have heq2 : order ++ [d] = (pre ++ y :: post2) ++ [d2] := by
      rw [heq]; simp
    obtain ⟨h1, _⟩ := List.append_inj' heq2 rfl
    exact h pre y post2 h1 v hv

theorem ResolveInv.open_length_le {body : List BodyAggr} {pend : List String}
    {st : ResolveState} (h : ResolveInv body pend st) : st.open_.length ≤ body.length := by
  have hsub : st.open_.toFinset ⊆ Finset.range body.length := by
    intro x hx
    simp only [List.mem_toFinset] at hx
    simpa using h.openLt x hx
  have := Finset.card_le_card hsub
  rwa [List.toFinset_card_of_nodup h.openNodup, Finset.card_range] at this

theorem ResolveInv.data_eq {body : List BodyAggr} {pend : List String}
    {st : ResolveState} (h : ResolveInv body pend st) (x : Nat) :
    st.data x = bodyAt body x := by
  unfold ResolveState.data bodyAt
  rw [h.graph.ents]

/-- Propagating a literal of `open` and appending it to `sorted`. -/
theorem ResolveInv.output {body : List BodyAggr} {st : ResolveState}
    (h : ResolveInv body [] st) (x : Nat) (hx : x ∈ st.open_) (d : BodyAggr)
    (hd : d.vars = (bodyAt body x).vars) :
    ResolveInv body [] ((st.propagate x).emit d)
    ∧ ((st.propagate x).emit d).sorted = st.sorted ++ [d]
    ∧ st.open_ <+: ((st.propagate x).emit d).open_ := by
  obtain ⟨p1, p2, p3⟩ := h.propagate x
  have hcons : ∀ v ∈ consumedNames d.vars, ∃ p ∈ st.sorted, v ∈ providedNames p.vars := by
    intro v hv
    rw [hd] at hv
    rcases h.boundProv v (h.openReady x hx v hv) with h1 | h1
    · simp at h1
    · exact h1
  refine ⟨⟨p1.graph, p1.depends, p1.openLt, p1.openNodup, p1.openReady, ?_, ?_⟩, ?_, p3⟩
  · intro v hv
    right
    rcases p1.boundProv v hv with h1 | ⟨p, hp1, hp2⟩
    · exact ⟨d, by simp [ResolveState.emit], by rw [hd]; exact h1⟩
    · exact ⟨p, by simp [ResolveState.emit, hp1], hp2⟩
  · show ProvidedBefore ((st.propagate x).sorted ++ [d])
    rw [p2]
    exact h.safe.snoc d hcons
  · show (st.propagate x).sorted ++ [d] = _
    rw [p2]

theorem forOpen_spec (body : List BodyAggr) :
    ∀ (fuel : Nat) (st : ResolveState) (it : Nat) (assign : List Nat),
      ResolveInv body [] st → it ≤ st.open_.length → body.length + 1 ≤ fuel + it →
      (∀ a ∈ assign, a ∈ st.open_) → assign.length ≤ it →
      ∃ r, forOpen fuel st it assign = some r
        ∧ ResolveInv body [] r.1 ∧ st.open_ <+: r.1.open_
        ∧ it ≤ r.2.1 ∧ (it < st.open_.length → it + 1 ≤ r.2.1) ∧ r.2.1 ≤ r.1.open_.length
        ∧ (∀ a ∈ r.2.2, a ∈ r.1.open_) ∧ r.2.2.length ≤ r.2.1 := by
  intro fuel
  induction fuel with
  | zero =>
    intro st it assign h hit hf _ _
    have := h.open_length_le
    omega
  | succ fuel ih =>
    intro st it assign h hit hf ha hal
    unfold forOpen
    cases hget : st.open_[it]? with
    | none =>
      have hlen : st.open_.length ≤ it := List.getElem?_eq_none_iff.mp hget
      exact ⟨(st, it, assign), rfl, h, List.prefix_refl _, Nat.le_refl _, by omega, hit, ha, hal⟩
    | some x =>
      have hlt : it < st.open_.length := (List.getElem?_eq_some_iff.mp hget).1
      have hx : x ∈ st.open_ := List.mem_iff_getElem?.mpr ⟨it, hget⟩
      simp only
      by_cases hass : (st.data x).isAssignment = true
      · simp only [hass, Bool.not_true, Bool.false_eq_true, if_false]
        obtain ⟨r, hr, r1, r2, r3, r4, r5, r6, r7⟩ :=
          ih st (it + 1) (assign ++ [x]) h (by omega) (by omega)
            (by intro a ha'; rcases List.mem_append.mp ha' with h1 | h1
                · exact ha a h1
                · simp at h1; subst h1; exact hx)
            (by simp; omega)
        exact ⟨r, hr, r1, r2, by omega, by omega, r5, r6, r7⟩
      · simp only [hass, Bool.not_false, if_true]
        obtain ⟨o1, o2, o3⟩ := h.output x hx (st.data x) (by rw [h.data_eq])
        have hlen := o3.length_le
        obtain ⟨r, hr, r1, r2, r3, r4, r5, r6, r7⟩ :=
          ih ((st.propagate x).emit (st.data x)) (it + 1) assign o1 (by omega) (by omega)
            (fun a ha' => o3.subset (ha a ha')) (by omega)
        exact ⟨r, hr, r1, o3.trans r2, by omega, by omega, r5, r6, r7⟩

theorem removeAssignment_vars (y : BodyAggr) : y.removeAssignment.vars = y.vars := rfl

theorem foldl_assignStep_spec (body : List BodyAggr) :
    ∀ (assign : List Nat) (st : ResolveState) (next : List Nat),
      ResolveInv body [] st → (∀ a ∈ assign, a ∈ st.open_) → (∀ a ∈ next, a ∈ st.open_) →
      ResolveInv body [] (assign.foldl assignStep (st, next)).1
      ∧ st.open_ <+: (assign.foldl assignStep (st, next)).1.open_
      ∧ (∀ a ∈ (assign.foldl assignStep (st, next)).2,
          a ∈ (assign.foldl assignStep (st, next)).1.open_)
      ∧ (assign.foldl assignStep (st, next)).2.length ≤ next.length + assign.length := by
  intro assign
  induction assign with
  | nil =>
    intro st next h _ hn
    exact ⟨h, List.prefix_refl _, hn, by simp⟩
  | cons x assign ih =>
    intro st next h ha hn
    rw [List.foldl_cons]
    have hx : x ∈ st.open_ := ha x (List.mem_cons_self _ _)
    by_cases hall : st.allBound x = true
    · have e : assignStep (st, next) x
          = ((st.propagate x).emit (st.data x).removeAssignment, next) := by
        simp [assignStep, hall]
      rw [e]
      obtain ⟨o1, o2, o3⟩ := h.output x hx (st.data x).removeAssignment
        (by rw [removeAssignment_vars, h.data_eq])
      obtain ⟨r1, r2, r3, r4⟩ := ih _ next o1
        (fun a ha' => o3.subset (ha a (List.mem_cons_of_mem _ ha')))
        (fun a ha' => o3.subset (hn a ha'))
      exact ⟨r1, o3.trans r2, r3, by simp; omega⟩
    · have e : assignStep (st, next) x = (st, next ++ [x]) := by
        simp [assignStep, hall]
      rw [e]
      obtain ⟨r1, r2, r3, r4⟩ := ih st (next ++ [x]) h
        (fun a ha' => ha a (List.mem_cons_of_mem _ ha'))
        (by intro a ha'; rcases List.mem_append.mp ha' with h1 | h1
            · exact hn a h1
            · simp at h1; subst h1; exact hx)
      exact ⟨r1, r2, r3, by simp at r4 ⊢; omega⟩

theorem whileAssign_spec (body : List BodyAggr) :
    ∀ (fuel : Nat) (st : ResolveState) (assign : List Nat),
      ResolveInv body [] st → (∀ a ∈ assign, a ∈ st.open_) → assign.length + 1 ≤ fuel →
      ∃ st2, whileAssign fuel st assign [] = some st2
        ∧ ResolveInv body [] st2 ∧ st.open_ <+: st2.open_ := by
  intro fuel
  induction fuel with
  | zero => intro st assign _ _ hf; omega
  | succ fuel ih =>
    intro st assign h ha hf
    unfold whileAssign
    by_cases hempty : assign.isEmpty = true
    · simp only [hempty, if_true]
      exact ⟨st, rfl, h, List.prefix_refl _⟩
    · simp only [hempty, Bool.false_eq_true, if_false]
      have hne : assign ≠ [] := by simpa using hempty
      have hpos : 0 < assign.length := List.length_pos.mpr hne
      obtain ⟨r1, r2, r3, r4⟩ := foldl_assignStep_spec body assign st [] h ha (by simp)
      cases hlast : (assign.foldl assignStep (st, [])).2.getLast? with
      | none =>
        simp only
        have hnil : (assign.foldl assignStep (st, [])).2 = [] := by
          simpa [List.getLast?_eq_none_iff] using hlast
        obtain ⟨st2, s1, s2, s3⟩ := ih _ (assign.foldl assignStep (st, [])).2 r1 r3
          (by rw [hnil]; simp; omega)
        exact ⟨st2, s1, s2, r2.trans s3⟩
      | some x =>
        simp only
        have hxmem : x ∈ (assign.foldl assignStep (st, [])).2 := List.mem_of_getLast?_eq_some hlast
        have hx := r3 x hxmem
        obtain ⟨o1, o2, o3⟩ := r1.output x hx ((assign.foldl assignStep (st, [])).1.data x)
          (by rw [r1.data_eq])
        have hlen : 0 < (assign.foldl assignStep (st, [])).2.length :=
          List.length_pos_of_mem hxmem
        obtain ⟨st2, s1, s2, s3⟩ := ih _ (assign.foldl assignStep (st, [])).2.dropLast o1
          (fun a ha' => o3.subset (r3 a (List.mem_of_mem_dropLast ha')))
          (by simp at r4 ⊢; omega)
        exact ⟨st2, s1, s2, (r2.trans o3).trans s3⟩

theorem forOuter_spec (body : List BodyAggr) (big : Nat) (hbig : body.length + 1 ≤ big) :
    ∀ (fuel : Nat) (st : ResolveState) (it : Nat),
      ResolveInv body [] st → it ≤ st.open_.length → body.length + 1 ≤ fuel + it →
      ∃ st2, forOuter fuel big st it = some st2
        ∧ ResolveInv body [] st2 ∧ st.open_ <+: st2.open_ := by
  intro fuel
  induction fuel with
  | zero =>
    intro st it h hit hf
    have := h.open_length_le
    omega
  | succ fuel ih =>
    intro st it h hit hf
    unfold forOuter
    cases hget : st.open_[it]? with
    | none => exact ⟨st, rfl, h, List.prefix_refl _⟩
    | some x =>
      simp only
      have hlt : it < st.open_.length := (List.getElem?_eq_some_iff.mp hget).1
      obtain ⟨r, hr, r1, r2, r3, r4, r5, r6, r7⟩ :=
        forOpen_spec body big st it [] h hit (by omega) (by simp) (by simp)
      rw [hr]
      simp only
      have hle := r1.open_length_le
      obtain ⟨st2, s1, s2, s3⟩ := whileAssign_spec body big r.1 r.2.2 r1 r6 (by omega)
      rw [s1]
      simp only
      have hlen := s3.length_le
      obtain ⟨st3, t1, t2, t3⟩ := ih st2 r.2.1 s2 (by omega) (by have := r4 hlt; omega)
      exact ⟨st3, t1, t2, (r2.trans s3).trans t3⟩

theorem resolveInit_inv (body : List BodyAggr) : ResolveInv body [] (resolveInit body) := by
  obtain ⟨g, hd, hu⟩ := buildGraph_inv body
  have hnil : ∀ x, (buildGraph body).entDepends x = 0 →
      consumedNames (bodyAt body x).vars = [] := by
    intro x hx
    rw [hd x] at hx
    exact List.length_eq_zero.mp hx
  refine ⟨g, ?_, ?_, ?_, ?_, ?_, ProvidedBefore.of_nil⟩
  · intro x
    show (buildGraph body).entDepends x
      = ((consumedNames (bodyAt body x).vars).filter
          (fun y => !(buildGraph body).varBound y)).length
    rw [hd x, hu]
    simp
  · intro x hx
    simp only [resolveInit, SafetyChecker.init, List.nil_append, List.mem_filter,
      List.mem_range, g.ents] at hx
    exact hx.1
  · simp only [resolveInit, SafetyChecker.init, List.nil_append]
    exact (List.nodup_range _).filter _
  · intro x hx v hv
    simp only [resolveInit, SafetyChecker.init, List.nil_append, List.mem_filter,
      List.mem_range, decide_eq_true_eq] at hx
    rw [hnil x hx.2] at hv
    simp at hv
  · intro v hv
    have : (buildGraph body).varBound v = true := hv
    rw [hu] at this
    simp at this

/-- The resolver ends on every body, and in the order it returns every
consumed level-0 variable is provided earlier. -/
theorem resolve_spec (body : List BodyAggr) :
    ∃ sorted, resolve body = some sorted ∧ ProvidedBefore sorted := by
  have hfuel : body.length + 1 ≤ resolveFuel body := by
    unfold resolveFuel; omega
  obtain ⟨st, h1, h2, _⟩ := forOuter_spec body (resolveFuel body) hfuel (resolveFuel body)
    (resolveInit body) 0 (resolveInit_inv body) (Nat.zero_le _) (by omega)
  refine ⟨st.sorted, ?_, h2.safe⟩
  unfold resolve
  rw [h1]

/-! ## The arguments of a split -/

theorem foldl_collect (done : List BodyAggr) (vec : VarTermBoundVec) :
    done.foldl (fun vec x => x.collect vec) vec = vec ++ done.flatMap (fun x => x.vars) := by
  induction done generalizing vec with
  | nil => simp
  | cons y ys ih =>
    rw [List.foldl_cons, ih, List.flatMap_cons]
    simp [BodyAggr.collect, List.append_assoc]

theorem uniqueAfter_subset (last : VarTerm × Bool) (l : VarTermBoundVec) :
    ∀ a ∈ uniqueAfter last l, a ∈ l := by
  induction l generalizing last with
  | nil => intro a ha; simp [uniqueAfter] at ha
  | cons b rest ih =>
    intro a ha
    unfold uniqueAfter at ha
    by_cases h : last.1.name = b.1.name
    · rw [if_pos h] at ha
      exact List.mem_cons_of_mem _ (ih last a ha)
    · rw [if_neg h] at ha
      rcases List.mem_cons.mp ha with rfl | ha
      · exact List.mem_cons_self _ _
      · exact List.mem_cons_of_mem _ (ih b a ha)

theorem uniqueAfter_names (last : VarTerm × Bool) (l : VarTermBoundVec) :
    ∀ a ∈ l, a.1.name = last.1.name ∨ ∃ c ∈ uniqueAfter last l, c.1.name = a.1.name := by
  induction l generalizing last with
  | nil => intro a ha; simp at ha
  | cons b rest ih =>
    intro a ha
    unfold uniqueAfter
    by_cases h : last.1.name = b.1.name
    · rw [if_pos h]
      rcases List.mem_cons.mp ha with rfl | ha
      · exact Or.inl h.symm
      · exact ih last a ha
    · rw [if_neg h]
      right
      rcases List.mem_cons.mp ha with rfl | ha
      · exact ⟨a, List.mem_cons_self _ _, rfl⟩
      · rcases ih b a ha with h1 | ⟨c, hc1, hc2⟩
        · exact ⟨b, List.mem_cons_self _ _, h1.symm⟩
        · exact ⟨c, List.mem_cons_of_mem _ hc1, hc2⟩

theorem uniqueByName_subset (l : VarTermBoundVec) : ∀ a ∈ uniqueByName l, a ∈ l := by
  cases l with
  | nil => intro a ha; simp [uniqueByName] at ha
  | cons b rest =>
    intro a ha
    unfold uniqueByName at ha
    rcases List.mem_cons.mp ha with rfl | ha
    · exact List.mem_cons_self _ _
    · exact List.mem_cons_of_mem _ (uniqueAfter_subset b rest a ha)

theorem uniqueByName_names (l : VarTermBoundVec) :
    ∀ a ∈ l, ∃ c ∈ uniqueByName l, c.1.name = a.1.name := by
  cases l with
  | nil => intro a ha; simp at ha
  | cons b rest =>
    intro a ha
    unfold uniqueByName
    rcases List.mem_cons.mp ha with rfl | ha
    · exact ⟨a, List.mem_cons_self _ _, rfl⟩
    · rcases uniqueAfter_names b rest a ha with h1 | ⟨c, hc1, hc2⟩
      · exact ⟨b, List.mem_cons_self _ _, h1.symm⟩
      · exact ⟨c, List.mem_cons_of_mem _ hc1, hc2⟩

/-- The arguments of a split are the level-0 variables occurring in `done`. -/
theorem mem_splitArgs (done : List BodyAggr) (v : VarTerm) :
    v ∈ splitArgs done ↔ v.level = 0 ∧ ∃ y ∈ done, ∃ b, (v, b) ∈ y.vars := by
  unfold splitArgs
  simp only [foldl_collect, List.nil_append, List.mem_map]
  constructor
  · rintro ⟨a, ha, rfl⟩
    have h1 := uniqueByName_subset _ a ha
    rw [(List.perm_insertionSort nameLe _).mem_iff, List.mem_filter, List.mem_flatMap] at h1
    obtain ⟨⟨y, hy1, hy2⟩, hl⟩ := h1
    refine ⟨by simpa using hl, y, hy1, a.2, hy2⟩
  · rintro ⟨hl, y, hy, b, hb⟩
    have hmem : (v, b) ∈ List.insertionSort nameLe
        (List.filter (fun a => !(a.1.level != 0)) (done.flatMap (fun x => x.vars))) := by
      rw [(List.perm_insertionSort nameLe _).mem_iff, List.mem_filter, List.mem_flatMap]
      exact ⟨⟨y, hy, hb⟩, by simp [hl]⟩
    obtain ⟨c, hc1, hc2⟩ := uniqueByName_names _ (v, b) hmem
    refine ⟨c, hc1, ?_⟩
    have h1 := uniqueByName_subset _ c hc1
    rw [(List.perm_insertionSort nameLe _).mem_iff, List.mem_filter] at h1
    have hcl : c.1.level = 0 := by simpa using h1.2
    obtain ⟨⟨cn, cl⟩, cb⟩ := c
    obtain ⟨vn, vl⟩ := v
    simp only at hc2 hcl hl
    subst hc2 hcl hl
    rfl

theorem mem_splitArgs_names (done : List BodyAggr) (v : VarTerm) :
    v ∈ splitArgs done ↔ v.level = 0 ∧ v.name ∈ levelZeroNames done := by
  rw [mem_splitArgs]
  unfold levelZeroNames
  simp only [List.mem_flatMap, List.mem_map, List.mem_filter, decide_eq_true_eq]
  constructor
  · rintro ⟨hl, y, hy, b, hb⟩
    exact ⟨hl, y, hy, (v, b), ⟨hb, hl⟩, rfl⟩
  · rintro ⟨hl, y, hy, ⟨⟨n, l⟩, b⟩, ⟨hb, hl2⟩, hn⟩
    refine ⟨hl, y, hy, b, ?_⟩
    obtain ⟨vn, vl⟩ := v
    simp only at hl hl2 hn
    subst hl hl2 hn
    exact hb

theorem uniqueAfter_increasing (last : VarTerm × Bool) (l : VarTermBoundVec)
    (hs : List.Sorted nameLe (last :: l)) :
    List.Pairwise (fun a b => a.1.name.data < b.1.name.data) (last :: uniqueAfter last l) := by
  induction l generalizing last with
  | nil => simp [uniqueAfter]
  | cons b rest ih =>
    unfold uniqueAfter
    have hs' : List.Pairwise nameLe (last :: b :: rest) := hs
    rw [List.pairwise_cons] at hs'
    obtain ⟨h1, h2⟩ := hs'
    by_cases h : last.1.name = b.1.name
    · rw [if_pos h]
      apply ih last
      show List.Pairwise nameLe (last :: rest)
      rw [List.pairwise_cons]
      exact ⟨fun c hc => h1 c (List.mem_cons_of_mem _ hc), (List.pairwise_cons.mp h2).2⟩
    · rw [if_neg h]
      have hb := ih b h2
      rw [List.pairwise_cons]
      refine ⟨?_, hb⟩
      have hlb : last.1.name.data < b.1.name.data := by
        have hle : last.1.name.data ≤ b.1.name.data := h1 b (List.mem_cons_self _ _)
        rcases lt_or_eq_of_le hle with h3 | h3
        · exact h3
        · exact absurd (String.ext h3) h
      intro c hc
      rcases List.mem_cons.mp hc with rfl | hc
      · exact hlb
      · have hc2 := uniqueAfter_subset b rest c hc
        have hbc : b.1.name.data ≤ c.1.name.data := (List.pairwise_cons.mp h2).1 c hc2
        exact lt_of_lt_of_le hlb hbc

/-- The arguments of a split are listed in strictly ascending order of name. -/
theorem splitArgs_increasing (done : List BodyAggr) :
    List.Pairwise (fun a b : VarTerm => a.name.data < b.name.data) (splitArgs done) := by
  unfold splitArgs
  simp only
  rw [List.pairwise_map]
  generalize hl : List.insertionSort nameLe _ = l
  have hs : List.Sorted nameLe l := by
    rw [← hl]; exact List.sorted_insertionSort nameLe _
  cases l with
  | nil => simp [uniqueByName]
  | cons a rest => exact uniqueAfter_increasing a rest hs

/-! ## The loop that records the splits -/

/-- Shape of the result of the split loop: the part of `sorted` still to be
visited is cut into the segments that trigger a split and a last part that
triggers none. -/
theorem splitLoop_shape :
    ∀ (rest done : List BodyAggr) (splits : SplitVec),
      ∃ (segs : List (List BodyAggr)) (tail : List BodyAggr),
        rest = segs.flatten ++ tail
        ∧ (∀ seg ∈ segs, IsSegment seg)
        ∧ (∀ y ∈ tail.dropLast, y.isAssignment = false)
        ∧ (segs ≠ [] → tail ≠ [])
        ∧ splitLoop rest done splits
            = (splitDone splits.length done segs ++ tail,
               splits ++ splitEntries splits.length done segs) := by
  intro rest
  induction rest with
  | nil =>
    intro done splits
    exact ⟨[], [], by simp, by simp, by simp, by simp, by simp [splitLoop, splitDone, splitEntries]⟩
  | cons x rest ih =>
    intro done splits
    by_cases hc : (x.isAssignment && !rest.isEmpty) = true
    · obtain ⟨segs, tail, h1, h2, h3, h4, h5⟩ :=
        ih [splitBodyLiteral ("#split" ++ to_string splits.length) (splitArgs (done ++ [x]))]
          (splits ++ [(splitLiteral ("#split" ++ to_string splits.length)
            (splitArgs (done ++ [x])), done ++ [x])])
      have hx : x.isAssignment = true := by
        simp only [Bool.and_eq_true] at hc; exact hc.1
      have hrest : rest ≠ [] := by
        simp only [Bool.and_eq_true, Bool.not_eq_true', List.isEmpty_eq_false] at hc
        exact hc.2
      refine ⟨[x] :: segs, tail, by simp [h1], ?_, h3, ?_, ?_⟩
      · intro seg hseg
        rcases List.mem_cons.mp hseg with rfl | hseg
        · exact ⟨[], x, by simp, hx, by simp⟩
        · exact h2 seg hseg
      · intro _
        by_cases hs : segs = []
        · subst hs
          have htail : rest = tail := by simpa using h1
          rw [← htail]
          exact hrest
        · exact h4 hs
      · unfold splitLoop
        simp only [hc, if_true]
        rw [h5]
        simp [splitDone, splitEntries, splitName, List.append_assoc]
    · have hstep : splitLoop (x :: rest) done splits = splitLoop rest (done ++ [x]) splits := by
        conv_lhs => unfold splitLoop
        simp only [hc, Bool.false_eq_true, if_false]
      obtain ⟨segs, tail, h1, h2, h3, h4, h5⟩ := ih (done ++ [x]) splits
      cases segs with
      | nil =>
        refine ⟨[], x :: tail, by simp [h1], by simp, ?_, by simp, ?_⟩
        · intro y hy
          have htail : rest = tail := by simpa using h1
          cases tail with
          | nil => simp at hy
          | cons t ts =>
            rw [List.dropLast_cons₂] at hy
            rcases List.mem_cons.mp hy with rfl | hy
            · have hne : rest ≠ [] := by rw [htail]; simp
              cases hxa : y.isAssignment with
              | false => rfl
              | true =>
                exfalso
                apply hc
                simp [hxa, hne]
            · exact h3 y hy
        · rw [hstep, h5]
          simp [splitDone, splitEntries]
      | cons seg segs =>
        have hne : rest ≠ [] := by
          obtain ⟨front, a, hseg, _, _⟩ := h2 seg (List.mem_cons_self _ _)
          rw [h1, hseg]
          simp
        have hx : x.isAssignment = false := by
          cases hxa : x.isAssignment with
          | false => rfl
          | true =>
            exfalso
            apply hc
            simp [hxa, hne]
        refine ⟨(x :: seg) :: segs, tail, by simp [h1], ?_, h3, ?_, ?_⟩
        · intro s hs
          rcases List.mem_cons.mp hs with rfl | hs
          · obtain ⟨front, a, hseg, ha, hfront⟩ := h2 seg (List.mem_cons_self _ _)
            refine ⟨x :: front, a, by simp [hseg], ha, ?_⟩
            intro y hy
            rcases List.mem_cons.mp hy with rfl | hy
            · exact hx
            · exact hfront y hy
          · exact h2 s (List.mem_cons_of_mem _ hs)
        · intro _
          exact h4 (by simp)
        · rw [hstep, h5]
          simp [splitDone, splitEntries, List.append_assoc]

/-- The split loop leaves the old entries of the `SplitVec` in place. -/
theorem splitLoop_prefix (rest done : List BodyAggr) (splits : SplitVec) :
    splits <+: (splitLoop rest done splits).2 := by
  obtain ⟨segs, tail, _, _, _, _, h5⟩ := splitLoop_shape rest done splits
  rw [h5]
  exact List.prefix_append _ _

/-- One entry per assignment that is not last, each captured body ending
with the assignment that triggered it. -/
theorem splitLoop_triggers :
    ∀ (rest done : List BodyAggr) (splits : SplitVec),
      ∃ new, (splitLoop rest done splits).2 = splits ++ new
        ∧ new.map (fun e => e.2.getLast?)
            = (rest.dropLast.filter (fun y => y.isAssignment)).map some := by
  intro rest
  induction rest with
  | nil => intro done splits; exact ⟨[], by simp [splitLoop], by simp⟩
  | cons x rest ih =>
    intro done splits
    by_cases hc : (x.isAssignment && !rest.isEmpty) = true
    · obtain ⟨new, h1, h2⟩ :=
        ih [splitBodyLiteral ("#split" ++ to_string splits.length) (splitArgs (done ++ [x]))]
          (splits ++ [(splitLiteral ("#split" ++ to_string splits.length)
            (splitArgs (done ++ [x])), done ++ [x])])
      have hx : x.isAssignment = true := by
        simp only [Bool.and_eq_true] at hc; exact hc.1
      have hrest : rest ≠ [] := by
        simp only [Bool.and_eq_true, Bool.not_eq_true', List.isEmpty_eq_false] at hc
        exact hc.2
      refine ⟨(splitLiteral ("#split" ++ to_string splits.length)
            (splitArgs (done ++ [x])), done ++ [x]) :: new, ?_, ?_⟩
      · unfold splitLoop
        simp only [hc, if_true]
        rw [h1]
        simp
      · obtain ⟨t, ts, rfl⟩ := List.exists_cons_of_ne_nil hrest
        rw [List.dropLast_cons₂, List.filter_cons, if_pos hx]
        simp [h2]
    · have hstep : splitLoop (x :: rest) done splits = splitLoop rest (done ++ [x]) splits := by
        conv_lhs => unfold splitLoop
        simp only [hc, Bool.false_eq_true, if_false]
      obtain ⟨new, h1, h2⟩ := ih (done ++ [x]) splits
      refine ⟨new, by rw [hstep, h1], ?_⟩
      rw [h2]
      cases rest with
      | nil => simp
      | cons t ts =>
        have hx : x.isAssignment = false := by
          cases hxa : x.isAssignment with
          | false => rfl
          | true =>
            exfalso
            apply hc
            simp [hxa]
        rw [List.dropLast_cons₂, List.filter_cons]
        simp [hx]

/-! ## Names of the splits -/

theorem digitChar_toNat (k : Nat) (hk : k < 10) : (Nat.digitChar k).toNat - 48 = k := by
  interval_cases k <;> rfl

theorem toDigitsCore_decode :
    ∀ (fuel n : Nat) (ds : List Char), n < fuel →
      ∃ X, Nat.toDigitsCore 10 fuel n ds = X ++ ds ∧ decodeDigits X = n := by
  intro fuel
  induction fuel with
  | zero => intro n ds h; omega
  | succ fuel ih =>
    intro n ds h
    unfold Nat.toDigitsCore
    simp only
    by_cases h0 : n / 10 = 0
    · rw [if_pos h0]
      refine ⟨[Nat.digitChar (n % 10)], by simp, ?_⟩
      have : n < 10 := by omega
      simp [decodeDigits, digitChar_toNat (n % 10) (Nat.mod_lt _ (by decide))]
      omega
    · rw [if_neg h0]
      obtain ⟨X, hX1, hX2⟩ := ih (n / 10) (Nat.digitChar (n % 10) :: ds) (by omega)
      refine ⟨X ++ [Nat.digitChar (n % 10)], by simp [hX1], ?_⟩
      unfold decodeDigits at hX2 ⊢
      rw [List.foldl_append, hX2]
      simp [digitChar_toNat (n % 10) (Nat.mod_lt _ (by decide))]
      omega

/-- Different numbers have different decimal representations. -/
theorem to_string_injective (n m : Nat) (h : to_string n = to_string m) : n = m := by
  unfold to_string Nat.repr Nat.toDigits at h
  have h2 : Nat.toDigitsCore 10 (n + 1) n [] = Nat.toDigitsCore 10 (m + 1) m [] :=
    congrArg String.data h
  obtain ⟨X, hX1, hX2⟩ := toDigitsCore_decode (n + 1) n [] (by omega)
  obtain ⟨Y, hY1, hY2⟩ := toDigitsCore_decode (m + 1) m [] (by omega)
  rw [hX1, hY1] at h2
  simp at h2
  rw [← hX2, ← hY2, h2]

theorem splitName_injective (n m : Nat)
    (h : "#split" ++ to_string n = "#split" ++ to_string m) : n = m := by
  have h2 := congrArg String.data h
  simp only [String.data_append] at h2
  exact to_string_injective n m (String.ext (List.append_cancel_left h2))

theorem splitLiteral_predName (name : String) (args : List VarTerm) :
    (splitLiteral name args).predName = some name := rfl

theorem NamedSplits.push {splits : SplitVec} (h : NamedSplits splits)
    (args : List VarTerm) (done : List BodyAggr) :
    NamedSplits (splits ++
      [(splitLiteral ("#split" ++ to_string splits.length) args, done)]) := by
  intro i e he
  by_cases hi : i < splits.length
  · rw [List.getElem?_append_left hi] at he
    exact h i e he
  · rw [List.getElem?_append_right (by omega)] at he
    have hi2 : i - splits.length = 0 := by
      by_contra hne
      have h1 : 1 ≤ i - splits.length := by omega
      have h2 : ([(splitLiteral ("#split" ++ to_string splits.length) args, done)] :
          SplitVec)[i - splits.length]? = none :=
        List.getElem?_eq_none (by simpa using h1)
      rw [h2] at he
      exact Option.noConfusion he
    rw [hi2] at he
    simp only [List.getElem?_cons_zero, Option.some.injEq] at he
    subst he
    have : i = splits.length := by omega
    subst this
    rfl

theorem splitLoop_named :
    ∀ (rest done : List BodyAggr) (splits : SplitVec),
      NamedSplits splits → NamedSplits (splitLoop rest done splits).2 := by
  intro rest
  induction rest with
  | nil => intro done splits h; simpa [splitLoop] using h
  | cons x rest ih =>
    intro done splits h
    unfold splitLoop
    by_cases hc : (x.isAssignment && !rest.isEmpty) = true
    · simp only [hc, if_true]
      exact ih _ _ (h.push _ _)
    · simp only [hc, Bool.false_eq_true, if_false]
      exact ih _ _ h

theorem NamedSplits.distinct {splits : SplitVec} (h : NamedSplits splits)
    (i j : Nat) (e1 e2 : Literal × List BodyAggr)
    (h1 : splits[i]? = some e1) (h2 : splits[j]? = some e2) (hij : i ≠ j) :
    e1.1.predName ≠ e2.1.predName := by
  rw [h i e1 h1, h j e2 h2]
  intro heq
  exact hij (splitName_injective i j (Option.some.inj heq))

/-- The resolver returns on every body. -/
theorem rewriteAssignments_total (body : List BodyAggr) (loc : Location) (splits : SplitVec) :
    ∃ r, _rewriteAssignments body loc splits = some r := by
  unfold _rewriteAssignments
  by_cases h : numAssign body ≠ 0
  · rw [if_pos h]
    obtain ⟨sorted, hs, _⟩ := resolve_spec body
    rw [hs]
    exact ⟨_, rfl⟩
  · rw [if_neg h]
    exact ⟨_, rfl⟩

theorem rewriteAssignments_named (body : List BodyAggr) (loc : Location) (splits : SplitVec)
    (h : NamedSplits splits) :
    ∃ r, _rewriteAssignments body loc splits = some r ∧ NamedSplits r.2 ∧ splits <+: r.2 := by
  unfold _rewriteAssignments
  by_cases hn : numAssign body ≠ 0
  · rw [if_pos hn]
    obtain ⟨sorted, hs, _⟩ := resolve_spec body
    rw [hs]
    exact ⟨_, rfl, splitLoop_named sorted [] splits h, splitLoop_prefix sorted [] splits⟩
  · rw [if_neg hn]
    exact ⟨_, rfl, h, List.prefix_refl _⟩

theorem rewriteAll_named :
    ∀ (bodies : List (List BodyAggr)) (splits : SplitVec), NamedSplits splits →
      ∃ rs, rewriteAll bodies splits = some rs ∧ NamedSplits rs.2 ∧ splits <+: rs.2 := by
  intro bodies
  induction bodies with
  | nil => intro splits h; exact ⟨_, rfl, h, List.prefix_refl _⟩
  | cons body bodies ih =>
    intro splits h
    obtain ⟨r, hr, h1, h2⟩ := rewriteAssignments_named body exLoc splits h
    obtain ⟨rs, hrs, h3, h4⟩ := ih r.2 h1
    refine ⟨(r.1 :: rs.1, rs.2), ?_, h3, h2.trans h4⟩
    unfold rewriteAll
    rw [hr]
    simp only
    rw [hrs]

/-- C9: split naming is an invariant of the shared `SplitVec`: if every entry
at index `i` is headed by the predicate `#split<i>` before a call of the
resolver, the same holds after the call, the old entries staying in place;
hence after any sequence of bodies resolved with one `SplitVec` the number of
an entry is its index (strictly increasing along the vector) and the names
of the split predicates are pairwise distinct. -/
theorem split_names_invariant (body : List BodyAggr) (loc : Location)
    (bodies : List (List BodyAggr)) (splits : SplitVec) (h : NamedSplits splits) :
    (∃ r, _rewriteAssignments body loc splits = some r ∧ NamedSplits r.2 ∧ splits <+: r.2)
    ∧ (∃ rs, rewriteAll bodies splits = some rs ∧ NamedSplits rs.2 ∧ splits <+: rs.2
        ∧ ∀ (i j : Nat) (e1 e2 : Literal × List BodyAggr),
            rs.2[i]? = some e1 → rs.2[j]? = some e2 → i ≠ j →
            e1.1.predName ≠ e2.1.predName) := by
  refine ⟨rewriteAssignments_named body loc splits h, ?_⟩
  obtain ⟨rs, h1, h2, h3⟩ := rewriteAll_named bodies splits h
  exact ⟨rs, h1, h2, h3, fun i j e1 e2 g1 g2 hij => h2.distinct i j e1 e2 g1 g2 hij⟩

theorem NamedSplits.start : NamedSplits [] := by
  intro i e he
  simp at he

/-- Witness of C9: two bodies resolved one after the other, starting from
the empty `SplitVec`. -/
theorem split_names_invariant_witness :
    NamedSplits []
    ∧ (∃ r, _rewriteAssignments [lit_X_eq_3, lit_not_qX] exLoc [] = some r
        ∧ NamedSplits r.2 ∧ [] <+: r.2)
    ∧ (∃ rs, rewriteAll [[lit_X_eq_3, lit_not_qX], [lit_X_eq_3, lit_Y_eq_2, lit_not_qX]] []
          = some rs
        ∧ NamedSplits rs.2 ∧ [] <+: rs.2
        ∧ ∀ (i j : Nat) (e1 e2 : Literal × List BodyAggr),
            rs.2[i]? = some e1 → rs.2[j]? = some e2 → i ≠ j →
            e1.1.predName ≠ e2.1.predName) :=
  ⟨NamedSplits.start,
   split_names_invariant [lit_X_eq_3, lit_not_qX] exLoc
     [[lit_X_eq_3, lit_not_qX], [lit_X_eq_3, lit_Y_eq_2, lit_not_qX]] [] NamedSplits.start⟩

/-! ## The order produced by the resolver -/

theorem splitBodyLiteral_consumed (name : String) (args : List VarTerm) :
    consumedNames (splitBodyLiteral name args).vars = [] := by
  simp [consumedNames, splitBodyLiteral, List.filter_eq_nil_iff]

theorem mem_providedNames (vars : VarTermBoundVec) (v : String) :
    v ∈ providedNames vars ↔ ((⟨v, 0⟩ : VarTerm), true) ∈ vars := by
  unfold providedNames
  simp only [List.mem_map, List.mem_filter, Bool.and_eq_true, decide_eq_true_eq]
  constructor
  · rintro ⟨⟨⟨n, l⟩, b⟩, ⟨h1, h2, h3⟩, h4⟩
    simp only at h2 h3 h4
    subst h2 h3 h4
    exact h1
  · intro h
    exact ⟨(⟨v, 0⟩, true), ⟨h, rfl, rfl⟩, rfl⟩

theorem splitBodyLiteral_provided (name : String) (done : List BodyAggr) (v : String)
    (p : BodyAggr) (hp : p ∈ done) (hv : v ∈ providedNames p.vars) :
    v ∈ providedNames (splitBodyLiteral name (splitArgs done)).vars := by
  rw [mem_providedNames] at hv ⊢
  have : (⟨v, 0⟩ : VarTerm) ∈ splitArgs done :=
    (mem_splitArgs done ⟨v, 0⟩).mpr ⟨rfl, p, hp, true, hv⟩
  simp only [splitBodyLiteral, List.mem_map]
  exact ⟨⟨v, 0⟩, this, rfl⟩

theorem ProvidedBefore.singleton (d : BodyAggr) (hd : consumedNames d.vars = []) :
    ProvidedBefore [d] := by
  have := ProvidedBefore.of_nil.snoc d (by rw [hd]; simp)
  simpa using this

/-- The split loop keeps the order safe: a split literal provides all
variables provided before it. -/
theorem splitLoop_providedBefore :
    ∀ (rest pre done : List BodyAggr) (splits : SplitVec),
      ProvidedBefore (pre ++ rest) → ProvidedBefore done →
      (∀ v, (∃ p ∈ pre, v ∈ providedNames p.vars) → ∃ p ∈ done, v ∈ providedNames p.vars) →
      ProvidedBefore (splitLoop rest done splits).1
      ∧ ∃ new, (splitLoop rest done splits).2 = splits ++ new
          ∧ ∀ e ∈ new, ProvidedBefore e.2 := by
  intro rest
  induction rest with
  | nil =>
    intro pre done splits _ hd _
    exact ⟨by simpa [splitLoop] using hd, [], by simp [splitLoop], by simp⟩
  | cons x rest ih =>
    intro pre done splits hall hd hprov
    have hdone : ProvidedBefore (done ++ [x]) := by
      apply hd.snoc
      intro v hv
      exact hprov v (hall pre x rest rfl v hv)
    have hprov2 : ∀ v, (∃ p ∈ pre ++ [x], v ∈ providedNames p.vars) →
        ∃ p ∈ done ++ [x], v ∈ providedNames p.vars := by
      rintro v ⟨p, hp, hv⟩
      rcases List.mem_append.mp hp with hp | hp
      · obtain ⟨q, hq, hqv⟩ := hprov v ⟨p, hp, hv⟩
        exact ⟨q, List.mem_append_left _ hq, hqv⟩
      · exact ⟨p, List.mem_append_right _ hp, hv⟩
    have hall2 : ProvidedBefore ((pre ++ [x]) ++ rest) := by
      simpa [List.append_assoc] using hall
    by_cases hc : (x.isAssignment && !rest.isEmpty) = true
    · have hstep : splitLoop (x :: rest) done splits
          = splitLoop rest
              [splitBodyLiteral ("#split" ++ to_string splits.length) (splitArgs (done ++ [x]))]
              (splits ++ [(splitLiteral ("#split" ++ to_string splits.length)
                (splitArgs (done ++ [x])), done ++ [x])]) := by
        conv_lhs => unfold splitLoop
        simp only [hc, if_true]
      obtain ⟨r1, new, r2, r3⟩ := ih (pre ++ [x])
        [splitBodyLiteral ("#split" ++ to_string splits.length) (splitArgs (done ++ [x]))]
        (splits ++ [(splitLiteral ("#split" ++ to_string splits.length)
          (splitArgs (done ++ [x])), done ++ [x])])
        hall2 (ProvidedBefore.singleton _ (splitBodyLiteral_consumed _ _))
        (by
          intro v hv
          obtain ⟨q, hq, hqv⟩ := hprov2 v hv
          exact ⟨_, List.mem_singleton_self _, splitBodyLiteral_provided _ _ v q hq hqv⟩)
      rw [hstep]
      refine ⟨r1, (splitLiteral ("#split" ++ to_string splits.length)
          (splitArgs (done ++ [x])), done ++ [x]) :: new, by rw [r2]; simp, ?_⟩
      intro e he
      rcases List.mem_cons.mp he with rfl | he
      · exact hdone
      · exact r3 e he
    · have hstep : splitLoop (x :: rest) done splits = splitLoop rest (done ++ [x]) splits := by
        conv_lhs => unfold splitLoop
        simp only [hc, Bool.false_eq_true, if_false]
      rw [hstep]
      exact ih (pre ++ [x]) (done ++ [x]) splits hall2 hdone hprov2

/-- C4 (counterexample): the body `not q(X), q(X)` has no assignment and all
its variables have a provider, the resolver returns it as it is, and in this
order `not q(X)` consumes `X` before any literal provides it. -/
theorem resolver_keeps_order_without_assignment :
    (∀ v ∈ levelZeroNames [lit_not_qX, lit_qX],
        ∃ p ∈ [lit_not_qX, lit_qX], v ∈ providedNames p.vars)
    ∧ _rewriteAssignments [lit_not_qX, lit_qX] exLoc [] = some ([lit_not_qX, lit_qX], [])
    ∧ ¬ ProvidedBefore [lit_not_qX, lit_qX] := by
  refine ⟨by decide, by rfl, ?_⟩
  intro h
  obtain ⟨p, hp, _⟩ := h [] lit_not_qX [lit_qX] rfl "X" (by decide)
  simp at hp

/-- C4 (amended): for every body with at least one assignment the resolver
returns, and in the body it returns every level-0 variable that a literal
consumes is provided by a literal placed earlier, a split literal providing
its arguments; the same holds in the body captured for every new split. -/
theorem resolver_provided_before (body : List BodyAggr) (loc : Location) (splits : SplitVec)
    (h : numAssign body ≠ 0) :
    ∃ r, _rewriteAssignments body loc splits = some r
      ∧ ProvidedBefore r.1
      ∧ ∃ new, r.2 = splits ++ new ∧ ∀ e ∈ new, ProvidedBefore e.2 := by
  obtain ⟨sorted, hs, hsafe⟩ := resolve_spec body
  refine ⟨splitLoop sorted [] splits, ?_, ?_⟩
  · unfold _rewriteAssignments
    rw [if_pos h, hs]
  · exact splitLoop_providedBefore sorted [] [] splits (by simpa using hsafe)
      ProvidedBefore.of_nil (by rintro v ⟨p, hp, _⟩; simp at hp)

/-- Witness of C4 (amended) at the body `X = 1+2, Z = X+1, not q(X)`. -/
theorem resolver_provided_before_witness :
    numAssign [lit_X_eq_3, lit_Z_eq_X1, lit_not_qX] ≠ 0
    ∧ ∃ r, _rewriteAssignments [lit_X_eq_3, lit_Z_eq_X1, lit_not_qX] exLoc [] = some r
      ∧ ProvidedBefore r.1
      ∧ ∃ new, r.2 = [] ++ new ∧ ∀ e ∈ new, ProvidedBefore e.2 :=
  ⟨by decide,
   resolver_provided_before [lit_X_eq_3, lit_Z_eq_X1, lit_not_qX] exLoc [] (by decide)⟩

/-- C5 (the code at the failing inputs): from the body `X = 1+2, not r(Y)` the
resolver returns the body `X = 1+2` and no split, the literal `not r(Y)` is
gone; from the body `X = Y+1, Y = X+1` it returns the empty body and no
split, both literals are gone. -/
theorem resolver_drops_unresolved_literals :
    _rewriteAssignments [lit_X_eq_3, lit_not_rY] exLoc [] = some ([lit_X_eq_3], [])
    ∧ _rewriteAssignments [lit_X_eq_Y1, lit_Y_eq_X1] exLoc [] = some ([], []) := by
  constructor <;> rfl

/-! ## A body that is a single assignment -/

/-- The resolved order of a body that is one assignment consuming no level-0
variable: the assignment itself, turned into a check when it provides no
level-0 variable. -/
theorem resolve_single_assignment (a : BodyAggr) (ha : a.isAssignment = true)
    (hc : consumedNames a.vars = []) :
    resolve [a]
      = some [if (providedNames a.vars).isEmpty then a.removeAssignment else a] := by
  have inv0 := resolveInit_inv [a]
  have hbody : bodyAt [a] 0 = a := rfl
  have hdata : ∀ st : ResolveState, st.dep.entNodes = [a] → st.data 0 = a := by
    intro st h
    unfold ResolveState.data
    rw [h]
    rfl
  have hents : (resolveInit [a]).dep.entNodes = [a] := inv0.graph.ents
  have hdep0 : (buildGraph [a]).entDepends 0 = 0 := by
    have := inv0.depends 0
    rw [hbody, hc] at this
    simpa using this
  have hopen : (resolveInit [a]).open_ = [0] := by
    have hlen : (buildGraph [a]).entNodes.length = 1 := by
      have : (buildGraph [a]).entNodes = [a] := hents
      rw [this]; rfl
    simp only [resolveInit, SafetyChecker.init, List.nil_append, hlen]
    have : List.range 1 = [0] := rfl
    rw [this]
    simp [List.filter_cons, hdep0]
  have hsorted : (resolveInit [a]).sorted = [] := rfl
  -- the literal that is output
  obtain ⟨o1, o2, o3⟩ := inv0.output 0 (by rw [hopen]; simp)
    (if (providedNames a.vars).isEmpty then a.removeAssignment else a)
    (by rw [hbody]; split <;> rfl)
  have hopen1 : (((resolveInit [a]).propagate 0).emit
      (if (providedNames a.vars).isEmpty then a.removeAssignment else a)).open_ = [0] := by
    have hle := o1.open_length_le
    rw [hopen] at o3
    obtain ⟨t, ht⟩ := o3
    rw [← ht] at hle ⊢
    have : t = [] := by
      cases t with
      | nil => rfl
      | cons b t => simp at hle
    rw [this]; rfl
  have hfuel : resolveFuel [a] = (a.vars.length + 1) + 1 := by
    simp [resolveFuel]; omega
  -- the inner loop collects the assignment
  have hfor : forOpen ((a.vars.length + 1) + 1) (resolveInit [a]) 0 []
      = some (resolveInit [a], 1, [0]) := by
    rw [forOpen, hopen]
    simp only [List.getElem?_cons_zero, hdata _ hents, ha, Bool.not_true, Bool.false_eq_true,
      if_false, List.nil_append]
    rw [forOpen, hopen]
    simp
  -- the loop over the pending assignments outputs it
  have hallBound : (resolveInit [a]).allBound 0 = (providedNames a.vars).isEmpty := by
    unfold ResolveState.allBound
    rw [inv0.graph.entProvides 0, hbody]
    have hu : (resolveInit [a]).dep.varBound = fun _ => false := (buildGraph_inv [a]).unbound
    rw [hu]
    cases providedNames a.vars <;> simp
  have hwhile : whileAssign ((a.vars.length + 1) + 1) (resolveInit [a]) [0] []
      = some (((resolveInit [a]).propagate 0).emit
          (if (providedNames a.vars).isEmpty then a.removeAssignment else a)) := by
    rw [whileAssign]
    simp only [List.isEmpty_cons, Bool.false_eq_true, if_false, List.foldl_cons, List.foldl_nil]
    by_cases hp : (providedNames a.vars).isEmpty = true
    · have e : assignStep (resolveInit [a], []) 0
          = (((resolveInit [a]).propagate 0).emit (a.removeAssignment), []) := by
        simp [assignStep, hallBound, hp, hdata _ hents]
      rw [e]
      simp only [List.getLast?_nil, hp, if_true]
      rw [whileAssign]
      simp
    · have e : assignStep (resolveInit [a], []) 0 = (resolveInit [a], [0]) := by
        simp [assignStep, hallBound, hp]
      rw [e]
      simp only [List.getLast?_singleton, hp, Bool.false_eq_true, if_false,
        List.dropLast_single, hdata _ hents]
      rw [whileAssign]
      simp
  unfold resolve
  rw [hfuel, forOuter, hopen]
  simp only [List.getElem?_cons_zero, hfor, hwhile]
  rw [forOuter, hopen1]
  simp only [List.getElem?_cons_succ, List.getElem?_nil, o2, hsorted, List.nil_append]

/-! ## The number of splits -/

theorem numAssign_singleton (a : BodyAggr) (ha : a.isAssignment = true) :
    numAssign [a] ≠ 0 := by
  simp [numAssign, ha]

theorem splitLoop_singleton (x : BodyAggr) (splits : SplitVec) :
    splitLoop [x] [] splits = ([x], splits) := by
  simp [splitLoop]

/-- C6: the resolver adds exactly one entry to the `SplitVec` for each
literal of the resolved order that is still an assignment and is not the
last literal of that order (the body captured by the entry ends with that
literal), and no entry otherwise; a body that is a single assignment
consuming no variable, like `X = 1+2`, yields no split and keeps its literal
(as a check when the assignment provides no variable). -/
theorem one_split_per_pending_assignment (body : List BodyAggr) (loc : Location)
    (splits : SplitVec) (a : BodyAggr) :
    (∃ r, _rewriteAssignments body loc splits = some r
      ∧ ∃ new, r.2 = splits ++ new
        ∧ (numAssign body = 0 → r.1 = body ∧ new = [])
        ∧ (numAssign body ≠ 0 → ∃ sorted, resolve body = some sorted
            ∧ new.map (fun e => e.2.getLast?)
                = (sorted.dropLast.filter (fun y => y.isAssignment)).map some))
    ∧ (a.isAssignment = true → consumedNames a.vars = [] →
        _rewriteAssignments [a] loc splits
          = some ([if (providedNames a.vars).isEmpty then a.removeAssignment else a], splits))
    ∧ _rewriteAssignments [lit_X_eq_3] loc splits = some ([lit_X_eq_3], splits) := by
  have single : ∀ b : BodyAggr, b.isAssignment = true → consumedNames b.vars = [] →
      _rewriteAssignments [b] loc splits
        = some ([if (providedNames b.vars).isEmpty then b.removeAssignment else b], splits) := by
    intro b hb hc
    unfold _rewriteAssignments
    rw [if_pos (numAssign_singleton b hb), resolve_single_assignment b hb hc]
    simp only [splitLoop_singleton]
  refine ⟨?_, single a, ?_⟩
  · by_cases h : numAssign body ≠ 0
    · obtain ⟨sorted, hs, _⟩ := resolve_spec body
      obtain ⟨new, h1, h2⟩ := splitLoop_triggers sorted [] splits
      refine ⟨splitLoop sorted [] splits, ?_, new, h1, fun h0 => absurd h0 h,
        fun _ => ⟨sorted, hs, h2⟩⟩
      unfold _rewriteAssignments
      rw [if_pos h, hs]
    · refine ⟨(body, splits), ?_, [], by simp, fun _ => ⟨rfl, rfl⟩, fun h0 => absurd h0 h⟩
      unfold _rewriteAssignments
      rw [if_neg h]
  · exact single lit_X_eq_3 rfl rfl

/-- Witness of C6: the body `X = 1+2, Y = 2, not q(X)` with its two splits, and
the single assignment `X = 1+2`. -/
theorem one_split_per_pending_assignment_witness :
    (lit_X_eq_3.isAssignment = true ∧ consumedNames lit_X_eq_3.vars = []
      ∧ numAssign [lit_X_eq_3, lit_Y_eq_2, lit_not_qX] ≠ 0)
    ∧ (∃ r, _rewriteAssignments [lit_X_eq_3, lit_Y_eq_2, lit_not_qX] exLoc [] = some r
      ∧ ∃ new, r.2 = [] ++ new
        ∧ (numAssign [lit_X_eq_3, lit_Y_eq_2, lit_not_qX] = 0 →
            r.1 = [lit_X_eq_3, lit_Y_eq_2, lit_not_qX] ∧ new = [])
        ∧ (numAssign [lit_X_eq_3, lit_Y_eq_2, lit_not_qX] ≠ 0 →
            ∃ sorted, resolve [lit_X_eq_3, lit_Y_eq_2, lit_not_qX] = some sorted
            ∧ new.map (fun e => e.2.getLast?)
                = (sorted.dropLast.filter (fun y => y.isAssignment)).map some))
    ∧ _rewriteAssignments [lit_X_eq_3] exLoc []
        = some ([if (providedNames lit_X_eq_3.vars).isEmpty then lit_X_eq_3.removeAssignment
            else lit_X_eq_3], []) :=
  ⟨⟨rfl, rfl, by decide⟩,
   (one_split_per_pending_assignment [lit_X_eq_3, lit_Y_eq_2, lit_not_qX] exLoc []
      lit_X_eq_3).1,
   (one_split_per_pending_assignment [lit_X_eq_3, lit_Y_eq_2, lit_not_qX] exLoc []
      lit_X_eq_3).2.1 rfl rfl⟩

/-! ## The entries of the `SplitVec` -/

theorem mem_levelZeroNames_append (a b : List BodyAggr) (v : String) :
    v ∈ levelZeroNames (a ++ b) ↔ v ∈ levelZeroNames a ∨ v ∈ levelZeroNames b := by
  simp [levelZeroNames, List.flatMap_append]

theorem mem_levelZeroNames_splitBodyLiteral (name : String) (done : List BodyAggr)
    (v : String) :
    v ∈ levelZeroNames [splitBodyLiteral name (splitArgs done)] ↔ v ∈ levelZeroNames done := by
  constructor
  · intro h
    simp only [levelZeroNames, splitBodyLiteral, List.flatMap_cons, List.flatMap_nil,
      List.append_nil, List.mem_map, List.mem_filter, decide_eq_true_eq] at h
    obtain ⟨⟨x, b⟩, ⟨⟨x2, hx2, heq⟩, _⟩, hv⟩ := h
    have hx : x = x2 := (Prod.mk.inj heq).1.symm
    subst hx
    simp only at hv
    subst hv
    exact ((mem_splitArgs_names done x).mp hx2).2
  · intro h
    have hx : (⟨v, 0⟩ : VarTerm) ∈ splitArgs done :=
      (mem_splitArgs_names done ⟨v, 0⟩).mpr ⟨rfl, h⟩
    simp only [levelZeroNames, splitBodyLiteral, List.flatMap_cons, List.flatMap_nil,
      List.append_nil, List.mem_map, List.mem_filter, decide_eq_true_eq]
    exact ⟨(⟨v, 0⟩, true), ⟨⟨⟨v, 0⟩, hx, rfl⟩, rfl⟩, rfl⟩

/-- Every recorded entry is headed by the split literal over the arguments
computed from its captured body, the captured body ends with the assignment
that triggered the split, and the level-0 variables of the captured body are
those of the resolved order up to and including that assignment. -/
theorem splitEntries_spec :
    ∀ (segs : List (List BodyAggr)) (n : Nat) (done pre : List BodyAggr),
      (∀ seg ∈ segs, IsSegment seg) →
      (∀ v, v ∈ levelZeroNames done ↔ v ∈ levelZeroNames pre) →
      ∀ e ∈ splitEntries n done segs,
        (∃ name, e.1 = splitLiteral name (splitArgs e.2))
        ∧ ∃ (front : List BodyAggr) (a : BodyAggr) (back : List BodyAggr),
            pre ++ segs.flatten = front ++ a :: back
            ∧ a.isAssignment = true
            ∧ e.2.getLast? = some a
            ∧ ∀ v, v ∈ levelZeroNames e.2 ↔ v ∈ levelZeroNames (front ++ [a]) := by
  intro segs
  induction segs with
  | nil => intro n done pre _ _ e he; simp [splitEntries] at he
  | cons seg segs ih =>
    intro n done pre hsegs hnames e he
    unfold splitEntries at he
    rcases List.mem_cons.mp he with rfl | he
    · obtain ⟨front, a, hseg, ha, _⟩ := hsegs seg (List.mem_cons_self _ _)
      refine ⟨⟨splitName n, rfl⟩, pre ++ front, a, segs.flatten, ?_, ha, ?_, ?_⟩
      · simp [hseg, List.append_assoc]
      · simp [hseg, ← List.append_assoc]
      · intro v
        simp only [hseg, ← List.append_assoc]
        rw [mem_levelZeroNames_append, mem_levelZeroNames_append (pre ++ front),
          mem_levelZeroNames_append done, mem_levelZeroNames_append pre, hnames v]
    · obtain ⟨h1, front, a, back, h2, h3, h4, h5⟩ :=
        ih (n + 1) [splitBodyLiteral (splitName n) (splitArgs (done ++ seg))] (pre ++ seg)
          (fun s hs => hsegs s (List.mem_cons_of_mem _ hs))
          (by
            intro v
            rw [mem_levelZeroNames_splitBodyLiteral, mem_levelZeroNames_append,
              mem_levelZeroNames_append, hnames v])
          e he
      refine ⟨h1, front, a, back, ?_, h3, h4, h5⟩
      rw [← h2]
      simp [List.append_assoc]

/-- The first entry captures the output accumulated so far and the first
segment; every later entry captures the body literal of the split before it,
followed by its own segment. -/
theorem splitEntries_getElem :
    ∀ (segs : List (List BodyAggr)) (n : Nat) (done : List BodyAggr),
      (∀ e, (splitEntries n done segs)[0]? = some e →
        ∃ seg, segs[0]? = some seg ∧ e.2 = done ++ seg)
      ∧ ∀ (i : Nat) (e1 e2 : Literal × List BodyAggr),
          (splitEntries n done segs)[i]? = some e1 →
          (splitEntries n done segs)[i + 1]? = some e2 →
          ∃ seg, segs[i + 1]? = some seg
            ∧ e1.1 = splitLiteral (splitName (n + i)) (splitArgs e1.2)
            ∧ e2.2 = splitBodyLiteral (splitName (n + i)) (splitArgs e1.2) :: seg := by
  intro segs
  induction segs with
  | nil =>
    intro n done
    exact ⟨by intro e he; simp [splitEntries] at he,
      by intro i e1 e2 h1; simp [splitEntries] at h1⟩
  | cons seg segs ih =>
    intro n done
    obtain ⟨ih1, ih2⟩ := ih (n + 1) [splitBodyLiteral (splitName n) (splitArgs (done ++ seg))]
    constructor
    · intro e he
      simp only [splitEntries, List.getElem?_cons_zero, Option.some.injEq] at he
      subst he
      exact ⟨seg, by simp, rfl⟩
    · intro i e1 e2 h1 h2
      cases i with
      | zero =>
        simp only [splitEntries, List.getElem?_cons_zero, Option.some.injEq] at h1
        simp only [splitEntries, Nat.zero_add, List.getElem?_cons_succ] at h2
        obtain ⟨seg2, hs1, hs2⟩ := ih1 e2 h2
        subst h1
        exact ⟨seg2, by simpa using hs1, rfl, by simpa using hs2⟩
      | succ i =>
        simp only [splitEntries, List.getElem?_cons_succ] at h1 h2
        obtain ⟨seg2, hs1, hs2, hs3⟩ := ih2 i e1 e2 h1 h2
        have hn : n + (i + 1) = n + 1 + i := by omega
        refine ⟨seg2, by simpa using hs1, ?_, ?_⟩
        · rw [hn]; exact hs2
        · rw [hn]; exact hs3

/-- C7 (counterexample): in the body `X = 1+2, not q(X)` the assignment
`X = 1+2` is the only pending assignment when the loop over the open list
stops for the first time, with no variable bound and no literal output; it is
output first, and the split it triggers has the argument `X`, the variable
first bound by the triggering assignment itself. -/
theorem split_args_include_assigned_variable :
    (resolveInit [lit_X_eq_3, lit_not_qX]).bound = []
    ∧ (forOpen (resolveFuel [lit_X_eq_3, lit_not_qX])
          (resolveInit [lit_X_eq_3, lit_not_qX]) 0 []).map
        (fun r => (r.1.bound, r.1.sorted, r.2.2.map r.1.data))
        = some ([], [], [lit_X_eq_3])
    ∧ resolve [lit_X_eq_3, lit_not_qX] = some [lit_X_eq_3, lit_not_qX]
    ∧ _rewriteAssignments [lit_X_eq_3, lit_not_qX] exLoc []
        = some ([splitBodyLiteral "#split0" [⟨"X", 0⟩], lit_not_qX],
                [(splitLiteral "#split0" [⟨"X", 0⟩], [lit_X_eq_3])])
    ∧ splitArgs ([] : List BodyAggr) = []
    ∧ splitArgs [lit_X_eq_3] ≠ splitArgs ([] : List BodyAggr) := by
  refine ⟨rfl, by rfl, by rfl, by rfl, by rfl, by decide⟩

/-- C7 (amended): every entry that the resolver adds is headed by the split
literal whose arguments are computed from the body it captures, and these
arguments are exactly the level-0 variables occurring in the resolved order
up to and including the triggering assignment (so a variable first bound by
the triggering assignment is an argument), each listed once, in strictly
ascending order of name. -/
theorem split_args_up_to_trigger (body : List BodyAggr) (loc : Location)
    (splits : SplitVec) :
    ∃ r, _rewriteAssignments body loc splits = some r
      ∧ ∃ new, r.2 = splits ++ new
        ∧ ∀ e ∈ new,
            (∃ name, e.1 = splitLiteral name (splitArgs e.2))
            ∧ List.Pairwise (fun a b : VarTerm => a.name.data < b.name.data) (splitArgs e.2)
            ∧ ∃ (sorted front : List BodyAggr) (a : BodyAggr) (back : List BodyAggr),
                resolve body = some sorted
                ∧ sorted = front ++ a :: back
                ∧ a.isAssignment = true
                ∧ e.2.getLast? = some a
                ∧ ∀ v : VarTerm, v ∈ splitArgs e.2
                    ↔ v.level = 0 ∧ v.name ∈ levelZeroNames (front ++ [a]) := by
  by_cases h : numAssign body ≠ 0
  · obtain ⟨sorted, hs, _⟩ := resolve_spec body
    obtain ⟨segs, tail, h1, h2, _, _, h5⟩ := splitLoop_shape sorted [] splits
    refine ⟨splitLoop sorted [] splits, ?_, splitEntries splits.length [] segs,
      by rw [h5], ?_⟩
    · unfold _rewriteAssignments
      rw [if_pos h, hs]
    · intro e he
      obtain ⟨g1, front, a, back, g2, g3, g4, g5⟩ :=
        splitEntries_spec segs splits.length [] [] h2 (fun v => Iff.rfl) e he
      refine ⟨g1, splitArgs_increasing e.2, sorted, front, a, back ++ tail, hs, ?_, g3, g4, ?_⟩
      · rw [h1]
        simp only [List.nil_append] at g2
        rw [g2]
        simp [List.append_assoc]
      · intro v
        rw [mem_splitArgs_names, g5 v.name]
  · refine ⟨(body, splits), ?_, [], by simp, by simp⟩
    unfold _rewriteAssignments
    rw [if_neg h]

/-- C8 (counterexample): the body `X = 1+2, Y = 2, not q(X)` is resolved to
`Y = 2, X = 1+2, not q(X)` and yields two splits; the body captured by the
second one, `#split0(Y), X = 1+2`, is not a prefix of the resolved order. -/
theorem second_split_body_not_a_prefix :
    resolve [lit_X_eq_3, lit_Y_eq_2, lit_not_qX] = some [lit_Y_eq_2, lit_X_eq_3, lit_not_qX]
    ∧ _rewriteAssignments [lit_X_eq_3, lit_Y_eq_2, lit_not_qX] exLoc []
        = some ([splitBodyLiteral "#split1" [⟨"X", 0⟩, ⟨"Y", 0⟩], lit_not_qX],
                [(splitLiteral "#split0" [⟨"Y", 0⟩], [lit_Y_eq_2]),
                 (splitLiteral "#split1" [⟨"X", 0⟩, ⟨"Y", 0⟩],
                   [splitBodyLiteral "#split0" [⟨"Y", 0⟩], lit_X_eq_3])])
    ∧ ¬ ([splitBodyLiteral "#split0" [⟨"Y", 0⟩], lit_X_eq_3]
          <+: [lit_Y_eq_2, lit_X_eq_3, lit_not_qX]) := by
  refine ⟨by rfl, by rfl, ?_⟩
  rintro ⟨t, ht⟩
  have h0 := (List.cons.inj ht).1
  exact absurd h0 (by decide)

/-- C8 (amended): for a body with an assignment, the resolved order is cut
into the segments that each end with the assignment triggering a split and
a last part; the first entry added to the `SplitVec` captures the first
segment, a prefix of the resolved order up to and including the first
triggering assignment; every later entry captures the body literal of the
split before it followed by its own segment, the resolved literals after
the previous triggering assignment up to and including its own one. -/
theorem split_captured_bodies (body : List BodyAggr) (loc : Location) (splits : SplitVec)
    (h : numAssign body ≠ 0) :
    ∃ (r : List BodyAggr × SplitVec) (sorted : List BodyAggr)
      (segs : List (List BodyAggr)) (tail : List BodyAggr) (new : SplitVec),
      _rewriteAssignments body loc splits = some r
      ∧ resolve body = some sorted
      ∧ sorted = segs.flatten ++ tail
      ∧ (∀ seg ∈ segs, IsSegment seg)
      ∧ r.2 = splits ++ new
      ∧ new.length = segs.length
      ∧ (∀ e, new[0]? = some e → segs[0]? = some e.2 ∧ e.2 <+: sorted)
      ∧ (∀ (i : Nat) (e1 e2 : Literal × List BodyAggr),
          new[i]? = some e1 → new[i + 1]? = some e2 →
          ∃ seg, segs[i + 1]? = some seg
            ∧ e1.1 = splitLiteral (splitName (splits.length + i)) (splitArgs e1.2)
            ∧ e2.2 = splitBodyLiteral (splitName (splits.length + i)) (splitArgs e1.2)
                :: seg) := by
  obtain ⟨sorted, hs, _⟩ := resolve_spec body
  obtain ⟨segs, tail, h1, h2, _, _, h5⟩ := splitLoop_shape sorted [] splits
  obtain ⟨g1, g2⟩ := splitEntries_getElem segs splits.length []
  have hlen : ∀ (sg : List (List BodyAggr)) (n : Nat) (done : List BodyAggr),
      (splitEntries n done sg).length = sg.length := by
    intro sg
    induction sg with
    | nil => intro n done; rfl
    | cons s sg ih => intro n done; simp [splitEntries, ih]
  refine ⟨splitLoop sorted [] splits, sorted, segs, tail, splitEntries splits.length [] segs,
    ?_, hs, h1, h2, by rw [h5], hlen _ _ _, ?_, g2⟩
  · unfold _rewriteAssignments
    rw [if_pos h, hs]
  · intro e he
    obtain ⟨seg, hseg1, hseg2⟩ := g1 e he
    simp only [List.nil_append] at hseg2
    subst hseg2
    refine ⟨hseg1, ?_⟩
    cases segs with
    | nil => simp at hseg1
    | cons s ss =>
      simp only [List.getElem?_cons_zero, Option.some.injEq] at hseg1
      subst hseg1
      rw [h1]
      simp only [List.flatten_cons, List.append_assoc]
      exact List.prefix_append _ _

/-- Witness of C8 (amended) at the body `X = 1+2, Y = 2, not q(X)`. -/
theorem split_captured_bodies_witness :
    numAssign [lit_X_eq_3, lit_Y_eq_2, lit_not_qX] ≠ 0
    ∧ ∃ (r : List BodyAggr × SplitVec) (sorted : List BodyAggr)
      (segs : List (List BodyAggr)) (tail : List BodyAggr) (new : SplitVec),
      _rewriteAssignments [lit_X_eq_3, lit_Y_eq_2, lit_not_qX] exLoc [] = some r
      ∧ resolve [lit_X_eq_3, lit_Y_eq_2, lit_not_qX] = some sorted
      ∧ sorted = segs.flatten ++ tail
      ∧ (∀ seg ∈ segs, IsSegment seg)
      ∧ r.2 = [] ++ new
      ∧ new.length = segs.length
      ∧ (∀ e, new[0]? = some e → segs[0]? = some e.2 ∧ e.2 <+: sorted)
      ∧ (∀ (i : Nat) (e1 e2 : Literal × List BodyAggr),
          new[i]? = some e1 → new[i + 1]? = some e2 →
          ∃ seg, segs[i + 1]? = some seg
            ∧ e1.1 = splitLiteral (splitName (([] : SplitVec).length + i)) (splitArgs e1.2)
            ∧ e2.2 = splitBodyLiteral (splitName (([] : SplitVec).length + i))
                (splitArgs e1.2) :: seg) :=
  ⟨by decide,
   split_captured_bodies [lit_X_eq_3, lit_Y_eq_2, lit_not_qX] exLoc [] (by decide)⟩

/-! ## Warning options -/

/-- C16: the warning categories are toggled independently: for each of the
six documented names `w`, `parseWarning("no-" + w)` returns true and sets only
the disable flag of `w`, `parseWarning(w)` returns true and clears only that
flag, all other fields of the options staying as they are; any other string
returns false and changes nothing. -/
theorem parseWarning_toggles (out : ClingoOptions) (str : String) :
    parseWarning "no-atom-undefined" out = (true, { out with wNoAtomUndef := true })
    ∧ parseWarning "atom-undefined" out = (true, { out with wNoAtomUndef := false })
    ∧ parseWarning "no-define-cyclic" out = (true, { out with wNoCycle := true })
    ∧ parseWarning "define-cyclic" out = (true, { out with wNoCycle := false })
    ∧ parseWarning "no-define-redefinition" out = (true, { out with wNoRedef := true })
    ∧ parseWarning "define-redefinition" out = (true, { out with wNoRedef := false })
    ∧ parseWarning "no-file-included" out = (true, { out with wNoFileIncluded := true })
    ∧ parseWarning "file-included" out = (true, { out with wNoFileIncluded := false })
    ∧ parseWarning "no-nonmonotone-aggregate" out
        = (true, { out with wNoNonMonotone := true })
    ∧ parseWarning "nonmonotone-aggregate" out = (true, { out with wNoNonMonotone := false })
    ∧ parseWarning "no-term-undefined" out = (true, { out with wNoTermUndef := true })
    ∧ parseWarning "term-undefined" out = (true, { out with wNoTermUndef := false })
    ∧ (str ∉ warningNames.flatMap (fun w => ["no-" ++ w, w]) →
        parseWarning str out = (false, out)) := by
  refine ⟨by rfl, by rfl, by rfl, by rfl, by rfl, by rfl, by rfl, by rfl, by rfl, by rfl,
    by rfl, by rfl, ?_⟩
  intro h
  have h2 : ∀ s ∈ warningNames.flatMap (fun w => ["no-" ++ w, w]), str ≠ s :=
    fun s hs heq => h (heq ▸ hs)
  have e : warningNames.flatMap (fun w => ["no-" ++ w, w])
      = ["no-atom-undefined", "atom-undefined", "no-define-cyclic", "define-cyclic",
         "no-define-redefinition", "define-redefinition", "no-file-included",
         "file-included", "no-nonmonotone-aggregate", "nonmonotone-aggregate",
         "no-term-undefined", "term-undefined"] := by decide
  rw [e] at h2
  unfold parseWarning
  rw [if_neg (h2 _ (by simp)), if_neg (h2 _ (by simp)), if_neg (h2 _ (by simp)),
    if_neg (h2 _ (by simp)), if_neg (h2 _ (by simp)), if_neg (h2 _ (by simp)),
    if_neg (h2 _ (by simp)), if_neg (h2 _ (by simp)), if_neg (h2 _ (by simp)),
    if_neg (h2 _ (by simp)), if_neg (h2 _ (by simp)), if_neg (h2 _ (by simp))]

/-- Witness of C16: the string `all` is none of the twelve names and leaves
the options as they are. -/
theorem parseWarning_toggles_witness :
    "all" ∉ warningNames.flatMap (fun w => ["no-" ++ w, w])
    ∧ parseWarning "all" exOptions = (false, exOptions) :=
  ⟨by decide, (parseWarning_toggles exOptions "all").2.2.2.2.2.2.2.2.2.2.2.2 (by decide)⟩

/-! ## Statement::check -/

theorem check_fold {B Lv : Type} (f : B → Lv → Bool × Lv) (body : List B)
    (ret : Bool) (rs : List Bool) (lv : Lv) (h : ret = rs.all id) :
    (body.foldl (fun acc y => ((f y acc.2).1 && acc.1, (f y acc.2).2)) (ret, lv)).2
        = (body.foldl (fun acc y => (acc.1 ++ [(f y acc.2).1], (f y acc.2).2)) (rs, lv)).2
    ∧ (body.foldl (fun acc y => ((f y acc.2).1 && acc.1, (f y acc.2).2)) (ret, lv)).1
        = (body.foldl (fun acc y => (acc.1 ++ [(f y acc.2).1], (f y acc.2).2)) (rs, lv)).1.all id
    ∧ (body.foldl (fun acc y => (acc.1 ++ [(f y acc.2).1], (f y acc.2).2)) (rs, lv)).1.length
        = rs.length + body.length := by
  induction body generalizing ret rs lv with
  | nil => simp [h]
  | cons y ys ih =>
    simp only [List.foldl_cons, List.length_cons]
    obtain ⟨h1, h2, h3⟩ := ih ((f y lv).1 && ret) (rs ++ [(f y lv).1]) (f y lv).2
      (by rw [h]; simp [List.all_append, Bool.and_comm])
    refine ⟨h1, h2, ?_⟩
    rw [h3]; simp; omega

/-- C12: `Statement::check` accumulates failures: it returns true exactly when
the head check, the check of every body element and the final level check
all succeed, and it runs every check, each on the levels left by the check
before, also after a check has failed; with an unsafe head `h` and unsafe body
elements `b` and `c` all three are reported. -/
theorem check_accumulates {H B Lv : Type} (ops : CheckOps H B Lv) (s : Statement H B) :
    (runChecks ops s).1.length = s.body.length + 1
    ∧ (s.check ops).2 = (ops.checkLevel (runChecks ops s).2).2
    ∧ ((s.check ops).1 = true
        ↔ (∀ r ∈ (runChecks ops s).1, r = true)
          ∧ (ops.checkLevel (runChecks ops s).2).1 = true)
    ∧ Statement.check exCheckOps
        ⟨("h", false), [("a", true), ("b", false), ("c", false)], .RULE, exLoc⟩
        = (false, ["h", "b", "c", "level"]) := by
  obtain ⟨h1, h2, h3⟩ := check_fold ops.checkBody s.body
    ((ops.checkHead s.head (ops.init s.loc s)).1 && true)
    [(ops.checkHead s.head (ops.init s.loc s)).1]
    (ops.checkHead s.head (ops.init s.loc s)).2 (by simp)
  refine ⟨?_, ?_, ?_, by decide⟩
  · unfold runChecks
    rw [h3]; simp; omega
  · unfold Statement.check runChecks
    simp only
    rw [h1]
  · unfold Statement.check runChecks
    simp only
    rw [h1, h2]
    simp only [Bool.and_eq_true, List.all_eq_true, id_eq]
    constructor
    · rintro ⟨a, b⟩; exact ⟨b, a⟩
    · rintro ⟨a, b⟩; exact ⟨b, a⟩

/-! ## Weak constraints: packing and unpacking -/

theorem foldl_snoc_map {α β : Type} (f : α → β) (l : List α) (acc : List β) :
    l.foldl (fun ret y => ret ++ [f y]) acc = acc ++ l.map f := by
  induction l generalizing acc with
  | nil => simp
  | cons y ys ih => rw [List.foldl_cons, ih]; simp

theorem toGround_last {B L G : Type} (bodyToGround : B → List G → CreateBody L G × List G)
    (head : CreateHead L G) (body : List B) (stms : List G) :
    ∃ pre, toGround bodyToGround head body stms
      = pre ++ [head.first (toGroundLits bodyToGround head body stms)] :=
  ⟨_, rfl⟩

/-- C11: packing and unpacking a weak constraint round-trips. The statement
built from weight `w`, priority `p`, tuple `t` and body `B` has kind
`WEAKCONSTRAINT`, body `B` and as head the positive predicate literal over
`#wc(w, p, t..)`; the arguments recovered from the head are `[w, p] ++ t` again
when the packed term is not constant, and the values of the packed term, as
value terms, when it is constant; they are the arguments of the ground weak
constraint that `Statement::toGround` emits last. -/
theorem weak_constraint_round_trip {B L G : Type} (ops : TermOps)
    (weakConstraint : List Term → List L → G)
    (headToGround : HeadAggr → Bool → CreateHead L G)
    (bodyToGround : B → List G → CreateBody L G × List G)
    (loc : Location) (w p : Term) (t : List Term) (body : List B) (stms : List G) :
    Statement.ofWeak loc w p t body
      = some { head := .SimpleHeadLiteral
                 (.PredicateLiteral .POS (.FunctionTerm "#wc" ([w, p] ++ t)))
               body := body, type := .WEAKCONSTRAINT, loc := loc }
    ∧ wc_term_from_head
        (.SimpleHeadLiteral (.PredicateLiteral .POS (.FunctionTerm "#wc" ([w, p] ++ t))))
        = some (.FunctionTerm "#wc" ([w, p] ++ t))
    ∧ (ops.getInvertibility (.FunctionTerm "#wc" ([w, p] ++ t)) ≠ Invertibility.CONSTANT →
        wc_args_from_term ops (.FunctionTerm "#wc" ([w, p] ++ t)) = some ([w, p] ++ t)
        ∧ ∃ pre lits,
            Statement.toGround ops weakConstraint headToGround bodyToGround
              { head := .SimpleHeadLiteral
                  (.PredicateLiteral .POS (.FunctionTerm "#wc" ([w, p] ++ t)))
                body := body, type := .WEAKCONSTRAINT, loc := loc } stms
            = some (pre ++ [weakConstraint ([w, p] ++ t) lits]))
    ∧ (∀ (term : Term) (name : String) (vw vp : Value) (vt : List Value),
        ops.getInvertibility term = Invertibility.CONSTANT →
        ops.eval term = Value.FUNC name ([vw, vp] ++ vt) →
        wc_args_from_term ops term
          = some ([Term.ValTerm vw, Term.ValTerm vp] ++ vt.map Term.ValTerm)
        ∧ ∃ pre lits,
            Statement.toGround ops weakConstraint headToGround bodyToGround
              { head := .SimpleHeadLiteral (.PredicateLiteral .POS term)
                body := body, type := .WEAKCONSTRAINT, loc := loc } stms
            = some (pre ++ [weakConstraint
                ([Term.ValTerm vw, Term.ValTerm vp] ++ vt.map Term.ValTerm) lits])) := by
  refine ⟨?_, rfl, ?_, ?_⟩
  · simp [Statement.ofWeak, Statement.ofTuple, wc_to_head, wc_to_args, Statement.ofHead]
  · intro h
    have e : wc_args_from_term ops (.FunctionTerm "#wc" ([w, p] ++ t)) = some ([w, p] ++ t) := by
      unfold wc_args_from_term
      rw [if_neg h]
    refine ⟨e, ?_⟩
    unfold Statement.toGround
    simp only [if_true, wc_term_from_head, e]
    obtain ⟨pre, hpre⟩ := toGround_last bodyToGround
      ({ first := fun lits => weakConstraint ([w, p] ++ t) lits
         second := { first := fun lits _ => lits, second := [] } } : CreateHead L G) body stms
    exact ⟨pre, _, congrArg some hpre⟩
  · intro term name vw vp vt h1 h2
    have e : wc_args_from_term ops term
        = some ([Term.ValTerm vw, Term.ValTerm vp] ++ vt.map Term.ValTerm) := by
      unfold wc_args_from_term
      rw [if_pos h1, h2]
      simp only [foldl_snoc_map]
      simp
    refine ⟨e, ?_⟩
    unfold Statement.toGround
    simp only [if_true, wc_term_from_head, e]
    obtain ⟨pre, hpre⟩ := toGround_last bodyToGround
      ({ first := fun lits => weakConstraint
            ([Term.ValTerm vw, Term.ValTerm vp] ++ vt.map Term.ValTerm) lits
         second := { first := fun lits _ => lits, second := [] } } : CreateHead L G) body stms
    exact ⟨pre, _, congrArg some hpre⟩

/-- Witness of C11: the weak constraint `:~ a. [1@2]`, with the head term as
built by the parser and with the constant head term `#wc(1,2)`. -/
theorem weak_constraint_round_trip_witness :
    (exTermOps.getInvertibility
        (.FunctionTerm "#wc" ([.ValTerm (.NUM 1), .ValTerm (.NUM 2)] ++ []))
        ≠ Invertibility.CONSTANT)
    ∧ wc_args_from_term exTermOps
        (.FunctionTerm "#wc" ([.ValTerm (.NUM 1), .ValTerm (.NUM 2)] ++ []))
        = some ([.ValTerm (.NUM 1), .ValTerm (.NUM 2)] ++ [])
    ∧ wc_args_from_term exTermOps (.ValTerm (.FUNC "#wc" [.NUM 1, .NUM 2]))
        = some ([Term.ValTerm (.NUM 1), Term.ValTerm (.NUM 2)]
            ++ ([] : List Value).map Term.ValTerm) :=
  ⟨by decide,
   ((weak_constraint_round_trip exTermOps
      (fun args lits => ("weak" ++ toString args.length, lits))
      (fun _ _ => exCreateHead) exBodyToGround exLoc (.ValTerm (.NUM 1)) (.ValTerm (.NUM 2))
      [] [("a", false)] []).2.2.1 (by decide)).1,
   ((weak_constraint_round_trip exTermOps
      (fun args lits => ("weak" ++ toString args.length, lits))
      (fun _ _ => exCreateHead) exBodyToGround exLoc (.ValTerm (.NUM 1)) (.ValTerm (.NUM 2))
      [] [("a", false)] []).2.2.2 (.ValTerm (.FUNC "#wc" [.NUM 1, .NUM 2])) "#wc"
      (.NUM 1) (.NUM 2) [] rfl rfl).1⟩

/-! ## Emission of ground statements -/

theorem foldl_buildCreateVec {B L G : Type}
    (bodyToGround : B → List G → CreateBody L G × List G) (body : List B)
    (cv : List (CreateBody L G)) (stms : List G) :
    body.foldl (fun acc y => (acc.1 ++ [(bodyToGround y acc.2).1], (bodyToGround y acc.2).2))
        (cv, stms)
      = (cv ++ bodyEntries bodyToGround body stms, bodyStms bodyToGround body stms) := by
  induction body generalizing cv stms with
  | nil => simp [bodyEntries, bodyStms]
  | cons y ys ih =>
    rw [List.foldl_cons, ih]
    simp [bodyEntries, bodyStms]

theorem buildCreateVec_eq {B L G : Type}
    (bodyToGround : B → List G → CreateBody L G × List G) (head : CreateHead L G)
    (body : List B) (stms : List G) :
    buildCreateVec bodyToGround head body stms
      = (head.second :: bodyEntries bodyToGround body stms,
         bodyStms bodyToGround body stms) := by
  unfold buildCreateVec
  rw [foldl_buildCreateVec]
  rfl

theorem length_bodyEntries {B L G : Type}
    (bodyToGround : B → List G → CreateBody L G × List G) (body : List B) (stms : List G) :
    (bodyEntries bodyToGround body stms).length = body.length := by
  induction body generalizing stms with
  | nil => rfl
  | cons y ys ih => simp [bodyEntries, ih]

theorem foldl_emitEntry {L G : Type} (cv : List (CreateBody L G)) :
    ∀ (rest pre : List (CreateBody L G)) (acc : List L × List G), cv = pre ++ rest →
      (List.range' pre.length rest.length).foldl (emitEntry cv) acc
        = (rest.foldl (fun lits e => e.first lits true) acc.1,
           acc.2 ++ auxStatements cv pre.length rest) := by
  intro rest
  induction rest with
  | nil => intro pre acc _; simp [auxStatements]
  | cons e es ih =>
    intro pre acc hcv
    have hget : cv[pre.length]? = some e := by
      rw [hcv, List.getElem?_append_right (Nat.le_refl _)]; simp
    have hstep : emitEntry cv acc pre.length
        = (e.first acc.1 true,
           acc.2 ++ e.second.map (fun z => z (splitLitsAt cv pre.length))) := by
      unfold emitEntry
      rw [hget]
      simp only [foldl_snoc_map]
    have := ih (pre ++ [e]) (emitEntry cv acc pre.length) (by rw [hcv]; simp)
    simp only [List.length_append, List.length_singleton] at this
    simp only [List.length_cons, List.range'_succ, List.foldl_cons]
    rw [this, hstep]
    simp [auxStatements, List.append_assoc]

/-- The statements that the emitter leaves in `stms`: those added while the
entries of the body were created, the auxiliary statements of all entries
in the order of `createVec`, and the statement of the head. -/
theorem toGround_eq {B L G : Type} (bodyToGround : B → List G → CreateBody L G × List G)
    (head : CreateHead L G) (body : List B) (stms : List G) :
    toGround bodyToGround head body stms
      = bodyStms bodyToGround body stms
        ++ auxStatements (head.second :: bodyEntries bodyToGround body stms) 0
            (head.second :: bodyEntries bodyToGround body stms)
        ++ [head.first ((head.second :: bodyEntries bodyToGround body stms).foldl
              (fun lits e => e.first lits true) [])] := by
  unfold toGround
  simp only [buildCreateVec_eq]
  have := foldl_emitEntry (head.second :: bodyEntries bodyToGround body stms)
    (head.second :: bodyEntries bodyToGround body stms) []
    ([], bodyStms bodyToGround body stms) (by simp)
  simp only [List.length_nil] at this
  rw [List.range_eq_range', this]

theorem toGroundLits_eq {B L G : Type} (bodyToGround : B → List G → CreateBody L G × List G)
    (head : CreateHead L G) (body : List B) (stms : List G) :
    toGroundLits bodyToGround head body stms
      = (head.second :: bodyEntries bodyToGround body stms).foldl
          (fun lits e => e.first lits true) [] := by
  unfold toGroundLits
  simp only [buildCreateVec_eq]
  have := foldl_emitEntry (head.second :: bodyEntries bodyToGround body stms)
    (head.second :: bodyEntries bodyToGround body stms) []
    ([], bodyStms bodyToGround body stms) (by simp)
  simp only [List.length_nil] at this
  rw [List.range_eq_range', this]

theorem foldl_splitLits {L G : Type} (current : Nat)
    (cv : List (CreateBody L G)) :
    ∀ (rest pre : List ((Bool → List L) × List (List L → G))) (acc : List L),
      cv = (pre ++ rest).map appendEntry →
      (List.range' pre.length rest.length).foldl
        (fun splitLits it =>
          if it ≠ current then
            match cv[it]? with
            | some entry => entry.first splitLits false
            | none => splitLits
          else splitLits) acc
        = acc ++ otherLits current pre.length rest := by
  intro rest
  induction rest with
  | nil => intro pre acc _; simp [otherLits]
  | cons e es ih =>
    intro pre acc hcv
    have hget : cv[pre.length]? = some (appendEntry e) := by
      rw [hcv, List.map_append, List.map_cons,
        List.getElem?_append_right (by simp)]
      simp
    have := ih (pre ++ [e])
      (if pre.length ≠ current then acc ++ e.1 false else acc) (by rw [hcv]; simp)
    simp only [List.length_append, List.length_singleton] at this
    simp only [List.length_cons, List.range'_succ, List.foldl_cons, hget]
    by_cases hc : pre.length = current
    · simp only [hc, ne_eq, not_true_eq_false, if_false] at this ⊢
      rw [this]
      simp [otherLits, hc]
    · simp only [ne_eq, hc, not_false_eq_true, if_true] at this ⊢
      have e1 : (appendEntry e).first acc false = acc ++ e.1 false := rfl
      rw [e1, this]
      simp [otherLits, hc, List.append_assoc]

theorem otherLits_past {L G : Type} (current : Nat) :
    ∀ (ls : List ((Bool → List L) × List (List L → G))) (start : Nat), current < start →
      otherLits current start ls = ls.flatMap (fun e => e.1 false) := by
  intro ls
  induction ls with
  | nil => intro start _; rfl
  | cons e es ih =>
    intro start h
    have hne : start ≠ current := by omega
    simp [otherLits, hne, ih (start + 1) (by omega), List.flatMap_cons]

theorem otherLits_eq {L G : Type} (current : Nat) :
    ∀ (ls : List ((Bool → List L) × List (List L → G))) (start : Nat), start ≤ current →
      otherLits current start ls
        = (ls.take (current - start)).flatMap (fun e => e.1 false)
          ++ (ls.drop (current - start + 1)).flatMap (fun e => e.1 false) := by
  intro ls
  induction ls with
  | nil => intro start _; simp [otherLits]
  | cons e es ih =>
    intro start h
    by_cases hc : start = current
    · subst hc
      simp [otherLits, otherLits_past start es (start + 1) (by omega)]
    · have h1 : current - start = (current - (start + 1)) + 1 := by omega
      rw [h1]
      simp only [otherLits, ne_eq, hc, not_false_eq_true, if_true, List.take_succ_cons,
        List.flatMap_cons, List.drop_succ_cons, List.append_assoc]
      rw [ih (start + 1) (by omega)]

/-- The vector `splitLits` of a position, when all entries append literals:
the literals of all entries before the position and of all entries after
it, in the order of `createVec`. -/
theorem splitLitsAt_appendEntry {L G : Type}
    (ls : List ((Bool → List L) × List (List L → G))) (current : Nat) :
    splitLitsAt (ls.map appendEntry) current
      = (ls.take current).flatMap (fun e => e.1 false)
        ++ (ls.drop (current + 1)).flatMap (fun e => e.1 false) := by
  unfold splitLitsAt
  have := foldl_splitLits current (ls.map appendEntry) ls [] [] (by simp)
  simp only [List.length_nil, List.nil_append] at this
  rw [List.range_eq_range', List.length_map, this, otherLits_eq current ls 0 (Nat.zero_le _)]
  simp

theorem foldl_first_appendEntry {L G : Type}
    (ls : List ((Bool → List L) × List (List L → G))) (acc : List L) :
    (ls.map appendEntry).foldl (fun lits e => e.first lits true) acc
      = acc ++ ls.flatMap (fun e => e.1 true) := by
  induction ls generalizing acc with
  | nil => simp
  | cons e es ih =>
    simp only [List.map_cons, List.foldl_cons, List.flatMap_cons]
    rw [ih]
    simp [appendEntry, List.append_assoc]

/-- C14 (counterexample): for the body `a, b`, where `a` comes with an
auxiliary statement, that statement is built from the literal `b` of the
entry after `a`, while the entries before `a` (the head) contribute no
literal. -/
theorem aux_statement_has_later_literals :
    toGround exBodyToGround exCreateHead [("a", true), ("b", false)] []
      = [("aux_a", ["b"]), ("head", ["a", "b"])]
    ∧ ((buildCreateVec exBodyToGround exCreateHead [("a", true), ("b", false)] []).1.take 1).foldl
        (fun lits e => e.first lits false) [] = []
    ∧ splitLitsAt (buildCreateVec exBodyToGround exCreateHead [("a", true), ("b", false)] []).1 1
        = ["b"] := by
  refine ⟨by decide, by decide, by decide⟩

/-- C14 (amended): every auxiliary statement that the emitter produces for the
entry at position `i` of `createVec` (the head at position 0, then the body
entries in order) is built from the vector `splitLits` of that position,
which is filled by all other entries, those before position `i` and those
after it, in the order of `createVec`; no literal of the entry at position
`i` itself is in it. -/
theorem aux_statements_from_other_entries {B L G : Type}
    (bodyToGround : B → List G → CreateBody L G × List G)
    (head : CreateHead L G) (body : List B) (stms : List G)
    (ls : List ((Bool → List L) × List (List L → G))) (current : Nat) :
    toGround bodyToGround head body stms
      = bodyStms bodyToGround body stms
        ++ auxStatements (head.second :: bodyEntries bodyToGround body stms) 0
            (head.second :: bodyEntries bodyToGround body stms)
        ++ [head.first (toGroundLits bodyToGround head body stms)]
    ∧ splitLitsAt (ls.map appendEntry) current
      = (ls.take current).flatMap (fun e => e.1 false)
        ++ (ls.drop (current + 1)).flatMap (fun e => e.1 false) := by
  refine ⟨?_, splitLitsAt_appendEntry ls current⟩
  rw [toGround_eq, toGroundLits_eq]

/-- C15: the statement built from the head is the last ground statement
that the emitter appends, after all auxiliary statements, and it is built
from the literal vector obtained by walking `createVec` from left to right,
the entry of the head first, then one entry per body element in body order,
each entry adding its literals once. -/
theorem head_statement_last {B L G : Type}
    (bodyToGround : B → List G → CreateBody L G × List G)
    (head : CreateHead L G) (body : List B) (stms : List G)
    (ls : List ((Bool → List L) × List (List L → G))) :
    toGround bodyToGround head body stms
      = (bodyStms bodyToGround body stms
          ++ auxStatements (head.second :: bodyEntries bodyToGround body stms) 0
              (head.second :: bodyEntries bodyToGround body stms))
        ++ [head.first (toGroundLits bodyToGround head body stms)]
    ∧ toGroundLits bodyToGround head body stms
      = (head.second :: bodyEntries bodyToGround body stms).foldl
          (fun lits e => e.first lits true) []
    ∧ (bodyEntries bodyToGround body stms).length = body.length
    ∧ (ls.map appendEntry).foldl (fun lits e => e.first lits true) []
      = ls.flatMap (fun e => e.1 true)
    ∧ toGround exBodyToGround exCreateHead [("a", true), ("b", true), ("c", false)] []
      = [("aux_a", ["b", "c"]), ("aux_b", ["a", "c"]), ("head", ["a", "b", "c"])] := by
  refine ⟨?_, toGroundLits_eq _ _ _ _, length_bodyEntries _ _ _, ?_, by decide⟩
  · rw [toGround_eq, toGroundLits_eq]
  · rw [foldl_first_appendEntry]; simp

/-! ## ClingoControl::ground -/

theorem update_parsed {C P O M : Type} (ops : ControlOps C P O M)
    (ctl : ClingoControl C P O M) : (ctl.update ops).2.parsed = ctl.parsed := by
  unfold ClingoControl.update
  simp only
  split <;> rfl

/-- C13 (counterexample): in clingo mode with a clasp program that is not ok,
`ground` returns at once although a freshly parsed program is pending and an
error has been recorded: nothing is thrown, the program is not rewritten and
stays marked as parsed, nothing is instantiated. -/
theorem ground_returns_when_update_fails :
    exControlStopped.parsed = true
    ∧ exControlOps.hasError exControlStopped.messages = true
    ∧ (ClingoControl.ground exControlOps exControlStopped [("base", [])]).2 = none
    ∧ (ClingoControl.ground exControlOps exControlStopped [("base", [])]).1.parsed = true
    ∧ (ClingoControl.ground exControlOps exControlStopped [("base", [])]).1.prg
        = exControlStopped.prg
    ∧ (ClingoControl.ground exControlOps exControlStopped [("base", [])]).1.out = [] := by
  refine ⟨rfl, rfl, rfl, rfl, rfl, rfl⟩

/-- C13 (amended): when `update()` succeeds and a freshly parsed program is
pending, `ground` first rewrites and checks the whole program and only then
aborts: it throws "grounding stopped because of errors" exactly when the
message printer has an error recorded after the check; when it throws, no
part is instantiated and the program stays marked as parsed; when it does
not throw, the parsed mark is cleared before the parts are instantiated.
When `update()` fails, `ground` returns at once. -/
theorem ground_checks_before_abort {C P O M : Type} (ops : ControlOps C P O M)
    (ctl : ClingoControl C P O M) (parts : GroundVec) :
    ((ctl.update ops).1 = false → ctl.ground ops parts = ((ctl.update ops).2, none))
    ∧ ((ctl.update ops).1 = true → ctl.parsed = true →
        (ops.hasError (ops.check
            (ops.rewrite (ctl.update ops).2.prg (ctl.update ops).2.messages).1
            (ops.rewrite (ctl.update ops).2.prg (ctl.update ops).2.messages).2) = true →
          ctl.ground ops parts
            = ({ (ctl.update ops).2 with
                  prg := (ops.rewrite (ctl.update ops).2.prg (ctl.update ops).2.messages).1
                  messages := ops.check
                    (ops.rewrite (ctl.update ops).2.prg (ctl.update ops).2.messages).1
                    (ops.rewrite (ctl.update ops).2.prg (ctl.update ops).2.messages).2 },
               some "grounding stopped because of errors")
            ∧ (ctl.ground ops parts).1.parsed = true)
        ∧ (ops.hasError (ops.check
            (ops.rewrite (ctl.update ops).2.prg (ctl.update ops).2.messages).1
            (ops.rewrite (ctl.update ops).2.prg (ctl.update ops).2.messages).2) = false →
          ctl.ground ops parts
            = (ClingoControl.groundParts ops
                { (ctl.update ops).2 with
                  prg := (ops.rewrite (ctl.update ops).2.prg (ctl.update ops).2.messages).1
                  messages := ops.check
                    (ops.rewrite (ctl.update ops).2.prg (ctl.update ops).2.messages).1
                    (ops.rewrite (ctl.update ops).2.prg (ctl.update ops).2.messages).2
                  parsed := false } parts,
               none))) := by
  refine ⟨?_, ?_⟩
  · intro hu
    unfold ClingoControl.ground
    simp [hu]
  · intro hu hp
    have hp2 : (ctl.update ops).2.parsed = true := by rw [update_parsed]; exact hp
    constructor
    · intro he
      have e : ctl.ground ops parts
          = ({ (ctl.update ops).2 with
                prg := (ops.rewrite (ctl.update ops).2.prg (ctl.update ops).2.messages).1
                messages := ops.check
                  (ops.rewrite (ctl.update ops).2.prg (ctl.update ops).2.messages).1
                  (ops.rewrite (ctl.update ops).2.prg (ctl.update ops).2.messages).2 },
             some "grounding stopped because of errors") := by
        unfold ClingoControl.ground
        simp [hu, hp2, he]
      refine ⟨e, ?_⟩
      rw [e]
      exact hp2
    · intro he
      unfold ClingoControl.ground
      simp [hu, hp2, he]

/-- Witness of C13 (amended): a freshly parsed program with an unsafe
statement is not instantiated, a safe one is instantiated with the parsed
mark cleared. -/
theorem ground_checks_before_abort_witness :
    ((exControl [("p(X).", false)]).update exControlOps).1 = true
    ∧ (exControl [("p(X).", false)]).parsed = true
    ∧ (ClingoControl.ground exControlOps (exControl [("p(X).", false)]) [("base", [])]).2
        = some "grounding stopped because of errors"
    ∧ (ClingoControl.ground exControlOps (exControl [("p(X).", false)]) [("base", [])]).1.parsed
        = true
    ∧ (ClingoControl.ground exControlOps (exControl [("p.", true)]) [("base", [])]).2 = none
    ∧ (ClingoControl.ground exControlOps (exControl [("p.", true)]) [("base", [])]).1.out
        = ["base", "rewritten"] :=
  ⟨rfl, rfl,
   congrArg Prod.snd (((ground_checks_before_abort exControlOps (exControl [("p(X).", false)])
      [("base", [])]).2 rfl rfl).1 rfl).1,
   (((ground_checks_before_abort exControlOps (exControl [("p(X).", false)])
      [("base", [])]).2 rfl rfl).1 rfl).2,
   congrArg Prod.snd (((ground_checks_before_abort exControlOps (exControl [("p.", true)])
      [("base", [])]).2 rfl rfl).2 rfl),
   congrArg (fun r => r.1.out) (((ground_checks_before_abort exControlOps
      (exControl [("p.", true)]) [("base", [])]).2 rfl rfl).2 rfl)⟩

/-! ## Comparison of values -/

/-- C17: when the order of values is a strict total order consistent with
equality (used here: on the two values compared, `==` is equality, equal
values are not below each other and of two different values one is below
the other), `cmp(a, b)` is -1 if `a < b`, 0 if
`a = b` and 1 otherwise, and the Python implementation, which tests equality
first, and the Lua implementation, which tests `a < b` and then `b < a`, give
the same result. -/
theorem cmp_implementations_agree (ord : ValueOrder) (a b : Value)
    (heq : ord.eq a b = true ↔ a = b)
    (hirr : a = b → ord.lt a b = false ∧ ord.lt b a = false)
    (htot : a ≠ b → ord.lt a b = true ∨ ord.lt b a = true) :
    Python.cmpVal ord a b = Lua.cmpVal ord a b
    ∧ (ord.lt a b = true → Python.cmpVal ord a b = -1)
    ∧ (a = b → Python.cmpVal ord a b = 0)
    ∧ (ord.lt a b = false → a ≠ b → Python.cmpVal ord a b = 1) := by
  unfold Python.cmpVal Lua.cmpVal
  by_cases hab : a = b
  · obtain ⟨h1, h2⟩ := hirr hab
    have h3 : ord.eq a b = true := heq.mpr hab
    subst hab
    simp [h1, h3]
  · have h3 : ord.eq a b = false := by
      cases h : ord.eq a b with
      | false => rfl
      | true => exact absurd (heq.mp h) hab
    cases hlt : ord.lt a b with
    | true => simp [h3, hlt, hab]
    | false =>
      have h4 : ord.lt b a = true := by
        rcases htot hab with h | h
        · rw [hlt] at h; exact absurd h (by decide)
        · exact h
      simp [h3, hlt, h4, hab]

/-- Witness of C17 at the numbers 1 and 2. -/
theorem cmp_implementations_agree_witness :
    (exValueOrder.eq (.NUM 1) (.NUM 2) = true ↔ Value.NUM 1 = Value.NUM 2)
    ∧ Python.cmpVal exValueOrder (.NUM 1) (.NUM 2) = Lua.cmpVal exValueOrder (.NUM 1) (.NUM 2)
    ∧ Python.cmpVal exValueOrder (.NUM 1) (.NUM 2) = -1 :=
  have hne : Value.NUM 1 ≠ Value.NUM 2 := fun h => absurd (Value.NUM.inj h) (by decide)
  have heq : exValueOrder.eq (.NUM 1) (.NUM 2) = true ↔ Value.NUM 1 = Value.NUM 2 :=
    ⟨fun h => absurd h (by decide), fun h => absurd h hne⟩
  ⟨heq,
   (cmp_implementations_agree exValueOrder (.NUM 1) (.NUM 2) heq
      (fun h => absurd h hne) (fun _ => Or.inl rfl)).1,
   (cmp_implementations_agree exValueOrder (.NUM 1) (.NUM 2) heq
      (fun h => absurd h hne) (fun _ => Or.inl rfl)).2.1 rfl⟩

/-! ## Conversion between values and Python objects -/

theorem toCInt_of_int (n : Int) (h1 : -2147483648 ≤ n) (h2 : n < 2147483648) :
    toCInt n = n := by
  unfold toCInt
  rw [Int.emod_eq_of_lt (by omega) (by omega)]
  omega

theorem c_str_of_no_nul (s : String) (h : s.data.all (fun c => c ≠ Char.ofNat 0) = true) :
    c_str s = s := by
  unfold c_str
  have : s.data.takeWhile (fun c => decide (c ≠ Char.ofNat 0)) = s.data := by
    rw [List.takeWhile_eq_self_iff]
    intro c hc
    exact List.all_eq_true.mp h c hc
  rw [this]

mutual
theorem valToPy_pyToVal : ∀ (v : Value), v.valid = true → ∀ (val : Value),
    ∃ o, valToPy v = some o ∧ pyToVal o val none = (true, v, none)
  | .NUM num, h, val => by
    simp only [Value.valid, Bool.and_eq_true, decide_eq_true_eq] at h
    exact ⟨.PyInt num, by simp [valToPy], by simp [pyToVal, toCInt_of_int num h.1 h.2]⟩
  | .ID name, _, val => ⟨.Fun (.ID name), by simp [valToPy], by simp [pyToVal]⟩
  | .STRING s, h, val => by
    simp only [Value.valid] at h
    refine ⟨.PyString (c_str s), by simp [valToPy], ?_⟩
    simp [pyToVal, c_str_of_no_nul s h]
  | .INF, _, val => ⟨.Inf, by simp [valToPy], by simp [pyToVal, Value.ofBool]⟩
  | .SUP, _, val => ⟨.Sup, by simp [valToPy], by simp [pyToVal, Value.ofBool]⟩
  | .SPECIAL, h, _ => by simp [Value.valid] at h
  | .FUNC name args, h, val => by
    by_cases hn : name = ""
    · subst hn
      simp only [Value.valid, if_true, Bool.and_eq_true, decide_eq_true_eq] at h
      obtain ⟨os, h1, h2⟩ := valToPyItems_pyToValsItems args h.2 []
      refine ⟨.PyTuple os, by simp [valToPy, h1], ?_⟩
      have hlen : ¬ args.length < 2 := by omega
      simp [pyToVal, h2, hlen]
    · exact ⟨.Fun (.FUNC name args), by simp [valToPy, hn], by simp [pyToVal]⟩
theorem valToPyItems_pyToValsItems : ∀ (vs : List Value), Value.validList vs = true →
    ∀ (vals : List Value),
    ∃ os, valToPyItems vs = some os ∧ pyToValsItems os vals none = (true, vals ++ vs, none)
  | [], _, vals => ⟨[], by simp [valToPyItems], by simp [pyToValsItems]⟩
  | v :: vs, h, vals => by
    simp only [Value.validList, Bool.and_eq_true] at h
    obtain ⟨o, h1, h2⟩ := valToPy_pyToVal v h.1 Value.SPECIAL
    obtain ⟨os, h3, h4⟩ := valToPyItems_pyToValsItems vs h.2 (vals ++ [v])
    refine ⟨o :: os, by simp [valToPyItems, h1, h3], ?_⟩
    simp [pyToValsItems, h2, h4]
end

theorem foldl_release_frame (l : List Nat) (st : ResolveState) :
    (l.foldl ResolveState.release st).dep.entNodes = st.dep.entNodes
    ∧ (l.foldl ResolveState.release st).dep.entProvides = st.dep.entProvides
    ∧ (l.foldl ResolveState.release st).dep.varProvides = st.dep.varProvides
    ∧ (l.foldl ResolveState.release st).sorted = st.sorted
    ∧ st.open_ <+: (l.foldl ResolveState.release st).open_ := by
  obtain ⟨h1, h2, h3, _, _, h6, _, pushed, hp, _⟩ := foldl_release l st
  exact ⟨h1, h2, h3, h6, by rw [hp]; exact List.prefix_append _ _⟩

theorem bindVar_frame (st : ResolveState) (y : String) :
    (st.bindVar y).dep.entNodes = st.dep.entNodes
    ∧ (st.bindVar y).dep.entProvides = st.dep.entProvides
    ∧ (st.bindVar y).dep.varProvides = st.dep.varProvides
    ∧ (st.bindVar y).sorted = st.sorted
    ∧ st.open_ <+: (st.bindVar y).open_ := by
  unfold ResolveState.bindVar
  by_cases hb : st.dep.varBound y = true
  · rw [if_pos hb]
    exact ⟨rfl, rfl, rfl, rfl, List.prefix_refl _⟩
  · rw [if_neg hb]
    exact foldl_release_frame _ _

theorem foldl_bindVar_frame (l : List String) (st : ResolveState) :
    (l.foldl ResolveState.bindVar st).dep.entNodes = st.dep.entNodes
    ∧ (l.foldl ResolveState.bindVar st).dep.entProvides = st.dep.entProvides
    ∧ (l.foldl ResolveState.bindVar st).dep.varProvides = st.dep.varProvides
    ∧ (l.foldl ResolveState.bindVar st).sorted = st.sorted
    ∧ st.open_ <+: (l.foldl ResolveState.bindVar st).open_ := by
  induction l generalizing st with
  | nil => exact ⟨rfl, rfl, rfl, rfl, List.prefix_refl _⟩
  | cons y l ih =>
    rw [List.foldl_cons]
    obtain ⟨a1, a2, a3, a4, a5⟩ := bindVar_frame st y
    obtain ⟨b1, b2, b3, b4, b5⟩ := ih (st.bindVar y)
    exact ⟨b1.trans a1, b2.trans a2, b3.trans a3, b4.trans a4, a5.trans b5⟩

theorem propagate_frame (st : ResolveState) (x : Nat) :
    (st.propagate x).dep.entNodes = st.dep.entNodes
    ∧ (st.propagate x).dep.entProvides = st.dep.entProvides
    ∧ (st.propagate x).dep.varProvides = st.dep.varProvides
    ∧ (st.propagate x).sorted = st.sorted
    ∧ st.open_ <+: (st.propagate x).open_ :=
  foldl_bindVar_frame _ st

theorem output_frame (st : ResolveState) (x : Nat) (d : BodyAggr) :
    ((st.propagate x).emit d).dep.entNodes = st.dep.entNodes
    ∧ ((st.propagate x).emit d).sorted = st.sorted ++ [d]
    ∧ st.open_ <+: ((st.propagate x).emit d).open_ := by
  obtain ⟨a1, _, _, a4, a5⟩ := propagate_frame st x
  refine ⟨a1, ?_, a5⟩
  show (st.propagate x).sorted ++ [d] = _
  rw [a4]

theorem output_data (st : ResolveState) (x : Nat) (d : BodyAggr) (z : Nat) :
    ((st.propagate x).emit d).data z = st.data z := by
  unfold ResolveState.data
  rw [(output_frame st x d).1]

/-! ## Properties kept by every pass of the loops -/

theorem forOpen_induct (Q : ResolveState → Prop)
    (hstep : ∀ st x d, Q st → Q ((st.propagate x).emit d)) :
    ∀ (fuel : Nat) (st : ResolveState) (it : Nat) (assign : List Nat)
      (r : ResolveState × Nat × List Nat),
      forOpen fuel st it assign = some r → Q st → Q r.1 := by
  intro fuel
  induction fuel with
  | zero => intro st it assign r h; simp [forOpen] at h
  | succ fuel ih =>
    intro st it assign r h hq
    unfold forOpen at h
    cases hget : st.open_[it]? with
    | none =>
      rw [hget] at h
      simp only [Option.some.injEq] at h
      subst h
      exact hq
    | some x =>
      rw [hget] at h
      simp only at h
      by_cases hass : (st.data x).isAssignment = true
      · simp only [hass, Bool.not_true, Bool.false_eq_true, if_false] at h
        exact ih _ _ _ _ h hq
      · simp only [hass, Bool.not_false, if_true] at h
        exact ih _ _ _ _ h (hstep st x _ hq)

theorem foldl_assignStep_induct (Q : ResolveState → Prop)
    (hstep : ∀ st x d, Q st → Q ((st.propagate x).emit d)) :
    ∀ (assign : List Nat) (st : ResolveState) (next : List Nat),
      Q st → Q (assign.foldl assignStep (st, next)).1 := by
  intro assign
  induction assign with
  | nil => intro st next hq; exact hq
  | cons x assign ih =>
    intro st next hq
    rw [List.foldl_cons]
    by_cases hall : st.allBound x = true
    · have e : assignStep (st, next) x
          = ((st.propagate x).emit (st.data x).removeAssignment, next) := by
        simp [assignStep, hall]
      rw [e]
      exact ih _ _ (hstep st x _ hq)
    · have e : assignStep (st, next) x = (st, next ++ [x]) := by
        simp [assignStep, hall]
      rw [e]
      exact ih _ _ hq

theorem whileAssign_induct (Q : ResolveState → Prop)
    (hstep : ∀ st x d, Q st → Q ((st.propagate x).emit d)) :
    ∀ (fuel : Nat) (st : ResolveState) (assign next : List Nat) (st2 : ResolveState),
      whileAssign fuel st assign next = some st2 → Q st → Q st2 := by
  intro fuel
  induction fuel with
  | zero => intro st assign next st2 h; simp [whileAssign] at h
  | succ fuel ih =>
    intro st assign next st2 h hq
    unfold whileAssign at h
    by_cases hempty : assign.isEmpty = true
    · simp only [hempty, if_true, Option.some.injEq] at h
      subst h
      exact hq
    · simp only [hempty, Bool.false_eq_true, if_false] at h
      have hq2 := foldl_assignStep_induct Q hstep assign st next hq
      cases hlast : (assign.foldl assignStep (st, next)).2.getLast? with
      | none =>
        rw [hlast] at h
        exact ih _ _ _ _ h hq2
      | some x =>
        rw [hlast] at h
        exact ih _ _ _ _ h (hstep _ x _ hq2)

theorem forOuter_induct (Q : ResolveState → Prop)
    (hstep : ∀ st x d, Q st → Q ((st.propagate x).emit d)) :
    ∀ (fuel big : Nat) (st : ResolveState) (it : Nat) (st2 : ResolveState),
      forOuter fuel big st it = some st2 → Q st → Q st2 := by
  intro fuel
  induction fuel with
  | zero => intro big st it st2 h; simp [forOuter] at h
  | succ fuel ih =>
    intro big st it st2 h hq
    unfold forOuter at h
    cases hget : st.open_[it]? with
    | none =>
      rw [hget] at h
      simp only [Option.some.injEq] at h
      subst h
      exact hq
    | some x =>
      rw [hget] at h
      simp only at h
      cases hfor : forOpen big st it [] with
      | none => rw [hfor] at h; simp at h
      | some r =>
        rw [hfor] at h
        simp only at h
        cases hwhile : whileAssign big r.1 r.2.2 [] with
        | none => rw [hwhile] at h; simp at h
        | some st3 =>
          rw [hwhile] at h
          simp only at h
          exact ih _ _ _ _ h
            (whileAssign_induct Q hstep _ _ _ _ _ hwhile
              (forOpen_induct Q hstep _ _ _ _ _ hfor hq))

/-! ## What one scan of the open list does -/

theorem drop_of_getElem_some {α : Type} {l : List α} {i : Nat} {x : α} (h : l[i]? = some x) :
    l.drop i = x :: l.drop (i + 1) := by
  obtain ⟨hlt, hx⟩ := List.getElem?_eq_some_iff.mp h
  rw [List.drop_eq_getElem_cons hlt, hx]

theorem getElem_some_mono {α : Type} {l m : List α} {i : Nat} {x : α} (hp : l <+: m)
    (h : l[i]? = some x) : m[i]? = some x := by
  obtain ⟨t, rfl⟩ := hp
  rw [List.getElem?_append_left (List.getElem?_eq_some_iff.mp h).1]
  exact h

theorem output_data_fun (st : ResolveState) (x : Nat) (d : BodyAggr) :
    ((st.propagate x).emit d).data = st.data :=
  funext (output_data st x d)

/-- Closed form of a scan of the open list (lines 218-224): it ends at the
end of the list, outputs the literals of the scanned part that are not
assignments, and collects the assignments of the scanned part. -/
theorem forOpen_scan :
    ∀ (fuel : Nat) (st : ResolveState) (it : Nat) (assign : List Nat)
      (r : ResolveState × Nat × List Nat),
      forOpen fuel st it assign = some r → it ≤ st.open_.length →
      r.1.data = st.data ∧ st.open_ <+: r.1.open_ ∧ r.2.1 = r.1.open_.length
      ∧ r.1.sorted = st.sorted
          ++ ((r.1.open_.drop it).filter (fun x => !(st.data x).isAssignment)).map st.data
      ∧ r.2.2 = assign ++ (r.1.open_.drop it).filter (fun x => (st.data x).isAssignment) := by
  intro fuel
  induction fuel with
  | zero => intro st it assign r h; simp [forOpen] at h
  | succ fuel ih =>
    intro st it assign r h hit
    unfold forOpen at h
    cases hget : st.open_[it]? with
    | none =>
      rw [hget] at h
      simp only [Option.some.injEq] at h
      subst h
      have hlen : st.open_.length ≤ it := List.getElem?_eq_none_iff.mp hget
      have hd : st.open_.drop it = [] := List.drop_eq_nil_of_le hlen
      refine ⟨rfl, List.prefix_refl _, ?_, ?_, ?_⟩
      · show it = st.open_.length
        omega
      · show st.sorted = _
        rw [hd]; simp
      · show assign = _
        rw [hd]; simp
    | some x =>
      rw [hget] at h
      simp only at h
      have hlt : it < st.open_.length := (List.getElem?_eq_some_iff.mp hget).1
      by_cases hass : (st.data x).isAssignment = true
      · simp only [hass, Bool.not_true, Bool.false_eq_true, if_false] at h
        obtain ⟨i1, i2, i3, i4, i5⟩ := ih _ _ _ _ h (by omega)
        have hd := drop_of_getElem_some (getElem_some_mono i2 hget)
        refine ⟨i1, i2, i3, ?_, ?_⟩
        · rw [i4, hd, List.filter_cons_of_neg (by simp [hass])]
        · rw [i5, hd, List.filter_cons_of_pos (by simp [hass])]
          simp
      · simp only [hass, Bool.not_false, if_true] at h
        obtain ⟨o1, o2, o3⟩ := output_frame st x (st.data x)
        have hdat := output_data_fun st x (st.data x)
        obtain ⟨i1, i2, i3, i4, i5⟩ := ih _ _ _ _ h (by have := o3.length_le; omega)
        have hd := drop_of_getElem_some (getElem_some_mono (o3.trans i2) hget)
        rw [hdat] at i1 i4 i5
        refine ⟨i1, o3.trans i2, i3, ?_, ?_⟩
        · rw [i4, o2, hd, List.filter_cons_of_pos (by simp [hass])]
          simp
        · rw [i5, hd, List.filter_cons_of_neg (by simp [hass])]

/-! ## Ready literals are in the open list -/

theorem release_ready {body : List BodyAggr} {st : ResolveState} (h : ReadyInOpen body st)
    (z : Nat) : ReadyInOpen body (st.release z) := by
  intro x hx h0
  rw [release_entDepends] at h0
  rw [release_open]
  by_cases hxz : x = z
  · subst hxz
    rw [if_pos rfl] at h0
    by_cases h1 : st.dep.entDepends x = 1
    · rw [if_pos h1]; simp
    · exact List.mem_append_left _ (h x hx (by omega))
  · rw [if_neg hxz] at h0
    exact List.mem_append_left _ (h x hx h0)

theorem foldl_release_ready {body : List BodyAggr} (l : List Nat) (st : ResolveState)
    (h : ReadyInOpen body st) : ReadyInOpen body (l.foldl ResolveState.release st) := by
  induction l generalizing st with
  | nil => exact h
  | cons z l ih => exact ih _ (release_ready h z)

theorem bindVar_ready {body : List BodyAggr} {st : ResolveState} (h : ReadyInOpen body st)
    (y : String) : ReadyInOpen body (st.bindVar y) := by
  unfold ResolveState.bindVar
  by_cases hb : st.dep.varBound y = true
  · rw [if_pos hb]; exact h
  · rw [if_neg hb]
    exact foldl_release_ready _ _ h

theorem foldl_bindVar_ready {body : List BodyAggr} (l : List String) (st : ResolveState)
    (h : ReadyInOpen body st) : ReadyInOpen body (l.foldl ResolveState.bindVar st) := by
  induction l generalizing st with
  | nil => exact h
  | cons y l ih => exact ih _ (bindVar_ready h y)

theorem output_ready {body : List BodyAggr} (st : ResolveState) (x : Nat) (d : BodyAggr)
    (h : ReadyInOpen body st) : ReadyInOpen body ((st.propagate x).emit d) :=
  foldl_bindVar_ready _ st h

theorem resolveInit_ready (body : List BodyAggr) : ReadyInOpen body (resolveInit body) := by
  intro x hx h0
  have g := (buildGraph_inv body).graph
  simp only [resolveInit, SafetyChecker.init, List.nil_append, List.mem_filter,
    List.mem_range, g.ents, decide_eq_true_eq]
  exact ⟨hx, h0⟩

theorem resolveFuel_ge (body : List BodyAggr) : body.length + 1 ≤ resolveFuel body := by
  unfold resolveFuel; omega

/-- After a scan of the open list every literal of the list that is not an
assignment has been output, if this held for the part before the scan. -/
theorem forOpen_outputs {body : List BodyAggr} {st : ResolveState} {it : Nat}
    {r : ResolveState × Nat × List Nat} (hinv : ResolveInv body [] st)
    (hit : it ≤ st.open_.length)
    (hsub : (((st.open_.take it).filter (fun x => !(bodyAt body x).isAssignment)).map
        (bodyAt body)).Sublist st.sorted)
    (hfor : forOpen (resolveFuel body) st it [] = some r) :
    ((r.1.open_.filter (fun x => !(bodyAt body x).isAssignment)).map
        (bodyAt body)).Sublist r.1.sorted := by
  obtain ⟨_, s2, _, s4, _⟩ := forOpen_scan _ _ _ _ _ hfor hit
  have htake2 : r.1.open_.take it = st.open_.take it := by
    obtain ⟨t, ht⟩ := s2
    rw [← ht, List.take_append_of_le_length hit]
  have hdata : st.data = bodyAt body := funext hinv.data_eq
  have hsplit : (r.1.open_.filter (fun x => !(bodyAt body x).isAssignment)).map (bodyAt body)
      = ((st.open_.take it).filter (fun x => !(bodyAt body x).isAssignment)).map (bodyAt body)
        ++ ((r.1.open_.drop it).filter (fun x => !(bodyAt body x).isAssignment)).map
            (bodyAt body) := by
    rw [← htake2, ← List.map_append, ← List.filter_append, List.take_append_drop]
  rw [hsplit, s4, hdata]
  exact List.Sublist.append hsub (List.Sublist.refl _)

/-- What holds whenever the outer loop tests its condition. -/
theorem OuterLoopHead.inv {body : List BodyAggr} {st : ResolveState} {it : Nat}
    (h : OuterLoopHead body st it) :
    ResolveInv body [] st ∧ ReadyInOpen body st ∧ it ≤ st.open_.length
    ∧ (((st.open_.take it).filter (fun x => !(bodyAt body x).isAssignment)).map
        (bodyAt body)).Sublist st.sorted := by
  induction h with
  | start =>
    exact ⟨resolveInit_inv body, resolveInit_ready body, Nat.zero_le _, by simp⟩
  | pass st it r st2 _ hget hfor hwhile ih =>
    obtain ⟨hinv, hready, hit, hsub⟩ := ih
    have hfuel := resolveFuel_ge body
    obtain ⟨r0, hr0, f1, f2, f3, f4, f5, f6, f7⟩ :=
      forOpen_spec body (resolveFuel body) st it [] hinv hit (by omega) (by simp) (by simp)
    rw [hfor] at hr0
    cases Option.some.inj hr0
    obtain ⟨s1, s2, s3, s4, s5⟩ := forOpen_scan _ _ _ _ _ hfor hit
    have hlen := f1.open_length_le
    obtain ⟨st3, hst3, w1, w2⟩ :=
      whileAssign_spec body (resolveFuel body) r.1 r.2.2 f1 f6 (by omega)
    rw [hwhile] at hst3
    cases Option.some.inj hst3
    have hsorted : r.1.sorted <+: st2.sorted :=
      whileAssign_induct (fun s => r.1.sorted <+: s.sorted)
        (fun s x d hs => by
          show r.1.sorted <+: ((s.propagate x).emit d).sorted
          rw [(output_frame s x d).2.1]
          exact hs.trans (List.prefix_append _ _))
        _ _ _ _ _ hwhile (List.prefix_refl _)
    have hq : ReadyInOpen body st2 :=
      whileAssign_induct (ReadyInOpen body) (fun s x d hs => output_ready s x d hs)
        _ _ _ _ _ hwhile
        (forOpen_induct (ReadyInOpen body) (fun s x d hs => output_ready s x d hs)
          _ _ _ _ _ hfor hready)
    refine ⟨w1, hq, ?_, ?_⟩
    · rw [s3]; exact w2.length_le
    · have htake : st2.open_.take r.2.1 = r.1.open_ := by
        rw [s3]
        exact (List.prefix_iff_eq_take.mp w2).symm
      rw [htake]
      exact (forOpen_outputs hinv hit hsub hfor).trans hsorted.sublist

/-! ## Preference for literals that are not assignments -/

/-- C19 (counterexample). In the run on the body `X=1+2, Y=2, not q(X),
not r(Y)` the scan of the open list `[0, 1]` outputs nothing and collects both
assignments. The first round of the loop over the pending assignments outputs
`Y=2`, which binds `Y` and brings `not r(Y)` into the open list; the second
round outputs the assignment `X=1+2` in that state, where the literal
`not r(Y)` is ready and has not been output. -/
theorem assignment_output_while_literal_waits :
    resolve body_X_Y_notqX_notrY = some [lit_Y_eq_2, lit_X_eq_3, lit_not_rY, lit_not_qX]
    ∧ (forOpen (resolveFuel body_X_Y_notqX_notrY) (resolveInit body_X_Y_notqX_notrY) 0 []).map
        (fun r => (r.1.sorted, r.1.open_, r.2)) = some ([], [0, 1], 2, [0, 1])
    ∧ whileAssign (resolveFuel body_X_Y_notqX_notrY) (resolveInit body_X_Y_notqX_notrY)
          [0, 1] []
        = whileAssign (resolveFuel body_X_Y_notqX_notrY - 1)
            (((resolveInit body_X_Y_notqX_notrY).propagate 1).emit lit_Y_eq_2) [0] []
    ∧ (((resolveInit body_X_Y_notqX_notrY).propagate 1).emit lit_Y_eq_2).sorted = [lit_Y_eq_2]
    ∧ (((resolveInit body_X_Y_notqX_notrY).propagate 1).emit lit_Y_eq_2).open_ = [0, 1, 3]
    ∧ bodyAt body_X_Y_notqX_notrY 3 = lit_not_rY
    ∧ lit_not_rY.isAssignment = false
    ∧ (∀ y ∈ consumedNames lit_not_rY.vars,
        (((resolveInit body_X_Y_notqX_notrY).propagate 1).emit lit_Y_eq_2).dep.varBound y
          = true)
    ∧ (whileAssign (resolveFuel body_X_Y_notqX_notrY - 1)
          (((resolveInit body_X_Y_notqX_notrY).propagate 1).emit lit_Y_eq_2) [0] []).map
        (fun s => s.sorted) = some [lit_Y_eq_2, lit_X_eq_3]
    ∧ lit_X_eq_3.isAssignment = true := by
  refine ⟨rfl, rfl, rfl, rfl, rfl, rfl, rfl, ?_, rfl, rfl⟩
  intro y hy
  have hy2 : y = "Y" := by simpa [consumedNames, lit_not_rY, consumes] using hy
  subst hy2
  rfl

/-- C19 (amended). In every pass of the outer loop of the resolver, the scan
of the open list outputs exactly the literals of the scanned part that are
not assignments, in the order of the list, and only collects the assignments
of the scanned part; it ends at the end of the list. So when the loop over the
pending assignments starts, every ready literal of the body is in the open
list and every literal of the open list that is not an assignment has been
output: the first assignment of each pass is output at a moment when no
literal that is not an assignment is ready and waiting. -/
theorem scan_outputs_ready_literals_first (body : List BodyAggr) (st : ResolveState)
    (it : Nat) (h : OuterLoopHead body st it) (hit : st.open_[it]? ≠ none) :
    ∃ (r : ResolveState × Nat × List Nat) (st2 : ResolveState),
      forOpen (resolveFuel body) st it [] = some r
      ∧ whileAssign (resolveFuel body) r.1 r.2.2 [] = some st2
      ∧ OuterLoopHead body st2 r.2.1
      ∧ r.1.sorted = st.sorted
          ++ ((r.1.open_.drop it).filter (fun x => !(bodyAt body x).isAssignment)).map
              (bodyAt body)
      ∧ r.2.2 = (r.1.open_.drop it).filter (fun x => (bodyAt body x).isAssignment)
      ∧ r.2.1 = r.1.open_.length
      ∧ (∀ x, x < body.length →
          (∀ y ∈ consumedNames (bodyAt body x).vars, r.1.dep.varBound y = true) →
          x ∈ r.1.open_)
      ∧ ((r.1.open_.filter (fun x => !(bodyAt body x).isAssignment)).map
          (bodyAt body)).Sublist r.1.sorted := by
  obtain ⟨hinv, hready, hle, hsub⟩ := h.inv
  have hfuel := resolveFuel_ge body
  obtain ⟨r, hfor, f1, f2, f3, f4, f5, f6, f7⟩ :=
    forOpen_spec body (resolveFuel body) st it [] hinv hle (by omega) (by simp) (by simp)
  have hlen := f1.open_length_le
  obtain ⟨st2, hwhile, w1, w2⟩ :=
    whileAssign_spec body (resolveFuel body) r.1 r.2.2 f1 f6 (by omega)
  obtain ⟨s1, s2, s3, s4, s5⟩ := forOpen_scan _ _ _ _ _ hfor hle
  have hdata : st.data = bodyAt body := funext hinv.data_eq
  rw [hdata] at s4 s5
  refine ⟨r, st2, hfor, hwhile, OuterLoopHead.pass st it r st2 h hit hfor hwhile, s4,
    by simpa using s5, s3, ?_, forOpen_outputs hinv hle hsub hfor⟩
  intro x hx hb
  have hq : ReadyInOpen body r.1 :=
    forOpen_induct (ReadyInOpen body) (fun s x d hs => output_ready s x d hs)
      _ _ _ _ _ hfor hready
  refine hq x hx ?_
  rw [f1.depends x, List.length_eq_zero, List.filter_eq_nil_iff]
  intro y hy
  simp [hb y hy]

theorem scan_outputs_ready_literals_first_witness :
    OuterLoopHead body_X_Y_notqX_notrY (resolveInit body_X_Y_notqX_notrY) 0
    ∧ (resolveInit body_X_Y_notqX_notrY).open_[0]? ≠ none
    ∧ ∃ (r : ResolveState × Nat × List Nat) (st2 : ResolveState),
      forOpen (resolveFuel body_X_Y_notqX_notrY) (resolveInit body_X_Y_notqX_notrY) 0 [] = some r
      ∧ whileAssign (resolveFuel body_X_Y_notqX_notrY) r.1 r.2.2 [] = some st2
      ∧ OuterLoopHead body_X_Y_notqX_notrY st2 r.2.1
      ∧ r.1.sorted = (resolveInit body_X_Y_notqX_notrY).sorted
          ++ ((r.1.open_.drop 0).filter
                (fun x => !(bodyAt body_X_Y_notqX_notrY x).isAssignment)).map
              (bodyAt body_X_Y_notqX_notrY)
      ∧ r.2.2 = (r.1.open_.drop 0).filter (fun x => (bodyAt body_X_Y_notqX_notrY x).isAssignment)
      ∧ r.2.1 = r.1.open_.length
      ∧ (∀ x, x < body_X_Y_notqX_notrY.length →
          (∀ y ∈ consumedNames (bodyAt body_X_Y_notqX_notrY x).vars, r.1.dep.varBound y = true) →
          x ∈ r.1.open_)
      ∧ ((r.1.open_.filter (fun x => !(bodyAt body_X_Y_notqX_notrY x).isAssignment)).map
          (bodyAt body_X_Y_notqX_notrY)).Sublist r.1.sorted :=
  ⟨OuterLoopHead.start, by decide,
    scan_outputs_ready_literals_first body_X_Y_notqX_notrY (resolveInit body_X_Y_notqX_notrY) 0
      OuterLoopHead.start (by decide)⟩

/-! ## The order among pending assignments -/

theorem foldl_assignStep_none_bound (assign : List Nat) (st : ResolveState) (next : List Nat)
    (h : ∀ x ∈ assign, st.allBound x = false) :
    assign.foldl assignStep (st, next) = (st, next ++ assign) := by
  induction assign generalizing next with
  | nil => simp
  | cons x assign ih =>
    rw [List.foldl_cons]
    have e : assignStep (st, next) x = (st, next ++ [x]) := by
      simp [assignStep, h x (List.mem_cons_self _ _)]
    rw [e, ih _ (fun y hy => h y (List.mem_cons_of_mem _ hy))]
    simp

/-- A round of the loop over the pending assignments in which no pending
assignment has all its provided variables bound outputs the last one. -/
theorem whileAssign_round (fuel : Nat) (st : ResolveState) (assign : List Nat)
    (hne : assign ≠ []) (h : ∀ x ∈ assign, st.allBound x = false) :
    whileAssign (fuel + 1) st assign []
      = whileAssign fuel
          ((st.propagate (assign.getLast hne)).emit (st.data (assign.getLast hne)))
          assign.dropLast [] := by
  have hempty : assign.isEmpty = false := by
    cases assign with
    | nil => exact absurd rfl hne
    | cons a l => rfl
  rw [whileAssign]
  simp only [hempty, Bool.false_eq_true, if_false, foldl_assignStep_none_bound assign st [] h,
    List.nil_append, List.getLast?_eq_getLast _ hne]

/-- A scan of a part of the open list that holds assignments only. -/
theorem forOpen_all_assign :
    ∀ (fuel : Nat) (st : ResolveState) (it : Nat) (assign : List Nat),
      it ≤ st.open_.length → st.open_.length + 1 ≤ fuel + it →
      (∀ x ∈ st.open_.drop it, (st.data x).isAssignment = true) →
      forOpen fuel st it assign = some (st, st.open_.length, assign ++ st.open_.drop it) := by
  intro fuel
  induction fuel with
  | zero => intro st it assign h1 h2; omega
  | succ fuel ih =>
    intro st it assign h1 h2 hall
    unfold forOpen
    cases hget : st.open_[it]? with
    | none =>
      have hlen : st.open_.length ≤ it := List.getElem?_eq_none_iff.mp hget
      have hd : st.open_.drop it = [] := List.drop_eq_nil_of_le hlen
      have : it = st.open_.length := by omega
      simp only [hd, List.append_nil]
      rw [this]
    | some x =>
      have hlt : it < st.open_.length := (List.getElem?_eq_some_iff.mp hget).1
      have hd := drop_of_getElem_some hget
      have hx : (st.data x).isAssignment = true := hall x (by rw [hd]; simp)
      simp only [hx, Bool.not_true, Bool.false_eq_true, if_false]
      rw [ih st (it + 1) (assign ++ [x]) (by omega) (by omega)
        (fun y hy => hall y (by rw [hd]; exact List.mem_cons_of_mem _ hy)), hd]
      simp

theorem resolveInit_open (body : List BodyAggr) :
    (resolveInit body).open_ = readyAtStart body := by
  have b := buildGraph_inv body
  simp only [resolveInit, SafetyChecker.init, List.nil_append, readyAtStart, b.graph.ents]
  apply List.filter_congr
  intro x _
  rw [b.depends x]
  simp [List.length_eq_zero]

theorem resolveInit_allBound (body : List BodyAggr) (x : Nat)
    (h : providedNames (bodyAt body x).vars ≠ []) : (resolveInit body).allBound x = false := by
  have b := buildGraph_inv body
  unfold ResolveState.allBound
  show ((buildGraph body).entProvides x).all (fun y => (buildGraph body).varBound y) = false
  rw [b.graph.entProvides x, b.unbound]
  cases hp : providedNames (bodyAt body x).vars with
  | nil => exact absurd hp h
  | cons a l => simp

theorem sorted_mono_step (l : List BodyAggr) (s : ResolveState) (x : Nat) (d : BodyAggr)
    (hs : l <+: s.sorted) : l <+: ((s.propagate x).emit d).sorted := by
  rw [(output_frame s x d).2.1]
  exact hs.trans (List.prefix_append _ _)

/-- C20 (counterexample). In the body `X=1+2, q(Z), Y=Z+1` the assignment
`X=1+2` is ready from the start and `Y=Z+1` becomes ready when the scan of the
open list outputs `q(Z)`, so it enters the open list after `X=1+2`, whether
the open list was filled with `X=1+2` before `q(Z)` or after it. When the loop
over the pending assignments starts, both assignments are ready and pending
and neither has its provided variable bound; the resolver outputs `Y=Z+1`,
the later one in body order, first. -/
theorem later_ready_assignment_output_first :
    bodyAt body_X_qZ_Y 0 = lit_X_eq_3 ∧ bodyAt body_X_qZ_Y 2 = lit_Y_eq_Z1
    ∧ lit_X_eq_3.isAssignment = true ∧ lit_Y_eq_Z1.isAssignment = true
    ∧ consumedNames lit_X_eq_3.vars = [] ∧ consumedNames lit_Y_eq_Z1.vars = ["Z"]
    ∧ (forOpen (resolveFuel body_X_qZ_Y) (resolveInit body_X_qZ_Y) 0 []).map
        (fun r => (r.1.sorted, r.1.open_, r.2.2, r.1.dep.varBound "Z",
          r.1.allBound 0, r.1.allBound 2))
        = some ([lit_qZ], [0, 1, 2], [0, 2], true, false, false)
    ∧ resolve body_X_qZ_Y = some [lit_qZ, lit_Y_eq_Z1, lit_X_eq_3]
    ∧ (forOpen (resolveFuel body_X_qZ_Y) (resolveInitSeeded body_X_qZ_Y [1, 0]) 0 []).map
        (fun r => (r.1.sorted, r.1.open_, r.2.2, r.1.dep.varBound "Z",
          r.1.allBound 0, r.1.allBound 2))
        = some ([lit_qZ], [1, 0, 2], [0, 2], true, false, false)
    ∧ (forOuter (resolveFuel body_X_qZ_Y) (resolveFuel body_X_qZ_Y)
          (resolveInitSeeded body_X_qZ_Y [1, 0]) 0).map (fun s => s.sorted)
        = some [lit_qZ, lit_Y_eq_Z1, lit_X_eq_3] :=
  ⟨rfl, rfl, rfl, rfl, rfl, rfl, rfl, rfl, rfl, rfl⟩

/-- C20 (amended). Whenever a round of the loop over the pending assignments
finds that no pending assignment has all its provided variables bound, it
outputs (and lets bind) the assignment at the back of the pending vector and
goes on with the others, so the output of the loop begins with this
assignment; the pending vector holds the assignments of the scanned part of
the open list in the order of that list, so the assignment output first is
the pending one that entered the open list last. -/
theorem last_pending_assignment_first (fuel : Nat) (st : ResolveState) (assign : List Nat)
    (ha : assign ≠ []) (h : ∀ x ∈ assign, st.allBound x = false) :
    whileAssign (fuel + 1) st assign []
      = whileAssign fuel
          ((st.propagate (assign.getLast ha)).emit (st.data (assign.getLast ha)))
          assign.dropLast []
    ∧ (∀ st2, whileAssign (fuel + 1) st assign [] = some st2 →
        st.sorted ++ [st.data (assign.getLast ha)] <+: st2.sorted)
    ∧ (∀ (fuel2 : Nat) (s : ResolveState) (it : Nat) (r : ResolveState × Nat × List Nat),
        forOpen fuel2 s it [] = some r → it ≤ s.open_.length →
        r.2.2 = (r.1.open_.drop it).filter (fun x => (s.data x).isAssignment)) := by
  have hround := whileAssign_round fuel st assign ha h
  refine ⟨hround, ?_,
    fun fuel2 s it r hr hit => by simpa using (forOpen_scan fuel2 s it [] r hr hit).2.2.2.2⟩
  intro st2 h2
  rw [hround] at h2
  exact whileAssign_induct
    (fun s => st.sorted ++ [st.data (assign.getLast ha)] <+: s.sorted)
    (fun s x d hs => sorted_mono_step _ s x d hs) _ _ _ _ _ h2
    (by
      show _ <+: ((st.propagate (assign.getLast ha)).emit (st.data (assign.getLast ha))).sorted
      rw [(output_frame st _ _).2.1])

/-- Witness of C20 (amended): in the run on `X=1+2, q(Z), Y=Z+1` the scan of the
open list leaves the pending assignments `[0, 2]`, none with its provided
variable bound, and the loop over them outputs `Y=Z+1` first. -/
theorem last_pending_assignment_first_witness :
    ([0, 2] : List Nat) ≠ []
    ∧ (∀ x ∈ [0, 2], state_X_qZ_Y.allBound x = false)
    ∧ (forOpen (resolveFuel body_X_qZ_Y) (resolveInit body_X_qZ_Y) 0 []).map
        (fun r => (r.1.sorted, r.1.open_, r.1.bound, r.2.2))
        = some (state_X_qZ_Y.sorted, state_X_qZ_Y.open_, state_X_qZ_Y.bound, [0, 2])
    ∧ state_X_qZ_Y.data 2 = lit_Y_eq_Z1
    ∧ whileAssign (7 + 1) state_X_qZ_Y [0, 2] []
        = whileAssign 7 ((state_X_qZ_Y.propagate 2).emit (state_X_qZ_Y.data 2)) [0] []
    ∧ (whileAssign (7 + 1) state_X_qZ_Y [0, 2] []).map (fun s => s.sorted)
        = some [lit_qZ, lit_Y_eq_Z1, lit_X_eq_3] :=
  ⟨by decide, by decide, rfl, rfl,
   (last_pending_assignment_first 7 state_X_qZ_Y [0, 2] (by decide) (by decide)).1, rfl⟩

/-! ## Bodies without assignment -/

theorem foldl_numAssign (body : List BodyAggr) (n : Nat) :
    body.foldl (fun n y => if y.isAssignment then n + 1 else n) n
      = n + (body.filter (fun y => y.isAssignment)).length := by
  induction body generalizing n with
  | nil => simp
  | cons y ys ih =>
    rw [List.foldl_cons, ih]
    by_cases hy : y.isAssignment = true
    · simp [hy]; omega
    · simp [hy]

theorem numAssign_eq_zero_iff (body : List BodyAggr) :
    numAssign body = 0 ↔ ∀ y ∈ body, y.isAssignment = false := by
  unfold numAssign
  rw [foldl_numAssign, Nat.zero_add, List.length_eq_zero, List.filter_eq_nil_iff]
  simp

/-- C27: if no element of the body is an assignment, `_rewriteAssignments`
returns the body as it is, the same elements in the same order, and leaves
the `SplitVec` as it is. -/
theorem no_assignment_identity (body : List BodyAggr) (loc : Location) (splits : SplitVec)
    (h : ∀ y ∈ body, y.isAssignment = false) :
    _rewriteAssignments body loc splits = some (body, splits) := by
  unfold _rewriteAssignments
  rw [if_neg (by rw [not_not]; exact (numAssign_eq_zero_iff body).mpr h)]

/-- Witness of C27 at the body `not q(X), q(X)` and a `SplitVec` with one
entry. -/
theorem no_assignment_identity_witness :
    (∀ y ∈ [lit_not_qX, lit_qX], y.isAssignment = false)
    ∧ _rewriteAssignments [lit_not_qX, lit_qX] exLoc
        [(splitLiteral "#split0" [⟨"Y", 0⟩], [lit_Y_eq_2])]
      = some ([lit_not_qX, lit_qX], [(splitLiteral "#split0" [⟨"Y", 0⟩], [lit_Y_eq_2])]) :=
  ⟨by decide,
   no_assignment_identity [lit_not_qX, lit_qX] exLoc
     [(splitLiteral "#split0" [⟨"Y", 0⟩], [lit_Y_eq_2])] (by decide)⟩

/-! ## Assignments whose variables are bound already -/

theorem foldl_bindVar_bound (l : List String) (st : ResolveState)
    (h : ∀ y ∈ l, st.dep.varBound y = true) : l.foldl ResolveState.bindVar st = st := by
  induction l with
  | nil => rfl
  | cons y l ih =>
    rw [List.foldl_cons]
    have e : st.bindVar y = st := by
      unfold ResolveState.bindVar
      rw [if_pos (h y (List.mem_cons_self _ _))]
    rw [e]
    exact ih (fun z hz => h z (List.mem_cons_of_mem _ hz))

theorem propagate_allBound (st : ResolveState) (x : Nat) (h : st.allBound x = true) :
    st.propagate x = st := by
  unfold ResolveState.propagate
  apply foldl_bindVar_bound
  unfold ResolveState.allBound at h
  simpa [List.all_eq_true] using h

theorem splitLoop_not_assignment (x : BodyAggr) (rest done : List BodyAggr) (splits : SplitVec)
    (h : x.isAssignment = false) :
    splitLoop (x :: rest) done splits = splitLoop rest (done ++ [x]) splits := by
  conv_lhs => unfold splitLoop
  simp [h]

/-- C22: when the loop over the pending assignments examines an assignment
all of whose provided variables are bound, it removes the assignment status
and outputs the literal as a check: the state of the resolver stays as it
is but for the output (no variable is bound, no literal enters the open list),
the pending vector for the next round stays as it is, and the literal output
triggers no split in the loop over the resolved order. For the body
`q(X), X=Y+1, r(Y)` the resolved order is `q(X), r(Y), X=Y+1`, the last one as
a check, and no split is generated. -/
theorem bound_assignment_becomes_check (st : ResolveState) (next : List Nat) (x : Nat)
    (h : st.allBound x = true) :
    assignStep (st, next) x = (st.emit (st.data x).removeAssignment, next)
    ∧ (st.data x).removeAssignment.isAssignment = false
    ∧ (∀ (rest done : List BodyAggr) (splits : SplitVec),
        splitLoop ((st.data x).removeAssignment :: rest) done splits
          = splitLoop rest (done ++ [(st.data x).removeAssignment]) splits)
    ∧ resolve body_qX_XY_rY = some [lit_qX, lit_rY, lit_X_eq_Y1.removeAssignment]
    ∧ _rewriteAssignments body_qX_XY_rY exLoc []
        = some ([lit_qX, lit_rY, lit_X_eq_Y1.removeAssignment], []) := by
  refine ⟨?_, rfl, fun rest done splits => splitLoop_not_assignment _ rest done splits rfl,
    rfl, rfl⟩
  unfold assignStep
  simp only [h, Bool.not_true, Bool.false_eq_true, if_false]
  rw [propagate_allBound st x h]

/-- Witness of C22: in the run on `q(X), X=Y+1, r(Y)`, after the scan has output
`q(X)` and `r(Y)`, the pending assignment `X=Y+1` has its variable `X` bound
and is output as a check. -/
theorem bound_assignment_becomes_check_witness :
    state_qX_rY.allBound 1 = true
    ∧ (forOpen (resolveFuel body_qX_XY_rY) (resolveInit body_qX_XY_rY) 0 []).map
        (fun r => (r.1.sorted, r.1.open_, r.1.bound, r.2.2))
        = some (state_qX_rY.sorted, state_qX_rY.open_, state_qX_rY.bound, [1])
    ∧ ((assignStep (state_qX_rY, []) 1).1.sorted, (assignStep (state_qX_rY, []) 1).1.bound,
        (assignStep (state_qX_rY, []) 1).1.open_, (assignStep (state_qX_rY, []) 1).2)
        = ([lit_qX, lit_rY, lit_X_eq_Y1.removeAssignment], ["X", "Y"], [0, 2, 1], []) :=
  ⟨rfl, rfl,
   by rw [(bound_assignment_becomes_check state_qX_rY [] 1 rfl).1]; rfl⟩

/-! ## The body left after the splits -/

theorem length_splitEntries (segs : List (List BodyAggr)) (n : Nat) (done : List BodyAggr) :
    (splitEntries n done segs).length = segs.length := by
  induction segs generalizing n done with
  | nil => rfl
  | cons s sg ih => simp [splitEntries, ih]

/-- After at least one segment the accumulated output is the body literal of
the last split alone. -/
theorem splitDone_last :
    ∀ (segs : List (List BodyAggr)) (n : Nat) (done : List BodyAggr), segs ≠ [] →
      ∃ e, (splitEntries n done segs).getLast? = some e
        ∧ e.1 = splitLiteral (splitName (n + segs.length - 1)) (splitArgs e.2)
        ∧ splitDone n done segs
            = [splitBodyLiteral (splitName (n + segs.length - 1)) (splitArgs e.2)] := by
  intro segs
  induction segs with
  | nil => intro n done h; exact absurd rfl h
  | cons seg segs ih =>
    intro n done _
    by_cases hs : segs = []
    · subst hs
      refine ⟨(splitLiteral (splitName n) (splitArgs (done ++ seg)), done ++ seg), ?_, ?_, ?_⟩
      · simp [splitEntries]
      · simp
      · simp [splitDone]
    · obtain ⟨e, h1, h2, h3⟩ :=
        ih (n + 1) [splitBodyLiteral (splitName n) (splitArgs (done ++ seg))] hs
      have hpos : 0 < segs.length := List.length_pos.mpr hs
      have hidx : n + (seg :: segs).length - 1 = n + 1 + segs.length - 1 := by
        simp only [List.length_cons]; omega
      have hne : splitEntries (n + 1)
          [splitBodyLiteral (splitName n) (splitArgs (done ++ seg))] segs ≠ [] := by
        intro h0
        have := length_splitEntries segs (n + 1)
          [splitBodyLiteral (splitName n) (splitArgs (done ++ seg))]
        rw [h0] at this
        simp at this
        omega
      refine ⟨e, ?_, ?_, ?_⟩
      · unfold splitEntries
        generalize splitEntries (n + 1)
          [splitBodyLiteral (splitName n) (splitArgs (done ++ seg))] segs = L at hne h1
        cases L with
        | nil => exact absurd rfl hne
        | cons b l =>
          rw [List.getLast?_cons_cons]
          exact h1
      · rw [hidx]; exact h2
      · unfold splitDone
        rw [hidx]; exact h3

/-- C24: for a body with an assignment the resolved order is cut into the
segments that each end with a triggering assignment, and a last part. Each
new entry of the `SplitVec` is the pair of the split literal and the output
accumulated since the split before it (for the first entry the first
segment, for a later entry the body literal of the split before it followed
by its own segment). When at least one split is generated, the body
returned is the body literal of the last split followed by the literals
resolved after the last triggering assignment. -/
theorem final_body_restarts_with_last_split (body : List BodyAggr) (loc : Location)
    (splits : SplitVec) (h : numAssign body ≠ 0) :
    ∃ (r : List BodyAggr × SplitVec) (sorted : List BodyAggr)
      (segs : List (List BodyAggr)) (tail : List BodyAggr) (new : SplitVec),
      _rewriteAssignments body loc splits = some r
      ∧ resolve body = some sorted
      ∧ sorted = segs.flatten ++ tail
      ∧ (∀ seg ∈ segs, IsSegment seg)
      ∧ r.2 = splits ++ new
      ∧ new.length = segs.length
      ∧ (new ≠ [] → ∃ e, new.getLast? = some e
          ∧ e.1 = splitLiteral (splitName (splits.length + new.length - 1)) (splitArgs e.2)
          ∧ r.1 = splitBodyLiteral (splitName (splits.length + new.length - 1))
                    (splitArgs e.2) :: tail)
      ∧ (∀ e, new[0]? = some e → segs[0]? = some e.2)
      ∧ (∀ (i : Nat) (e1 e2 : Literal × List BodyAggr),
          new[i]? = some e1 → new[i + 1]? = some e2 →
          ∃ seg, segs[i + 1]? = some seg
            ∧ e1.1 = splitLiteral (splitName (splits.length + i)) (splitArgs e1.2)
            ∧ e2.2 = splitBodyLiteral (splitName (splits.length + i)) (splitArgs e1.2)
                :: seg) := by
  obtain ⟨sorted, hs, _⟩ := resolve_spec body
  obtain ⟨segs, tail, h1, h2, _, _, h5⟩ := splitLoop_shape sorted [] splits
  obtain ⟨g1, g2⟩ := splitEntries_getElem segs splits.length []
  have hlen := length_splitEntries segs splits.length []
  refine ⟨splitLoop sorted [] splits, sorted, segs, tail, splitEntries splits.length [] segs,
    ?_, hs, h1, h2, by rw [h5], hlen, ?_, ?_, g2⟩
  · unfold _rewriteAssignments
    rw [if_pos h, hs]
  · intro hne
    have hsegs : segs ≠ [] := by
      intro h0
      subst h0
      exact hne rfl
    obtain ⟨e, e1, e2, e3⟩ := splitDone_last segs splits.length [] hsegs
    refine ⟨e, e1, ?_, ?_⟩
    · rw [hlen]; exact e2
    · rw [h5, hlen]
      show splitDone splits.length [] segs ++ tail = _
      rw [e3]
      rfl
  · intro e he
    obtain ⟨seg, hseg1, hseg2⟩ := g1 e he
    simp only [List.nil_append] at hseg2
    rw [hseg2]
    exact hseg1

/-- Witness of C24 at the body `X = 1+2, Y = 2, not q(X)`, which yields two
splits and the final body `#split1(X,Y), not q(X)`. -/
theorem final_body_restarts_with_last_split_witness :
    numAssign body_X_Y_notqX ≠ 0
    ∧ _rewriteAssignments body_X_Y_notqX exLoc []
        = some ([splitBodyLiteral "#split1" [⟨"X", 0⟩, ⟨"Y", 0⟩], lit_not_qX],
                [(splitLiteral "#split0" [⟨"Y", 0⟩], [lit_Y_eq_2]),
                 (splitLiteral "#split1" [⟨"X", 0⟩, ⟨"Y", 0⟩],
                   [splitBodyLiteral "#split0" [⟨"Y", 0⟩], lit_X_eq_3])])
    ∧ ∃ (r : List BodyAggr × SplitVec) (sorted : List BodyAggr)
      (segs : List (List BodyAggr)) (tail : List BodyAggr) (new : SplitVec),
      _rewriteAssignments body_X_Y_notqX exLoc [] = some r
      ∧ resolve body_X_Y_notqX = some sorted
      ∧ sorted = segs.flatten ++ tail
      ∧ (∀ seg ∈ segs, IsSegment seg)
      ∧ r.2 = [] ++ new
      ∧ new.length = segs.length
      ∧ (new ≠ [] → ∃ e, new.getLast? = some e
          ∧ e.1 = splitLiteral (splitName (([] : SplitVec).length + new.length - 1))
                    (splitArgs e.2)
          ∧ r.1 = splitBodyLiteral (splitName (([] : SplitVec).length + new.length - 1))
                    (splitArgs e.2) :: tail)
      ∧ (∀ e, new[0]? = some e → segs[0]? = some e.2)
      ∧ (∀ (i : Nat) (e1 e2 : Literal × List BodyAggr),
          new[i]? = some e1 → new[i + 1]? = some e2 →
          ∃ seg, segs[i + 1]? = some seg
            ∧ e1.1 = splitLiteral (splitName (([] : SplitVec).length + i)) (splitArgs e1.2)
            ∧ e2.2 = splitBodyLiteral (splitName (([] : SplitVec).length + i))
                (splitArgs e1.2) :: seg) :=
  ⟨by decide, by rfl,
   final_body_restarts_with_last_split body_X_Y_notqX exLoc [] (by decide)⟩

/-! ## The arguments of a split are the variables bound so far -/

/-- In an order in which every consumed variable is provided earlier, the
level-0 variables occurring in a front part are those provided by its
literals. -/
theorem levelZero_iff_provided (pre post : List BodyAggr) (h : ProvidedBefore (pre ++ post))
    (v : String) :
    v ∈ levelZeroNames pre ↔ ∃ p ∈ pre, v ∈ providedNames p.vars := by
  constructor
  · intro hv
    simp only [levelZeroNames, List.mem_flatMap, List.mem_map, List.mem_filter,
      decide_eq_true_eq] at hv
    obtain ⟨y, hy, ⟨⟨n, l⟩, b⟩, ⟨hocc, hl⟩, hn⟩ := hv
    simp only at hl hn
    subst hl hn
    cases b with
    | true => exact ⟨y, hy, (mem_providedNames _ _).mpr hocc⟩
    | false =>
      obtain ⟨p1, p2, hsplit⟩ := List.append_of_mem hy
      have hc : n ∈ consumedNames y.vars := by
        simp only [consumedNames, List.mem_map, List.mem_filter, Bool.and_eq_true,
          decide_eq_true_eq, Bool.not_eq_true']
        exact ⟨(⟨n, 0⟩, false), ⟨hocc, rfl, rfl⟩, rfl⟩
      obtain ⟨p, hp, hpv⟩ := h p1 y (p2 ++ post) (by rw [hsplit]; simp) n hc
      exact ⟨p, by rw [hsplit]; exact List.mem_append_left _ hp, hpv⟩
  · rintro ⟨p, hp, hv⟩
    rw [mem_providedNames] at hv
    simp only [levelZeroNames, List.mem_flatMap, List.mem_map, List.mem_filter,
      decide_eq_true_eq]
    exact ⟨p, hp, (⟨v, 0⟩, true), ⟨hv, rfl⟩, rfl⟩

theorem insertOcc_level (ent : Nat) (dep : SafetyChecker) (occ : VarTerm × Bool)
    (h : occ.1.level ≠ 0) : insertOcc ent dep occ = dep := by
  unfold insertOcc
  rw [if_neg h]

/-- C23: every entry that the resolver adds is headed by the split literal
whose arguments are the level-0 variables bound so far, that is those
provided by the literals of the resolved order up to and including the
triggering assignment; they are the level-0 variables occurring in these
literals, each listed once, in strictly ascending order of name. No argument
has a level other than 0, an occurrence of a level other than 0 leaves the
dependency graph as it is, and the edges of the graph of a body are those of
its level-0 occurrences. -/
theorem split_args_are_bound_level_zero (body : List BodyAggr) (loc : Location)
    (splits : SplitVec) :
    (∃ r, _rewriteAssignments body loc splits = some r
      ∧ ∃ new, r.2 = splits ++ new
        ∧ ∀ e ∈ new,
            (∃ name, e.1 = splitLiteral name (splitArgs e.2))
            ∧ List.Pairwise (fun a b : VarTerm => a.name.data < b.name.data) (splitArgs e.2)
            ∧ (∀ v ∈ splitArgs e.2, v.level = 0)
            ∧ ∃ (sorted front : List BodyAggr) (a : BodyAggr) (back : List BodyAggr),
                resolve body = some sorted
                ∧ sorted = front ++ a :: back
                ∧ a.isAssignment = true
                ∧ e.2.getLast? = some a
                ∧ (∀ v : VarTerm, v ∈ splitArgs e.2
                    ↔ v.level = 0 ∧ ∃ p ∈ front ++ [a], v.name ∈ providedNames p.vars)
                ∧ (∀ v : VarTerm, v ∈ splitArgs e.2
                    ↔ v.level = 0 ∧ v.name ∈ levelZeroNames (front ++ [a])))
    ∧ (∀ (ent : Nat) (dep : SafetyChecker) (occ : VarTerm × Bool),
        occ.1.level ≠ 0 → insertOcc ent dep occ = dep)
    ∧ (∀ x, (buildGraph body).entProvides x = providedNames (bodyAt body x).vars)
    ∧ (∀ x, (buildGraph body).entDepends x = (consumedNames (bodyAt body x).vars).length)
    ∧ (∀ x y, ((buildGraph body).varProvides y).count x
        = (consumedNames (bodyAt body x).vars).count y) := by
  have b := buildGraph_inv body
  refine ⟨?_, insertOcc_level, b.graph.entProvides, b.depends, b.graph.varCount⟩
  by_cases h : numAssign body ≠ 0
  · obtain ⟨sorted, hs, hsafe⟩ := resolve_spec body
    obtain ⟨segs, tail, h1, h2, _, _, h5⟩ := splitLoop_shape sorted [] splits
    refine ⟨splitLoop sorted [] splits, ?_, splitEntries splits.length [] segs,
      by rw [h5], ?_⟩
    · unfold _rewriteAssignments
      rw [if_pos h, hs]
    · intro e he
      obtain ⟨g1, front, a, back, g2, g3, g4, g5⟩ :=
        splitEntries_spec segs splits.length [] [] h2 (by simp) e he
      have hsorted : sorted = front ++ a :: (back ++ tail) := by
        rw [h1]
        simp only [List.nil_append] at g2
        rw [g2]
        simp [List.append_assoc]
      have hprov : ProvidedBefore ((front ++ [a]) ++ (back ++ tail)) := by
        have : (front ++ [a]) ++ (back ++ tail) = sorted := by
          rw [hsorted]; simp [List.append_assoc]
        rw [this]
        exact hsafe
      refine ⟨g1, splitArgs_increasing e.2,
        fun v hv => ((mem_splitArgs_names e.2 v).mp hv).1,
        sorted, front, a, back ++ tail, hs, hsorted, g3, g4, ?_, ?_⟩
      · intro v
        rw [mem_splitArgs_names, g5 v.name, levelZero_iff_provided _ _ hprov]
      · intro v
        rw [mem_splitArgs_names, g5 v.name]
  · refine ⟨(body, splits), ?_, [], by simp, by simp⟩
    unfold _rewriteAssignments
    rw [if_neg h]

/-! ## The metamethods `__lt` and `__le` of Lua -/

/-- C28 (the code at the failing input): the function registered as `__lt`
pushes `a <= b` and the one registered as `__le` pushes `a < b`, while
`doCmp` of Python answers `Py_LT` with `a < b` and `Py_LE` with `a <= b`. On
two equal values, like `a` and `a` or `#inf` and `#inf`, `__lt` of Lua gives
true and `__le` gives false, Python gives false for `Py_LT` and true for
`Py_LE`. -/
theorem lua_lt_le_swapped :
    (∀ (ops : CmpOps Value) (a b : Value),
      (Lua.meta ops "__lt").map (fun f => f a b) = some (ops.le a b)
      ∧ (Lua.meta ops "__le").map (fun f => f a b) = some (ops.lt a b)
      ∧ Python.Fun.cmp ops a b .Py_LT = ops.lt a b
      ∧ Python.Fun.cmp ops a b .Py_LE = ops.le a b)
    ∧ (Lua.meta exCmpOps "__lt").map (fun f => f (.ID "a") (.ID "a")) = some true
    ∧ Python.Fun.cmp exCmpOps (.ID "a") (.ID "a") .Py_LT = false
    ∧ (Lua.meta exCmpOps "__le").map (fun f => f (.ID "a") (.ID "a")) = some false
    ∧ Python.Fun.cmp exCmpOps (.ID "a") (.ID "a") .Py_LE = true
    ∧ (Lua.meta exCmpOps "__lt").map (fun f => f .INF .INF) = some true
    ∧ Python.Sup.cmp .Py_LT = false
    ∧ (Lua.meta exCmpOps "__le").map (fun f => f .SUP .SUP) = some false
    ∧ Python.Sup.cmp .Py_LE = true := by
  refine ⟨?_, by decide, by decide, by decide, by decide, by decide, by decide, by decide,
    by decide⟩
  intro ops a b
  refine ⟨by simp [Lua.meta, Lua.ltValue], by simp [Lua.meta, Lua.leValue], ?_, ?_⟩
  · simp [Python.Fun.cmp, Python.doCmp]
  · simp [Python.Fun.cmp, Python.doCmp]

/-! ## Python tuples with fewer than two elements -/

/-- C29 (the code at the failing input): for the Python tuples `(1,)` and `()`
the function `pyToVal` sets the error "cannot convert to value: tuples need
at least two arguments" and goes on: it assigns the tuple value built from
the elements and returns true. -/
theorem pyToVal_short_tuple_returns_true :
    pyToVal (.PyTuple [.PyInt 1]) .SPECIAL none
      = (true, .FUNC "" [.NUM 1],
          some "cannot convert to value: tuples need at least two arguments")
    ∧ pyToVal (.PyTuple []) .SPECIAL none
      = (true, .FUNC "" [],
          some "cannot convert to value: tuples need at least two arguments")
    ∧ pyToVal (.Other "float") .SPECIAL none
      = (false, .SPECIAL, some "cannot convert to value: unexpected float() object") := by
  refine ⟨by rfl, by rfl, by rfl⟩

/-! ## The function `split` -/

theorem firstOf_none (d : List Char) :
    ∀ (l : List Char) (i : Nat), firstOf d l i = none → ∀ c ∈ l, c ∉ d := by
  intro l
  induction l with
  | nil => intro i _ c hc; simp at hc
  | cons a l ih =>
    intro i h c hc
    unfold firstOf at h
    by_cases ha : a ∈ d
    · rw [if_pos ha] at h; simp at h
    · rw [if_neg ha] at h
      rcases List.mem_cons.mp hc with rfl | hc
      · exact ha
      · exact ih (i + 1) h c hc

theorem firstOf_some (d : List Char) :
    ∀ (l : List Char) (i n : Nat), firstOf d l i = some n →
      ∃ (t : List Char) (c : Char) (rest : List Char),
        l = t ++ c :: rest ∧ (∀ x ∈ t, x ∉ d) ∧ c ∈ d ∧ n = i + t.length := by
  intro l
  induction l with
  | nil => intro i n h; simp [firstOf] at h
  | cons a l ih =>
    intro i n h
    unfold firstOf at h
    by_cases ha : a ∈ d
    · rw [if_pos ha] at h
      exact ⟨[], a, l, rfl, by simp, ha, by simpa using (Option.some.inj h).symm⟩
    · rw [if_neg ha] at h
      obtain ⟨t, c, rest, h1, h2, h3, h4⟩ := ih (i + 1) n h
      refine ⟨a :: t, c, rest, by rw [h1]; rfl, ?_, h3, by simp only [List.length_cons]; omega⟩
      intro x hx
      rcases List.mem_cons.mp hx with rfl | hx
      · exact ha
      · exact h2 x hx

/-- The loop of `split` with `keepEmpty = false`, followed by the last
statement of `split`: started at a position `prev` at the start of the
source or after a delimiter character, it returns, having appended the
maximal runs of the rest of the source to `results`. -/
theorem splitWhile_runs (source d : List Char) :
    ∀ (n : Nat) (l : List Char) (prev fuel : Nat) (results : List (List Char)),
      l.length ≤ n → source.drop prev = l → prev ≤ source.length → l.length + 1 ≤ fuel →
      ∃ (r : Nat × List (List Char)) (ts : List (List Char)),
        splitWhile source d false fuel prev results = some r
        ∧ (if r.1 < source.length then r.2 ++ [source.drop r.1] else r.2) = results ++ ts
        ∧ Runs d l ts := by
  intro n
  induction n with
  | zero =>
    intro l prev fuel results hn hl hp hf
    have hnil : l = [] := List.length_eq_zero.mp (by omega)
    subst hnil
    obtain ⟨f, rfl⟩ : ∃ f, fuel = f + 1 := ⟨fuel - 1, by simp at hf; omega⟩
    have hlen : source.length ≤ prev := by
      have := congrArg List.length hl
      simp at this
      omega
    refine ⟨(prev, results), [], ?_, ?_, Runs.done⟩
    · unfold splitWhile find_first_of
      rw [hl]
      rfl
    · simp only [List.append_nil]
      rw [if_neg (by omega)]
  | succ n ih =>
    intro l prev fuel results hn hl hp hf
    obtain ⟨f, rfl⟩ : ∃ f, fuel = f + 1 := ⟨fuel - 1, by omega⟩
    have hlen : l.length = source.length - prev := by
      rw [← hl]; simp
    cases hfind : firstOf d l prev with
    | none =>
      have hno := firstOf_none d l prev hfind
      have hstep : splitWhile source d false (f + 1) prev results = some (prev, results) := by
        unfold splitWhile find_first_of
        rw [hl, hfind]
      by_cases hlt : prev < source.length
      · have hne : l ≠ [] := by
          intro h0
          rw [h0] at hlen
          simp at hlen
          omega
        refine ⟨(prev, results), [l], hstep, ?_, ?_⟩
        · simp only
          rw [if_pos hlt, hl]
        · have := Runs.run l [] [] hne hno (Or.inl rfl) Runs.done
          simpa using this
      · have h0 : l = [] := List.length_eq_zero.mp (by omega)
        refine ⟨(prev, results), [], hstep, ?_, ?_⟩
        · simp only [List.append_nil]
          rw [if_neg hlt]
        · rw [h0]; exact Runs.done
    | some next =>
      obtain ⟨t, c, rest, h1, h2, h3, h4⟩ := firstOf_some d l prev next hfind
      have hll : l.length = t.length + 1 + rest.length := by
        rw [h1]; simp; omega
      have hdrop : source.drop (next + 1) = rest := by
        have : source.drop (next + 1) = (source.drop prev).drop (t.length + 1) := by
          rw [List.drop_drop, h4]
          congr 1
        rw [this, hl, h1]
        simp
      have hsub : substr source prev (next - prev) = t := by
        unfold substr
        rw [hl, h1, h4]
        simp
      have hstep : splitWhile source d false (f + 1) prev results
          = splitWhile source d false f (next + 1)
              (if t.length != 0 then results ++ [t] else results) := by
        conv_lhs => unfold splitWhile find_first_of
        rw [hl, hfind]
        simp only [Bool.false_or, hsub]
        have : next - prev = t.length := by omega
        rw [this]
      obtain ⟨r, ts, r1, r2, r3⟩ := ih rest (next + 1) f
        (if t.length != 0 then results ++ [t] else results)
        (by omega) hdrop (by omega) (by omega)
      have hskip : Runs d (c :: rest) ts := Runs.skip c rest ts h3 r3
      by_cases ht : t = []
      · refine ⟨r, ts, by rw [hstep]; exact r1, ?_, ?_⟩
        · rw [r2, ht]; simp
        · rw [h1, ht]; exact hskip
      · have hpos : t.length ≠ 0 := by
          intro h0; exact ht (List.length_eq_zero.mp h0)
        refine ⟨r, t :: ts, by rw [hstep]; exact r1, ?_, ?_⟩
        · rw [r2]; simp [hpos]
        · rw [h1]
          exact Runs.run t (c :: rest) ts ht h2 (Or.inr ⟨c, rest, rfl, h3⟩) hskip

theorem Runs.props {d : List Char} {source : List Char} {tokens : List (List Char)}
    (h : Runs d source tokens) :
    (∀ t ∈ tokens, t ≠ []) ∧ (∀ t ∈ tokens, ∀ c ∈ t, c ∉ d)
    ∧ tokens.flatten = source.filter (fun c => decide (c ∉ d)) := by
  induction h with
  | done => simp
  | skip c cs tokens hc _ ih =>
    obtain ⟨i1, i2, i3⟩ := ih
    refine ⟨i1, i2, ?_⟩
    rw [i3, List.filter_cons_of_neg (by simpa using hc)]
  | run t rest tokens ht hno _ _ ih =>
    obtain ⟨i1, i2, i3⟩ := ih
    refine ⟨?_, ?_, ?_⟩
    · intro x hx
      rcases List.mem_cons.mp hx with rfl | hx
      · exact ht
      · exact i1 x hx
    · intro x hx
      rcases List.mem_cons.mp hx with rfl | hx
      · exact hno
      · exact i2 x hx
    · rw [List.flatten_cons, i3, List.filter_append]
      congr 1
      exact (List.filter_eq_self.mpr (by simpa using hno)).symm

/-- A run is determined by what follows the position where it starts. -/
theorem run_unique (d : List Char) :
    ∀ (t t2 rest rest2 : List Char), t ++ rest = t2 ++ rest2 →
      (∀ c ∈ t, c ∉ d) → (∀ c ∈ t2, c ∉ d) →
      (rest = [] ∨ ∃ c cs, rest = c :: cs ∧ c ∈ d) →
      (rest2 = [] ∨ ∃ c cs, rest2 = c :: cs ∧ c ∈ d) →
      t = t2 ∧ rest = rest2 := by
  intro t
  induction t with
  | nil =>
    intro t2 rest rest2 h h1 h2 h3 h4
    cases t2 with
    | nil => exact ⟨rfl, by simpa using h⟩
    | cons b t2 =>
      exfalso
      rcases h3 with h3 | ⟨c, cs, h3, hc⟩
      · rw [h3] at h; simp at h
      · rw [h3] at h
        simp only [List.nil_append, List.cons_append, List.cons.injEq] at h
        exact h2 b (List.mem_cons_self _ _) (h.1 ▸ hc)
  | cons a t ih =>
    intro t2 rest rest2 h h1 h2 h3 h4
    cases t2 with
    | nil =>
      exfalso
      rcases h4 with h4 | ⟨c, cs, h4, hc⟩
      · rw [h4] at h; simp at h
      · rw [h4] at h
        simp only [List.nil_append, List.cons_append, List.cons.injEq] at h
        exact h1 a (List.mem_cons_self _ _) (h.1 ▸ hc)
    | cons b t2 =>
      simp only [List.cons_append, List.cons.injEq] at h
      obtain ⟨e1, e2⟩ := ih t2 rest rest2 h.2
        (fun c hc => h1 c (List.mem_cons_of_mem _ hc))
        (fun c hc => h2 c (List.mem_cons_of_mem _ hc)) h3 h4
      exact ⟨by rw [h.1, e1], e2⟩

/-- The maximal runs of a source are determined by the source. -/
theorem Runs.unique {d : List Char} {source : List Char} {ts1 : List (List Char)}
    (h1 : Runs d source ts1) :
    ∀ ts2, Runs d source ts2 → ts2 = ts1 := by
  induction h1 with
  | done =>
    intro ts2 h2
    generalize hs : ([] : List Char) = s at h2
    cases h2 with
    | done => rfl
    | skip c cs tokens _ _ => simp at hs
    | run t rest tokens ht _ _ _ =>
      exfalso
      have := congrArg List.length hs
      simp at this
      exact ht (List.length_eq_zero.mp (by omega))
  | skip c cs tokens hc _ ih =>
    intro ts2 h2
    generalize hs : c :: cs = s at h2
    cases h2 with
    | done => simp at hs
    | skip c2 cs2 tokens2 _ hr =>
      simp only [List.cons.injEq] at hs
      rw [← hs.2] at hr
      exact ih _ hr
    | run t rest tokens2 ht hno _ _ =>
      exfalso
      cases t with
      | nil => exact ht rfl
      | cons a t =>
        simp only [List.cons_append, List.cons.injEq] at hs
        exact hno a (List.mem_cons_self _ _) (hs.1 ▸ hc)
  | run t rest tokens ht hno hrest _ ih =>
    intro ts2 h2
    generalize hs : t ++ rest = s at h2
    cases h2 with
    | done =>
      exfalso
      simp only [List.append_eq_nil] at hs
      exact ht hs.1
    | skip c2 cs2 tokens2 hc2 _ =>
      exfalso
      cases t with
      | nil => exact ht rfl
      | cons a t =>
        simp only [List.cons_append, List.cons.injEq] at hs
        exact hno a (List.mem_cons_self _ _) (hs.1 ▸ hc2)
    | run t2 rest2 tokens2 ht2 hno2 hrest2 hr =>
      obtain ⟨e1, e2⟩ := run_unique d t t2 rest rest2 hs hno hno2 hrest hrest2
      rw [← e2] at hr
      rw [ih _ hr, e1]

/-- C30: for every source string and every set of delimiter characters,
`split(source, delimiter, false)` returns the maximal non-empty runs of
characters of the source that are no delimiter, in order of occurrence, and
these runs are determined by the source: no token is empty, no token
contains a delimiter character, and the tokens concatenated are the source
with its delimiter characters removed. -/
theorem split_maximal_runs (source delimiter : List Char) :
    ∃ tokens, split source delimiter false = some tokens
      ∧ Runs delimiter source tokens
      ∧ (∀ tokens2, Runs delimiter source tokens2 → tokens2 = tokens)
      ∧ (∀ t ∈ tokens, t ≠ [])
      ∧ (∀ t ∈ tokens, ∀ c ∈ t, c ∉ delimiter)
      ∧ tokens.flatten = source.filter (fun c => decide (c ∉ delimiter))
      ∧ split "a,,b/c,".data ",".data false = some ["a".data, "b/c".data] := by
  obtain ⟨r, ts, h1, h2, h3⟩ := splitWhile_runs source delimiter source.length source 0
    (source.length + 1) [] (Nat.le_refl _) rfl (Nat.zero_le _) (Nat.le_refl _)
  obtain ⟨p1, p2, p3⟩ := h3.props
  refine ⟨ts, ?_, h3, h3.unique, p1, p2, p3, by decide⟩
  unfold split
  rw [h1]
  simp only [List.nil_append] at h2
  rw [← h2]

/-! ## The pass that extracts the aggregates -/

theorem getElem?_of_drop_eq_map {α β : Type} (f : α → β) (b : List β) (l : List α) (k : Nat)
    (h : b.drop k = (l.drop k).map f) (y : α) (hy : l[k]? = some y) : b[k]? = some (f y) := by
  have h0 := congrArg (fun m => m[0]?) h
  simp only [List.getElem?_drop, Nat.add_zero, List.getElem?_map, hy, Option.map_some'] at h0
  exact h0

theorem take_set_of_le {α : Type} (l : List α) (j k : Nat) (a : α) (h : j ≤ k) :
    (l.set k a).take j = l.take j := by
  apply List.ext_getElem?
  intro i
  by_cases hi : i < j
  · rw [List.getElem?_take_of_lt hi, List.getElem?_take_of_lt hi,
      List.getElem?_set_ne (by omega)]
  · rw [List.getElem?_take_eq_none (by omega), List.getElem?_take_eq_none (by omega)]

theorem drop_set_of_lt {α : Type} (l : List α) (j k : Nat) (a : α) (h : k < j) :
    (l.set k a).drop j = l.drop j := by
  apply List.ext_getElem?
  intro i
  rw [List.getElem?_drop, List.getElem?_drop, List.getElem?_set_ne (by omega)]

theorem take_succ_set {α : Type} (l : List α) (j : Nat) (a : α) (h : j < l.length) :
    (l.set j a).take (j + 1) = l.take j ++ [a] := by
  rw [List.take_succ, take_set_of_le l j j a (Nat.le_refl _)]
  congr 1
  simp [h]

theorem aggregateCalls_snoc {B : Type} (ops : AggrOps B) (pre : List B) (y : B) :
    aggregateCalls ops (pre ++ [y])
      = ((aggregateCalls ops pre).1
            ++ [((ops.rewriteAggregates y (aggregateCalls ops pre).2).1,
                 (ops.rewriteAggregates y (aggregateCalls ops pre).2).2.1)],
         (ops.rewriteAggregates y (aggregateCalls ops pre).2).2.2) := by
  unfold aggregateCalls
  rw [List.foldl_append]
  rfl

theorem length_aggregateCalls {B : Type} (ops : AggrOps B) (body : List B) :
    (aggregateCalls ops body).1.length = body.length := by
  induction body using List.reverseRecOn with
  | nil => rfl
  | append_singleton pre y ih =>
    rw [aggregateCalls_snoc]
    simp [ih]

/-- The state of the loop of `_rewriteAggregates` after the first `k`
positions: the entries before `jt` are the elements kept so far, the entries
from `k` on are the original elements, and `aggr` holds what the calls so far
have generated. -/
theorem foldl_aggrStep {B : Type} (ops : AggrOps B) (body : List B) :
    ∀ k, k ≤ body.length →
      ∃ (b : List (Option B)) (jt : Nat),
        (List.range k).foldl (aggrStep ops) (some (body.map some, 0, []))
          = some (b, jt, (aggregateCalls ops (body.take k)).2)
        ∧ b.length = body.length ∧ jt ≤ k
        ∧ b.take jt = ((((aggregateCalls ops (body.take k)).1.filter (fun c => c.1)).map
            (fun c => c.2))).map some
        ∧ b.drop k = (body.drop k).map some := by
  intro k
  induction k with
  | zero =>
    intro _
    exact ⟨body.map some, 0, rfl, by simp, Nat.le_refl _, by simp [aggregateCalls], by simp⟩
  | succ k ih =>
    intro hk
    obtain ⟨b, jt, h1, h2, h3, h4, h5⟩ := ih (by omega)
    have hlt : k < body.length := by omega
    have hy : body[k]? = some body[k] := List.getElem?_eq_getElem hlt
    have hb : b[k]? = some (some body[k]) := getElem?_of_drop_eq_map some b body k h5 _ hy
    have htake : body.take (k + 1) = body.take k ++ [body[k]] := by
      rw [List.take_succ, hy]; rfl
    have hdrop : b.drop (k + 1) = (body.drop (k + 1)).map some := by
      apply List.ext_getElem?
      intro i
      have h0 := congrArg (fun m => m[i + 1]?) h5
      simp only [List.getElem?_drop, List.getElem?_map] at h0 ⊢
      rw [show k + 1 + i = k + (i + 1) by omega]
      exact h0
    rw [List.range_succ, List.foldl_append, h1, htake, aggregateCalls_snoc]
    simp only [List.foldl_cons, List.foldl_nil, aggrStep, hb]
    generalize hr : ops.rewriteAggregates body[k] (aggregateCalls ops (body.take k)).2 = r
    by_cases hkeep : r.1 = true
    · simp only [hkeep, if_true]
      by_cases hjk : k = jt
      · subst hjk
        refine ⟨_, _, by rw [if_neg (by simp)], by simp [h2], by omega, ?_, ?_⟩
        · rw [take_succ_set _ _ _ (by omega), h4]
          simp [List.filter_append, hkeep]
        · rw [drop_set_of_lt _ _ _ _ (by omega)]
          exact hdrop
      · have hjt : jt < k := by omega
        refine ⟨_, _, by rw [if_pos hjk], by simp [h2], by omega, ?_, ?_⟩
        · rw [take_set_of_le _ _ _ _ (by omega), take_succ_set _ _ _ (by simp; omega),
            take_set_of_le _ _ _ _ (by omega), h4]
          simp [List.filter_append, hkeep]
        · rw [drop_set_of_lt _ _ _ _ (by omega), drop_set_of_lt _ _ _ _ (by omega),
            drop_set_of_lt _ _ _ _ (by omega)]
          exact hdrop
    · simp only [hkeep, Bool.false_eq_true, if_false]
      refine ⟨_, _, rfl, by simp [h2], by omega, ?_, ?_⟩
      · rw [take_set_of_le _ _ _ _ (by omega), h4]
        simp [List.filter_append, hkeep]
      · rw [drop_set_of_lt _ _ _ _ (by omega)]
        exact hdrop

/-- C26: the in-place loop of `_rewriteAggregates` returns, with no entry of
the resulting body moved from, the body of the single stable pass: the
elements for which the call of `rewriteAggregates` returned true, in their
original relative order, followed by the vector `aggr` that the calls have
filled; the method is called once on each original element, in order, each
call on the vector left by the call before, and no generated element is
visited. When each call appends the elements it generates, `aggr` lists
the generated elements in generation order. -/
theorem rewriteAggregates_single_pass {B : Type} (ops : AggrOps B) (body : List B)
    (gen : B → List B) :
    _rewriteAggregates ops body = some ((rewriteAggregatesPass ops body).map some)
    ∧ (aggregateCalls ops body).1.length = body.length
    ∧ ((∀ y aggr, (ops.rewriteAggregates y aggr).2.2 = aggr ++ gen y) →
        (aggregateCalls ops body).2 = body.flatMap gen)
    ∧ _rewriteAggregates exAggrOps [("a", 0), ("b", 1), ("c", 0), ("d", 2), ("e", 0)]
        = some [some ("a", 0), some ("c", 0), some ("d", 0), some ("e", 0),
                some ("aux_b", 0), some ("aux_d", 0)] := by
  refine ⟨?_, length_aggregateCalls ops body, ?_, by decide⟩
  · obtain ⟨b, jt, h1, h2, h3, h4, h5⟩ := foldl_aggrStep ops body body.length (Nat.le_refl _)
    unfold _rewriteAggregates rewriteAggregatesPass
    rw [h1]
    simp only [List.take_length] at h4 ⊢
    rw [h4, List.map_append]
  · intro hgen
    induction body using List.reverseRecOn with
    | nil => rfl
    | append_singleton pre y ih =>
      rw [aggregateCalls_snoc]
      simp only [List.flatMap_append, List.flatMap_cons, List.flatMap_nil, List.append_nil]
      rw [hgen, ih]

/-! ## Traces of the loops of the resolver -/

/-- Trace of the loop over the pending assignments of one round: the
assignments output as checks, in order, and those deferred to `nextAssign`. -/
theorem foldl_assignStep_trace :
    ∀ (assign : List Nat) (st : ResolveState) (next : List Nat),
      ∃ (tr deferred : List Nat),
        (assign.foldl assignStep (st, next)).1.sorted
            = st.sorted ++ tr.map (fun i => (st.data i).removeAssignment)
        ∧ (assign.foldl assignStep (st, next)).2 = next ++ deferred
        ∧ (tr ++ deferred).Perm assign
        ∧ (assign.foldl assignStep (st, next)).1.data = st.data := by
  intro assign
  induction assign with
  | nil => intro st next; exact ⟨[], [], by simp, by simp, by simp, rfl⟩
  | cons x assign ih =>
    intro st next
    rw [List.foldl_cons]
    by_cases hall : st.allBound x = true
    · have e : assignStep (st, next) x
          = ((st.propagate x).emit (st.data x).removeAssignment, next) := by
        simp [assignStep, hall]
      rw [e]
      obtain ⟨tr, deferred, h1, h2, h3, h4⟩ :=
        ih ((st.propagate x).emit (st.data x).removeAssignment) next
      have hd := output_data_fun st x (st.data x).removeAssignment
      rw [hd] at h1 h4
      refine ⟨x :: tr, deferred, ?_, h2, ?_, h4⟩
      · rw [h1, (output_frame st x _).2.1]
        simp
      · simpa using h3
    · have e : assignStep (st, next) x = (st, next ++ [x]) := by
        simp [assignStep, hall]
      rw [e]
      obtain ⟨tr, deferred, h1, h2, h3, h4⟩ := ih st (next ++ [x])
      refine ⟨tr, x :: deferred, h1, by rw [h2]; simp, ?_, h4⟩
      exact List.perm_middle.trans (List.Perm.cons x h3)

/-- Trace of the loop `while (!assign.empty())`: every pending assignment is
output once, as a check or as it is. -/
theorem whileAssign_trace :
    ∀ (fuel : Nat) (st : ResolveState) (assign : List Nat) (st2 : ResolveState),
      whileAssign fuel st assign [] = some st2 →
      ∃ tr : List (Nat × Bool),
        st2.sorted = st.sorted ++ tr.map (emitted st.data)
        ∧ (tr.map (fun e => e.1)).Perm assign
        ∧ st2.data = st.data := by
  intro fuel
  induction fuel with
  | zero => intro st assign st2 h; simp [whileAssign] at h
  | succ fuel ih =>
    intro st assign st2 h
    unfold whileAssign at h
    by_cases hempty : assign.isEmpty = true
    · simp only [hempty, if_true, Option.some.injEq] at h
      subst h
      have : assign = [] := by simpa using hempty
      subst this
      exact ⟨[], by simp, by simp, rfl⟩
    · simp only [hempty, Bool.false_eq_true, if_false] at h
      obtain ⟨tr1, deferred, f1, f2, f3, f4⟩ := foldl_assignStep_trace assign st []
      simp only [List.nil_append] at f2
      have hmap : tr1.map (fun i => (st.data i).removeAssignment)
          = (tr1.map (fun i => (i, true))).map (emitted st.data) := by
        simp [emitted, List.map_map, Function.comp_def]
      cases hlast : (assign.foldl assignStep (st, [])).2.getLast? with
      | none =>
        rw [hlast] at h
        simp only at h
        have hnil : deferred = [] := by
          rw [f2] at hlast
          simpa [List.getLast?_eq_none_iff] using hlast
        obtain ⟨tr2, g1, g2, g3⟩ := ih _ _ _ h
        rw [f4] at g1 g3
        rw [f2, hnil] at g2
        have htr2 : tr2 = [] := by
          have := g2.length_eq
          simpa using this
        subst htr2
        refine ⟨tr1.map (fun i => (i, true)), ?_, ?_, g3⟩
        · rw [g1, f1, hmap]; simp
        · rw [hnil] at f3
          simpa [List.map_map, Function.comp_def] using f3
      | some x =>
        rw [hlast] at h
        simp only at h
        have hdef : deferred = deferred.dropLast ++ [x] := by
          rw [f2] at hlast
          exact (List.dropLast_append_getLast? x hlast).symm
        obtain ⟨tr2, g1, g2, g3⟩ := ih _ _ _ h
        have hd := output_data_fun (assign.foldl assignStep (st, [])).1 x
          ((assign.foldl assignStep (st, [])).1.data x)
        rw [hd, f4] at g1 g3
        rw [f2] at g2
        refine ⟨tr1.map (fun i => (i, true)) ++ (x, false) :: tr2, ?_, ?_, g3⟩
        · rw [g1, (output_frame _ x _).2.1, f1, hmap]
          simp [emitted]
        · simp only [List.map_append, List.map_map, Function.comp_def, List.map_cons,
            List.map_id']
          have h1 : (tr1 ++ x :: tr2.map (fun e => e.1)).Perm (tr1 ++ x :: deferred.dropLast) :=
            List.Perm.append_left tr1 (List.Perm.cons x g2)
          have h2 : (tr1 ++ x :: deferred.dropLast).Perm (tr1 ++ deferred) := by
            apply List.Perm.append_left
            conv_rhs => rw [hdef]
            exact (List.perm_append_singleton x deferred.dropLast).symm
          exact (h1.trans h2).trans f3

/-- Every round of the loop over the pending assignments that starts with a
pending assignment outputs at least one of them and leaves fewer pending. -/
theorem whileAssign_progress (fuel : Nat) (st : ResolveState) (assign : List Nat)
    (hne : assign ≠ []) :
    ∃ (st1 : ResolveState) (assign1 : List Nat),
      whileAssign (fuel + 1) st assign [] = whileAssign fuel st1 assign1 []
      ∧ assign1.length < assign.length
      ∧ st.sorted.length < st1.sorted.length := by
  have hempty : assign.isEmpty = false := by
    cases assign with
    | nil => exact absurd rfl hne
    | cons a l => rfl
  have hpos : 0 < assign.length := List.length_pos.mpr hne
  obtain ⟨tr1, deferred, f1, f2, f3, f4⟩ := foldl_assignStep_trace assign st []
  simp only [List.nil_append] at f2
  have hlen : tr1.length + deferred.length = assign.length := by
    have := f3.length_eq
    simpa using this
  cases hlast : (assign.foldl assignStep (st, [])).2.getLast? with
  | none =>
    have hnil : deferred = [] := by
      rw [f2] at hlast
      simpa [List.getLast?_eq_none_iff] using hlast
    refine ⟨(assign.foldl assignStep (st, [])).1, (assign.foldl assignStep (st, [])).2, ?_, ?_, ?_⟩
    · conv_lhs => unfold whileAssign
      simp only [hempty, Bool.false_eq_true, if_false, hlast]
    · rw [f2, hnil]; simpa using hpos
    · rw [f1]
      rw [hnil] at hlen
      simp at hlen ⊢
      omega
  | some x =>
    have hdef : deferred = deferred.dropLast ++ [x] := by
      rw [f2] at hlast
      exact (List.dropLast_append_getLast? x hlast).symm
    have hdl : deferred.length = deferred.dropLast.length + 1 := by
      conv_lhs => rw [hdef]
      simp
    refine ⟨((assign.foldl assignStep (st, [])).1.propagate x).emit
        ((assign.foldl assignStep (st, [])).1.data x),
      (assign.foldl assignStep (st, [])).2.dropLast, ?_, ?_, ?_⟩
    · conv_lhs => unfold whileAssign
      simp only [hempty, Bool.false_eq_true, if_false, hlast]
    · rw [f2]; omega
    · rw [(output_frame _ x _).2.1, f1]
      simp

/-- Trace of the run of the resolver up to a test of the condition of the
outer loop: the literals output so far are those of the open list before the
position `it`, each output once; those that are no assignment have been
output as they are and in the order of the open list. -/
theorem OuterLoopHead.trace {body : List BodyAggr} {st : ResolveState} {it : Nat}
    (h : OuterLoopHead body st it) :
    ∃ tr : List (Nat × Bool),
      st.sorted = tr.map (emitted (bodyAt body))
      ∧ (tr.map (fun e => e.1)).Perm (st.open_.take it)
      ∧ (tr.map (fun e => e.1)).filter (fun x => !(bodyAt body x).isAssignment)
          = (st.open_.take it).filter (fun x => !(bodyAt body x).isAssignment)
      ∧ ∀ e ∈ tr, e.2 = true → (bodyAt body e.1).isAssignment = true := by
  induction h with
  | start => exact ⟨[], rfl, by simp, by simp, by simp⟩
  | pass st it r st2 hd hget hfor hwhile ih =>
    obtain ⟨tr, t1, t2, t3, t4⟩ := ih
    obtain ⟨hinv, _, hit, _⟩ := hd.inv
    obtain ⟨hinv2, _, _, _⟩ := (OuterLoopHead.pass st it r st2 hd hget hfor hwhile).inv
    obtain ⟨s1, s2, s3, s4, s5⟩ := forOpen_scan _ _ _ _ _ hfor hit
    have hdata : st.data = bodyAt body := funext hinv.data_eq
    rw [hdata] at s1 s4 s5
    simp only [List.nil_append] at s5
    obtain ⟨trw, w1, w2, w3⟩ := whileAssign_trace _ _ _ _ hwhile
    rw [s1] at w1
    have hopen2 : r.1.open_ <+: st2.open_ :=
      whileAssign_induct (fun s => r.1.open_ <+: s.open_)
        (fun s x d hs => hs.trans (output_frame s x d).2.2) _ _ _ _ _ hwhile
        (List.prefix_refl _)
    have htake : st2.open_.take r.2.1 = r.1.open_ := by
      rw [s3]
      exact (List.prefix_iff_eq_take.mp hopen2).symm
    have htake2 : r.1.open_.take it = st.open_.take it := by
      obtain ⟨t, ht⟩ := s2
      rw [← ht, List.take_append_of_le_length hit]
    have hsplit0 : r.1.open_ = st.open_.take it ++ r.1.open_.drop it := by
      rw [← htake2, List.take_append_drop]
    generalize hD : r.1.open_.drop it = D at s4 s5 hsplit0
    have hassign : ∀ x ∈ trw.map (fun e => e.1), (bodyAt body x).isAssignment = true := by
      intro x hx
      have := (w2.mem_iff).mp hx
      rw [s5, List.mem_filter] at this
      exact this.2
    refine ⟨tr ++ (D.filter (fun x => !(bodyAt body x).isAssignment)).map (fun x => (x, false))
        ++ trw, ?_, ?_, ?_, ?_⟩
    · rw [w1, s4, t1]
      simp [emitted, List.map_map, Function.comp_def]
    · rw [htake, hsplit0]
      simp only [List.map_append, List.map_map, Function.comp_def, List.map_id',
        List.append_assoc]
      apply List.Perm.append t2
      have hp : (D.filter (fun x => !(bodyAt body x).isAssignment)
          ++ D.filter (fun x => (bodyAt body x).isAssignment)).Perm D :=
        List.perm_append_comm.trans
          (List.filter_append_perm (fun x => (bodyAt body x).isAssignment) D)
      refine List.Perm.trans (List.Perm.append_left _ ?_) hp
      rw [← s5]
      exact w2
    · rw [htake, hsplit0]
      simp only [List.map_append, List.map_map, Function.comp_def, List.map_id',
        List.filter_append, List.filter_filter, Bool.and_self]
      have hnone : (trw.map (fun e => e.1)).filter (fun x => !(bodyAt body x).isAssignment)
          = [] := by
        rw [List.filter_eq_nil_iff]
        intro x hx
        simp [hassign x hx]
      simp only [List.map_map, Function.comp_def] at hnone
      rw [t3, hnone]
      simp
    · intro e he hflag
      simp only [List.mem_append, List.mem_map, List.mem_filter] at he
      rcases he with (he | ⟨x, _, rfl⟩) | he
      · exact t4 e he hflag
      · simp at hflag
      · exact hassign e.1 (List.mem_map.mpr ⟨e, he, rfl⟩)

/-- The outer loop ends at a test of its condition at which the open list is
exhausted. -/
theorem forOuter_head (body : List BodyAggr) :
    ∀ (fuel : Nat) (st : ResolveState) (it : Nat) (st2 : ResolveState),
      forOuter fuel (resolveFuel body) st it = some st2 → OuterLoopHead body st it →
      OuterLoopHead body st2 st2.open_.length := by
  intro fuel
  induction fuel with
  | zero => intro st it st2 h; simp [forOuter] at h
  | succ fuel ih =>
    intro st it st2 h hd
    unfold forOuter at h
    cases hget : st.open_[it]? with
    | none =>
      rw [hget] at h
      simp only [Option.some.injEq] at h
      subst h
      have hlen : st.open_.length ≤ it := List.getElem?_eq_none_iff.mp hget
      have hle := hd.inv.2.2.1
      have : it = st.open_.length := by omega
      rw [← this]
      exact hd
    | some x =>
      rw [hget] at h
      simp only at h
      cases hfor : forOpen (resolveFuel body) st it [] with
      | none => rw [hfor] at h; simp at h
      | some r =>
        rw [hfor] at h
        simp only at h
        cases hwhile : whileAssign (resolveFuel body) r.1 r.2.2 [] with
        | none => rw [hwhile] at h; simp at h
        | some st3 =>
          rw [hwhile] at h
          simp only at h
          exact ih _ _ _ h
            (OuterLoopHead.pass st it r st3 hd (by rw [hget]; simp) hfor hwhile)

/-- Trace of a whole run of the resolver: the resolved order lists every
literal that has entered the open list once; the open list has no literal
twice and starts with the literals ready from the start, in body order. -/
theorem resolve_trace (body : List BodyAggr) :
    ∃ (st : ResolveState) (tr : List (Nat × Bool)),
      forOuter (resolveFuel body) (resolveFuel body) (resolveInit body) 0 = some st
      ∧ resolve body = some st.sorted
      ∧ OuterLoopHead body st st.open_.length
      ∧ st.sorted = tr.map (emitted (bodyAt body))
      ∧ (tr.map (fun e => e.1)).Perm st.open_
      ∧ (tr.map (fun e => e.1)).filter (fun x => !(bodyAt body x).isAssignment)
          = st.open_.filter (fun x => !(bodyAt body x).isAssignment)
      ∧ (∀ e ∈ tr, e.2 = true → (bodyAt body e.1).isAssignment = true)
      ∧ st.open_.Nodup ∧ st.open_.length ≤ body.length
      ∧ readyAtStart body <+: st.open_ := by
  obtain ⟨st, h1, h2, h3⟩ := forOuter_spec body (resolveFuel body) (resolveFuel_ge body)
    (resolveFuel body) (resolveInit body) 0 (resolveInit_inv body) (Nat.zero_le _)
    (by have := resolveFuel_ge body; omega)
  have hd := forOuter_head body _ _ _ _ h1 OuterLoopHead.start
  obtain ⟨tr, t1, t2, t3, t4⟩ := hd.trace
  rw [List.take_length] at t2 t3
  refine ⟨st, tr, h1, ?_, hd, t1, t2, t3, t4, h2.openNodup, h2.open_length_le, ?_⟩
  · unfold resolve
    rw [h1]
  · rw [← resolveInit_open]
    exact h3

/-! ## The order of the literals that are no assignments -/

theorem readyAtStart_increasing (body : List BodyAggr) :
    (readyAtStart body).Pairwise (fun a b => a < b) :=
  (List.pairwise_lt_range body.length).sublist (List.filter_sublist _)

/-- C21: in the run of the resolver on a body with an assignment, every
literal that has entered the open list is output once, a literal that is no
assignment is output as it is, and the literals that are no assignment are
output in the order in which they stand in the open list, that is the order
in which they have entered it. The open list starts with the literals ready
from the start, in body order, so the literals ready from the start that
are no assignment are output in their order in the body. -/
theorem non_assignments_in_open_order (body : List BodyAggr) (loc : Location)
    (splits : SplitVec) (h : numAssign body ≠ 0) :
    ∃ (st : ResolveState) (tr : List (Nat × Bool)),
      forOuter (resolveFuel body) (resolveFuel body) (resolveInit body) 0 = some st
      ∧ resolve body = some st.sorted
      ∧ _rewriteAssignments body loc splits = some (splitLoop st.sorted [] splits)
      ∧ st.sorted = tr.map (emitted (bodyAt body))
      ∧ (tr.map (fun e => e.1)).Perm st.open_
      ∧ (∀ e ∈ tr, e.2 = true → (bodyAt body e.1).isAssignment = true)
      ∧ (tr.map (fun e => e.1)).filter (fun x => !(bodyAt body x).isAssignment)
          = st.open_.filter (fun x => !(bodyAt body x).isAssignment)
      ∧ (resolveInit body).open_ = readyAtStart body
      ∧ readyAtStart body <+: st.open_
      ∧ (readyAtStart body).Pairwise (fun a b => a < b)
      ∧ (((tr.map (fun e => e.1)).filter (fun x => !(bodyAt body x).isAssignment)).filter
            (fun x => decide (x ∈ readyAtStart body)))
          = (readyAtStart body).filter (fun x => !(bodyAt body x).isAssignment) := by
  obtain ⟨st, tr, h1, h2, _, h4, h5, h6, h7, h8, _, h10⟩ := resolve_trace body
  refine ⟨st, tr, h1, h2, ?_, h4, h5, h7, h6, resolveInit_open body, h10,
    readyAtStart_increasing body, ?_⟩
  · unfold _rewriteAssignments
    rw [if_pos h, h2]
  · obtain ⟨later, hl⟩ := h10
    rw [h6, ← hl, List.filter_append, List.filter_append]
    have hdis : ∀ x ∈ later, x ∉ readyAtStart body := by
      intro x hx hr
      rw [← hl] at h8
      exact (List.nodup_append.mp h8).2.2 hr hx
    have e1 : ((readyAtStart body).filter (fun x => !(bodyAt body x).isAssignment)).filter
        (fun x => decide (x ∈ readyAtStart body))
        = (readyAtStart body).filter (fun x => !(bodyAt body x).isAssignment) := by
      rw [List.filter_eq_self]
      intro x hx
      simpa using (List.mem_filter.mp hx).1
    have e2 : (later.filter (fun x => !(bodyAt body x).isAssignment)).filter
        (fun x => decide (x ∈ readyAtStart body)) = [] := by
      rw [List.filter_eq_nil_iff]
      intro x hx
      simpa using hdis x (List.mem_filter.mp hx).1
    rw [e1, e2, List.append_nil]

/-- Witness of C21 at the body `q(X), Y=2, r(Z), not q(X)`, resolved to
`q(X), r(Z), not q(X), Y=2`. -/
theorem non_assignments_in_open_order_witness :
    numAssign body_qX_Y_rZ_notqX ≠ 0
    ∧ resolve body_qX_Y_rZ_notqX
        = some [lit_qX, ⟨"r(Z)", [provides "Z"], false⟩, lit_not_qX, lit_Y_eq_2]
    ∧ readyAtStart body_qX_Y_rZ_notqX = [0, 1, 2]
    ∧ ∃ (st : ResolveState) (tr : List (Nat × Bool)),
      forOuter (resolveFuel body_qX_Y_rZ_notqX) (resolveFuel body_qX_Y_rZ_notqX)
          (resolveInit body_qX_Y_rZ_notqX) 0 = some st
      ∧ resolve body_qX_Y_rZ_notqX = some st.sorted
      ∧ _rewriteAssignments body_qX_Y_rZ_notqX exLoc [] = some (splitLoop st.sorted [] [])
      ∧ st.sorted = tr.map (emitted (bodyAt body_qX_Y_rZ_notqX))
      ∧ (tr.map (fun e => e.1)).Perm st.open_
      ∧ (∀ e ∈ tr, e.2 = true → (bodyAt body_qX_Y_rZ_notqX e.1).isAssignment = true)
      ∧ (tr.map (fun e => e.1)).filter
            (fun x => !(bodyAt body_qX_Y_rZ_notqX x).isAssignment)
          = st.open_.filter (fun x => !(bodyAt body_qX_Y_rZ_notqX x).isAssignment)
      ∧ (resolveInit body_qX_Y_rZ_notqX).open_ = readyAtStart body_qX_Y_rZ_notqX
      ∧ readyAtStart body_qX_Y_rZ_notqX <+: st.open_
      ∧ (readyAtStart body_qX_Y_rZ_notqX).Pairwise (fun a b => a < b)
      ∧ (((tr.map (fun e => e.1)).filter
              (fun x => !(bodyAt body_qX_Y_rZ_notqX x).isAssignment)).filter
            (fun x => decide (x ∈ readyAtStart body_qX_Y_rZ_notqX)))
          = (readyAtStart body_qX_Y_rZ_notqX).filter
              (fun x => !(bodyAt body_qX_Y_rZ_notqX x).isAssignment) :=
  ⟨by decide, by rfl, by decide,
   non_assignments_in_open_order body_qX_Y_rZ_notqX exLoc [] (by decide)⟩

/-! ## Termination of the resolver -/

/-- C25: `_rewriteAssignments` returns on every body. At every test of the
condition of the outer loop, and when the loops have ended, the open list
has no literal twice and at most as many entries as the body; the resolved
order lists each literal that has entered the open list once, so no literal
is output twice; and every round of the loop over the pending assignments
that starts with a pending assignment outputs at least one of them and
leaves fewer pending, a round without pending assignment ends the loop. -/
theorem resolver_terminates (body : List BodyAggr) (loc : Location) (splits : SplitVec) :
    (∃ r, _rewriteAssignments body loc splits = some r)
    ∧ (∃ (st : ResolveState) (tr : List (Nat × Bool)),
        forOuter (resolveFuel body) (resolveFuel body) (resolveInit body) 0 = some st
        ∧ resolve body = some st.sorted
        ∧ st.open_.Nodup ∧ st.open_.length ≤ body.length
        ∧ (∀ x ∈ st.open_, x < body.length)
        ∧ st.sorted = tr.map (emitted (bodyAt body))
        ∧ (tr.map (fun e => e.1)).Perm st.open_
        ∧ (tr.map (fun e => e.1)).Nodup
        ∧ st.sorted.length ≤ body.length)
    ∧ (∀ (st : ResolveState) (it : Nat), OuterLoopHead body st it →
        st.open_.Nodup ∧ st.open_.length ≤ body.length ∧ it ≤ st.open_.length)
    ∧ (∀ (fuel : Nat) (st : ResolveState) (assign : List Nat), assign ≠ [] →
        ∃ (st1 : ResolveState) (assign1 : List Nat),
          whileAssign (fuel + 1) st assign [] = whileAssign fuel st1 assign1 []
          ∧ assign1.length < assign.length
          ∧ st.sorted.length < st1.sorted.length)
    ∧ (∀ (fuel : Nat) (st : ResolveState), whileAssign (fuel + 1) st [] [] = some st) := by
  refine ⟨rewriteAssignments_total body loc splits, ?_, ?_,
    fun fuel st assign hne => whileAssign_progress fuel st assign hne,
    fun fuel st => by simp [whileAssign]⟩
  · obtain ⟨st, tr, h1, h2, h3, h4, h5, _, _, h8, h9, _⟩ := resolve_trace body
    refine ⟨st, tr, h1, h2, h8, h9, h3.inv.1.openLt, h4, h5, h5.nodup_iff.mpr h8, ?_⟩
    rw [h4, List.length_map]
    have := h5.length_eq
    simp only [List.length_map] at this
    omega
  · intro st it hd
    obtain ⟨hinv, _, hit, _⟩ := hd.inv
    exact ⟨hinv.openNodup, hinv.open_length_le, hit⟩

end Input
end Gringo
